import Mathlib

/-!
The tensorboard.cpp record library: embedding and verified properties.

A shallow embedding of the record framing (`record/crc.h`, `record/file_writer.cc`,
`record/async_file_writer.cc`), of the summary encoders (`record/summary.cc`,
`record/summary.h`), of the recorder (`record/recorder.cc`) and of the path functions it uses
(`record/utils.cc`) of the `nlptk` tensorboard writer, followed by the properties proved about
it.

Conventions of the embedding
* a byte is a `Fin 256`; a `std::string` used as a byte buffer is a `List Byte`;
* unsigned machine integers are `Nat` reduced `% 2 ^ w` where the C++ type is `w` bits wide,
  signed 32-bit values are `Int` wrapped by `wrapI32`;
* raw object bytes (`reinterpret_cast<const char*>(&x)`) are little-endian, as on the x86 and
  ARM hosts the library is built for;
* a `double` the histogram code computes with is an `F64`: NaN, one of the two infinities, or a
  finite value given exactly; `+` and `*` round their exact result to the nearest `double`, ties
  to even, each operation on its own (IEEE 754 binary64), and `<`, `<=`, `>` are false on NaN;
  the sign of zero is not kept, since no operation used here tells `+0.0` from `-0.0`;
* a `float` or `double` that is only stored and never computed with (a scalar value, a time
  stamp, a sample rate, an entry of an embedding matrix) is the rational it stands for;
* an access outside a buffer or a division by zero is a `Fault`.
* the asynchronous writer is followed in program order: the periodic flush of its background
  thread moves buffered bytes to the file and is not a step of the model;
* the file system, the clock, the writer factory and the protobuf serializer of the recorder
  are the fields of a `Host`; the files `AddEmbedding` writes go through a `Disk`, and
  `realpath` is a parameter of the path functions;
* a path or a tag is a `String`, whose characters stand for the bytes of the `std::string`.
-/

namespace nlptk

/-! ## Bytes and machine integers -/

/-- One `char` of a byte buffer. -/
abbrev Byte := Fin 256

/-- ASCII bytes of a string literal, as the tests pass them through `c_str()`. -/
def ascii (s : String) : List Byte := s.toList.map (fun c => Fin.ofNat c.toNat)

/-- The first `k` raw bytes of the object representation of the unsigned value `n`
(little-endian host): what `reinterpret_cast<const char*>(&n)` with `sizeof(n) = k` exposes. -/
def rawBytes : Nat → Nat → List Byte
  | 0, _ => []
  | k + 1, n => ⟨n % 256, Nat.mod_lt n (by decide)⟩ :: rawBytes k (n / 256)

/-- Value of a little-endian byte string. -/
def leValue : List Byte → Nat
  | [] => 0
  | b :: bs => b.val + 256 * leValue bs

/-- Conversion of a `size_t` to `int` (two's complement truncation to 32 bits). -/
def toInt32 (n : Nat) : Int :=
  if n % 2 ^ 32 < 2 ^ 31 then ((n % 2 ^ 32 : Nat) : Int) else ((n % 2 ^ 32 : Nat) : Int) - 2 ^ 32

/-- Wrap-around of a signed 32-bit result. -/
def wrapI32 (x : Int) : Int := (x + 2 ^ 31) % 2 ^ 32 - 2 ^ 31

/-- Product of two `int32_t` values. -/
def mulI32 (a b : Int) : Int := wrapI32 (a * b)

/-- Conversion of an integer to `uint32_t`. -/
def toU32 (x : Int) : Nat := (x % 2 ^ 32).toNat

/-- Conversion of an integer to `size_t` (64 bits). -/
def toSizeT (x : Int) : Nat := (x % 2 ^ 64).toNat

/-- Ways a call can leave defined behaviour. -/
inductive Fault where
  | out_of_bounds
  | div_by_zero
deriving DecidableEq, Repr

/-! ## Checksum engine (`record/crc.h`) -/

/-- Modelled from the spec: one bit of the CRC-32C shift register of the absent `crc.cc`,
with the reflected Castagnoli polynomial `0x82F63B78`. -/
def crcBitStep (c : Nat) : Nat :=
  if c % 2 = 1 then (c >>> 1) ^^^ 0x82F63B78 else c >>> 1

/-- Modelled from the spec: entry `i` of the CRC-32C polynomial table of the absent `crc.cc`. -/
def crcTableEntry (i : Nat) : Nat := crcBitStep^[8] i

/-- Modelled from the spec: the 256-entry CRC-32C polynomial table of the absent `crc.cc`. -/
def crcTable : List Nat := (List.range 256).map crcTableEntry

/-- Modelled from the spec: the table-driven update of the absent `crc.cc` for one byte. -/
def crcUpdate (c : Nat) (b : Byte) : Nat :=
  crcTable.getD ((c ^^^ b.val) % 256) 0 ^^^ (c >>> 8)

/-- Modelled from the spec: `CRC32c(buf, len)` of the absent `crc.cc`, the standard CRC-32C
checksum computed with the polynomial table (initial value and final xor `0xFFFFFFFF`). -/
def CRC32c (buf : List Byte) : Nat :=
  (buf.foldl crcUpdate 0xFFFFFFFF) ^^^ 0xFFFFFFFF

/-- Modelled from the spec: `MaskedCRC32c(buf, len)` of the absent `crc.cc`: the checksum
rotated right by 15 bits plus `0xa282ead8`, in 32-bit unsigned arithmetic. -/
def MaskedCRC32c (buf : List Byte) : Nat :=
  let crc := CRC32c buf
  (((crc >>> 15) ||| ((crc <<< 17) % 2 ^ 32)) + 0xa282ead8) % 2 ^ 32

/-- Reference: one byte of the bit-at-a-time CRC-32C definition. -/
def crcRefByte (c : Nat) (b : Byte) : Nat := crcBitStep^[8] (c ^^^ b.val)

/-- Reference: the standard CRC-32C checksum, bit at a time (reflected Castagnoli polynomial,
register preset to all ones, result complemented). -/
def crc32cReference (buf : List Byte) : Nat :=
  (buf.foldl crcRefByte 0xFFFFFFFF) ^^^ 0xFFFFFFFF

/-- Reference: rotation of a 32-bit word to the right by `k` bits. -/
def rotate_right_32 (x k : Nat) : Nat := (x % 2 ^ k) * 2 ^ (32 - k) + x / 2 ^ k

/-! ## Synchronous record writer (`record/file_writer.cc`) -/

/-- State of a `std::ofstream`: whether a file is attached, whether no error bit is set, the
bytes already in the file and the bytes still in the stream buffer. -/
structure OfStream where
  is_open : Bool
  good : Bool
  file : List Byte
  pending : List Byte
deriving DecidableEq, Repr

/-- Outcome of `fout_.open(path, out | binary | (app or trunc))` on a file holding `old`;
`ok` is whether the operating system grants the open. -/
def OfStream.openFile (old : List Byte) (trunc ok : Bool) : OfStream :=
  if ok then { is_open := true, good := true, file := if trunc then [] else old, pending := [] }
  else { is_open := false, good := false, file := old, pending := [] }

/-- Effect of `fout_.write(p, n)`: the bytes enter the stream buffer when the stream is usable,
otherwise nothing is written and the stream is marked failed. -/
def OfStream.write (s : OfStream) (bs : List Byte) : OfStream :=
  if s.is_open && s.good then { s with pending := s.pending ++ bs } else { s with good := false }

/-- Effect of `fout_.flush()`: the buffered bytes reach the file. -/
def OfStream.flush (s : OfStream) : OfStream :=
  if s.is_open && s.good then { s with file := s.file ++ s.pending, pending := [] }
  else { s with good := false }

/-- Effect of `fout_.close()`: buffered bytes are written out and the file is detached;
closing a stream that is not open sets the fail bit. -/
def OfStream.close (s : OfStream) : OfStream :=
  if s.is_open then { s with is_open := false, file := s.file ++ s.pending, pending := [] }
  else { s with good := false }

/-- The synchronous writer: its only member is the stream `fout_`. -/
structure FileWriter where
  fout_ : OfStream
deriving DecidableEq, Repr

/-- Constructor `FileWriter::FileWriter(prefix, resume)`. The file named by the prefix, the
timestamp and the host name holds `old`; `ok` is whether it can be opened. -/
def FileWriter.new (old : List Byte) (resume ok : Bool) : FileWriter :=
  let fout := OfStream.openFile old (!resume) ok
  if !fout.is_open || !fout.good then ⟨fout.close⟩ else ⟨fout⟩

/-- Method `FileWriter::Ready`. -/
def FileWriter.Ready (w : FileWriter) : Bool := w.fout_.is_open && w.fout_.good

/-- Method `FileWriter::Write(const std::string& data)`: result and writer afterwards. -/
def FileWriter.Write (w : FileWriter) (data : List Byte) : Int × FileWriter :=
  if !w.fout_.is_open || data.isEmpty then (-1, w)
  else
    let header := rawBytes 8 (data.length % 2 ^ 64)
    let f1 := w.fout_.write header
    let crc := MaskedCRC32c header
    let f2 := f1.write (rawBytes 4 crc)
    let f3 := f2.write data
    let crc := MaskedCRC32c data
    let f4 := f3.write (rawBytes 4 crc)
    let f5 := f4.flush
    (toInt32 data.length, ⟨f5⟩)

/-- The payloads written one after the other. -/
def writeAll (w : FileWriter) : List (List Byte) → FileWriter
  | [] => w
  | p :: ps => writeAll (w.Write p).2 ps

/-- Reference reader of the record stream: consecutive records of an 8-byte little-endian
length, a 4-byte masked CRC of these 8 bytes, the payload and a 4-byte masked CRC of the
payload. It returns the payloads when the whole input is made of well-formed records whose
two checksums verify, and `none` otherwise. -/
def parseRecords : Nat → List Byte → Option (List (List Byte))
  | 0, bs => if bs = [] then some [] else none
  | fuel + 1, bs =>
    if bs = [] then some [] else
    let hdr := bs.take 8
    let r1 := bs.drop 8
    let crc1 := r1.take 4
    let r2 := r1.drop 4
    let len := leValue hdr
    let payload := r2.take len
    let r3 := r2.drop len
    let crc2 := r3.take 4
    let rest := r3.drop 4
    if hdr.length = 8 ∧ crc1.length = 4 ∧ payload.length = len ∧ crc2.length = 4 ∧
        leValue crc1 = MaskedCRC32c hdr ∧ leValue crc2 = MaskedCRC32c payload then
      (parseRecords fuel rest).map (fun ps => payload :: ps)
    else none

/-- Reference reader run on a whole file (a record has at least one byte, so the number of
bytes bounds the number of records). -/
def readRecords (file : List Byte) : Option (List (List Byte)) := parseRecords file.length file

/-- The four fields of the record of payload `p`. -/
def frame (p : List Byte) : List Byte :=
  rawBytes 8 (p.length % 2 ^ 64) ++ rawBytes 4 (MaskedCRC32c (rawBytes 8 (p.length % 2 ^ 64)))
    ++ p ++ rawBytes 4 (MaskedCRC32c p)

/-- The records of the payloads `ps`, one after the other. -/
def framesOf (ps : List (List Byte)) : List Byte := (ps.map frame).flatten

/-! ## Doubles -/

/-- A `double`: NaN, an infinity with its sign (`true` for minus), or a finite value given by
its exact value. The sign of zero is not kept: `+0.0` and `-0.0`, which compare equal, are the
one value `fin 0`. Every operation below returns a value of the `double` format; what is proved
for all finite values holds in particular for those of the format. -/
inductive F64 where
  | nan
  | inf (neg : Bool)
  | fin (q : ℚ)
deriving DecidableEq

/-- The integer nearest to `x`, the even one of the two when `x` lies halfway. -/
def roundHalfEven (x : ℚ) : Int :=
  if x - ⌊x⌋ < 1 / 2 then ⌊x⌋
  else if 1 / 2 < x - ⌊x⌋ then ⌊x⌋ + 1
  else if ⌊x⌋ % 2 = 0 then ⌊x⌋ else ⌊x⌋ + 1

/-- The `double` that an operation with the exact result `x` returns: `x` rounded to the
nearest value of 53 significant bits with an exponent of at least `-1022` (so with steps of
`2^-1074` below `2^-1022`), ties to the even significand, and an infinity when the rounded
value reaches `2^1024`. -/
def F64.round (x : ℚ) : F64 :=
  if x = 0 then .fin 0
  else
    let e : Int := max (Int.log 2 |x|) (-1022)
    let ulp : ℚ := 2 ^ (e - 52)
    let m : ℚ := (roundHalfEven (|x| / ulp) : ℚ) * ulp
    if 2 ^ 1024 ≤ m then .inf (decide (x < 0))
    else if x < 0 then .fin (-m) else .fin m

/-- Operator `<` of `double`: false when an operand is NaN. -/
def F64.lt : F64 → F64 → Bool
  | .fin a, .fin b => decide (a < b)
  | .fin _, .inf neg => !neg
  | .inf neg, .fin _ => neg
  | .inf n1, .inf n2 => n1 && !n2
  | _, _ => false

/-- Operator `<=` of `double`: false when an operand is NaN. -/
def F64.le : F64 → F64 → Bool
  | .fin a, .fin b => decide (a ≤ b)
  | .fin _, .inf neg => !neg
  | .inf neg, .fin _ => neg
  | .inf n1, .inf n2 => n1 || !n2
  | _, _ => false

instance : LT F64 := ⟨fun a b => F64.lt a b = true⟩

instance : LE F64 := ⟨fun a b => F64.le a b = true⟩

instance : DecidableRel (fun a b : F64 => a < b) := fun a b =>
  inferInstanceAs (Decidable (F64.lt a b = true))

instance : DecidableRel (fun a b : F64 => a ≤ b) := fun a b =>
  inferInstanceAs (Decidable (F64.le a b = true))

instance : Zero F64 := ⟨.fin 0⟩

/-- Operator `+` of `double`. -/
def F64.add : F64 → F64 → F64
  | .fin a, .fin b => F64.round (a + b)
  | .fin _, .inf n => .inf n
  | .inf n, .fin _ => .inf n
  | .inf n1, .inf n2 => if n1 = n2 then .inf n1 else .nan
  | _, _ => .nan

/-- Operator `*` of `double`. -/
def F64.mul : F64 → F64 → F64
  | .fin a, .fin b => F64.round (a * b)
  | .fin a, .inf n => if a = 0 then .nan else .inf (xor n (decide (a < 0)))
  | .inf n, .fin b => if b = 0 then .nan else .inf (xor n (decide (b < 0)))
  | .inf n1, .inf n2 => .inf (xor n1 n2)
  | _, _ => .nan

/-- Unary `-` of `double`. -/
def F64.neg : F64 → F64
  | .fin a => .fin (-a)
  | .inf n => .inf (!n)
  | .nan => .nan

instance : Add F64 := ⟨F64.add⟩

instance : Mul F64 := ⟨F64.mul⟩

instance : Neg F64 := ⟨F64.neg⟩

/-- Conversion of a `size_t` to `double`. -/
def F64.ofNat (n : Nat) : F64 := F64.round (n : ℚ)

/-- The `double` a decimal literal of the source denotes. -/
def F64.lit (x : ℚ) : F64 := F64.round x

/-! ## Summary messages (`proto/summary.proto`, as used by `record/summary.cc`) -/

/-- Message `HistogramProto`; all its fields are `double`. -/
structure HistogramProto where
  min : F64
  max : F64
  num : F64
  sum : F64
  sum_squares : F64
  bucket_limit : List F64
  bucket : List F64
deriving DecidableEq

/-- Message `Summary.Image`. -/
structure SummaryImage where
  height : Int
  width : Int
  colorspace : Int
  encoded_image_string : List Byte
deriving DecidableEq

/-- Message `Summary.Audio`. -/
structure SummaryAudio where
  sample_rate : ℚ
  num_channels : Int
  length_frames : Int
  encoded_audio_string : List Byte
  content_type : String
deriving DecidableEq

/-- Message `TensorProto` with its shape and the plugin name of its metadata, as far as `Text`
fills them. -/
structure SummaryTensor where
  string_val : List String
  shape : List Int
  plugin_name : String
deriving DecidableEq

/-- The `oneof value` of `Summary.Value`. -/
inductive SummaryKind where
  | simple_value (v : ℚ)
  | histo (h : HistogramProto)
  | image (img : SummaryImage)
  | audio (a : SummaryAudio)
  | tensor (t : SummaryTensor)
deriving DecidableEq

/-- Message `Summary.Value`. -/
structure SummaryValue where
  tag : String
  kind : SummaryKind
deriving DecidableEq

/-- Message `Summary`. -/
structure Summary where
  value : List SummaryValue
deriving DecidableEq

/-- Function `CleanTag`: it returns its argument before the sanitising code is reached. -/
def CleanTag (tag : String) : String := tag

/-! ## Histogram (`record/summary.cc`) -/

/-- The `while (v < 1E20)` loop of `GenerateDefaultBins`, run for at most `fuel` iterations. -/
def binsLoop : Nat → F64 → List F64 × List F64 → List F64 × List F64
  | 0, _, acc => acc
  | fuel + 1, v, (pos_buckets, neg_buckets) =>
    if v < F64.lit 1e20 then
      binsLoop fuel (v * F64.lit 1.1) (pos_buckets ++ [v], neg_buckets ++ [-v])
    else (pos_buckets, neg_buckets)

/-- Function `GenerateDefaultBins` with the loop bounded by `fuel`. -/
def GenerateDefaultBinsFuel (fuel : Nat) : List F64 :=
  let r := binsLoop fuel (F64.lit 1e-12) ([], [])
  r.2.reverse ++ [0] ++ r.1

/-- Function `GenerateDefaultBins`; the loop leaves by its own test after 774 iterations
(`GenerateDefaultBinsFuel_stable`). -/
def GenerateDefaultBins : List F64 := GenerateDefaultBinsFuel 1000

/-- The table `DefaultBins`. -/
def DefaultBins : List F64 := GenerateDefaultBins

/-- The loop of `std::lower_bound` (binary search over `[first, first + len)`). -/
def lowerBoundLoop (a : List F64) (val : F64) : Nat → Nat → Nat → Nat
  | 0, first, _ => first
  | fuel + 1, first, len =>
    if 0 < len then
      let half := len / 2
      let middle := first + half
      if a.getD middle 0 < val then lowerBoundLoop a val fuel (middle + 1) (len - half - 1)
      else lowerBoundLoop a val fuel first half
    else first

/-- Index returned by `std::lower_bound(a.begin(), a.end(), val) - a.begin()`; the length
halves at every step, so `a.length` steps are enough. -/
def lower_bound (a : List F64) (val : F64) : Nat := lowerBoundLoop a val a.length 0 a.length

/-- Effect of `counts[i]++` inside the vector. -/
def incrAt : List Nat → Nat → List Nat
  | [], _ => []
  | c :: cs, 0 => (c + 1) :: cs
  | c :: cs, i + 1 => c :: incrAt cs i

/-- Local variables of `Histogram` during its first loop; `fault` records that `counts` was
indexed outside the vector. -/
structure HistLoop where
  counts : List Nat
  min : F64
  max : F64
  sum : F64
  sum_square : F64
  fault : Bool
deriving DecidableEq

/-- Body of the loop `for (const auto& v : values)` of `Histogram`. -/
def histStep (bucket_limit : List F64) (s : HistLoop) (v : F64) : HistLoop :=
  let iter := lower_bound bucket_limit v
  { counts := if iter < s.counts.length then incrAt s.counts iter else s.counts
    fault := s.fault || !(decide (iter < s.counts.length))
    sum := s.sum + v
    sum_square := s.sum_square + v * v
    max := if v > s.max then v else s.max
    min := if v > s.max then s.min else if v < s.min then v else s.min }

/-- Initialisation and first loop of `Histogram`. -/
def histLoop (bucket_limit values : List F64) : HistLoop :=
  values.foldl (histStep bucket_limit)
    { counts := List.replicate bucket_limit.length 0
      min := values.headD 0
      max := values.headD 0
      sum := 0
      sum_square := 0
      fault := false }

/-- Second loop of `Histogram`: the pairs `(bucket_limit[i], counts[i])` with `counts[i] > 0`,
in index order. -/
def emitBuckets (bucket_limit : List F64) (counts : List Nat) : List (F64 × Nat) :=
  (bucket_limit.zip counts).filter (fun lc => 0 < lc.2)

/-- Function `Histogram` over the bucket table `bucket_limit`; `set_num` and `add_bucket`
convert a `size_t` to `double`. -/
def histogramOver (bucket_limit : List F64) (name : String) (values : List F64) :
    Except Fault Summary :=
  let s := histLoop bucket_limit values
  if s.fault then .error .out_of_bounds
  else
    let buckets := emitBuckets bucket_limit s.counts
    let histo : HistogramProto :=
      { min := s.min
        max := s.max
        num := F64.ofNat values.length
        sum := s.sum
        sum_squares := s.sum_square
        bucket_limit := buckets.map (fun lc => lc.1)
        bucket := buckets.map (fun lc => F64.ofNat lc.2) }
    .ok { value := [{ tag := CleanTag name, kind := .histo histo }] }

/-- Function `Histogram(name, values, bins)`; `bins` is not used by the code. -/
def Histogram (name : String) (values : List F64) (_bins : String := "tensorflow") :
    Except Fault Summary :=
  histogramOver DefaultBins name values

/-- Reference: the largest boundary of a table (`0` for the empty table). -/
def largestBoundary (bucket_limit : List F64) : F64 :=
  bucket_limit.foldl (fun m b => if m < b then b else m) (bucket_limit.headD 0)

/-- Reference: `b` is the smallest boundary of the table that is at least `v`. -/
def IsSmallestBoundaryGE (bucket_limit : List F64) (v b : F64) : Prop :=
  b ∈ bucket_limit ∧ v ≤ b ∧ ∀ b' ∈ bucket_limit, v ≤ b' → b ≤ b'

/-- Reference: the `double` sum of `values`, added one by one in the order of the list to
`0.0`. -/
def sumInOrder (values : List F64) : F64 := values.foldl (fun acc v => acc + v) 0

/-- Reference: the `double` sum of the squares of `values`, each square added in the order of
the list to `0.0`. -/
def sumSquaresInOrder (values : List F64) : F64 := values.foldl (fun acc v => acc + v * v) 0
/-! ## Image mosaic (`record/summary.cc`) -/

/-- The external image codec `Image::Write(data, width, height, channel, &buf)`: its result
code and the bytes it appends to the empty buffer. -/
abbrev Encoder := List Byte → Nat → Nat → Nat → Int × List Byte

/-- The arguments `Images` passes to `Image::Write`. -/
structure EncoderCall where
  data : List Byte
  width : Nat
  height : Nat
  channel : Nat
deriving DecidableEq

/-- Effect of `std::copy(from, from + lz, cur)` with `from` at offset `src_off` of `src` and
`cur` at offset `cur` of `data`. -/
def copyRow (data : List Byte) (cur : Nat) (src : List Byte) (src_off lz : Nat) :
    Except Fault (List Byte) :=
  if src_off + lz ≤ src.length ∧ cur + lz ≤ data.length then
    .ok (data.take cur ++ (src.drop src_off).take lz ++ data.drop (cur + lz))
  else .error .out_of_bounds

/-- Loop `for (size_t w = 0; w < ncols; ++w)` of `Images`, with `k` iterations left. -/
def colLoop (imgs : List (List Byte)) (cnt ncols height lz h i : Nat) :
    Nat → Nat → List Byte → Except Fault (List Byte)
  | 0, _, data => .ok data
  | k + 1, w, data =>
    if h * ncols + w ≥ cnt then .ok data
    else
      match copyRow data ((((h * height + i) * ncols + w) * lz) % 2 ^ 64)
          (imgs.getD (h * ncols + w) []) ((i * lz) % 2 ^ 64) lz with
      | .error e => .error e
      | .ok data' => colLoop imgs cnt ncols height lz h i k (w + 1) data'

/-- Loop `for (int i = 0; i < height; ++i)` of `Images`, with `k` iterations left. -/
def rowLoop (imgs : List (List Byte)) (cnt ncols height lz h : Nat) :
    Nat → Nat → List Byte → Except Fault (List Byte)
  | 0, _, data => .ok data
  | k + 1, i, data =>
    match colLoop imgs cnt ncols height lz h i ncols 0 data with
    | .error e => .error e
    | .ok data' => rowLoop imgs cnt ncols height lz h k (i + 1) data'

/-- Loop `for (size_t h = 0; h < nrows; ++h)` of `Images`, with `k` iterations left. -/
def gridLoop (imgs : List (List Byte)) (cnt ncols height lz : Nat) :
    Nat → Nat → List Byte → Except Fault (List Byte)
  | 0, _, data => .ok data
  | k + 1, h, data =>
    match rowLoop imgs cnt ncols height lz h height 0 data with
    | .error e => .error e
    | .ok data' => gridLoop imgs cnt ncols height lz k (h + 1) data'

/-- Function `Images` up to the call of the codec: `none` is the null result of the
validation, otherwise the composed buffer and the dimensions handed to `Image::Write`. -/
def ImagesCompose (encoded_images : List (List Byte)) (height width colorspace : Int)
    (max_cols : Nat) : Except Fault (Option EncoderCall) :=
  if 0 ≥ colorspace ∨ 6 < colorspace ∨ height ≤ 0 ∨ width ≤ 0 then .ok none
  else if encoded_images.isEmpty then .ok none
  else
    let size0 := (encoded_images.headD []).length
    if size0 ≠ toU32 (mulI32 (mulI32 height width) colorspace) then .ok none
    else if encoded_images.tail.any (fun img => decide (size0 ≠ img.length)) then .ok none
    else
      let cnt := encoded_images.length % 2 ^ 32
      let ncols := if cnt < max_cols then cnt else max_cols
      if ncols = 0 then .error .div_by_zero
      else
        let nrows := ((cnt + ncols + (2 ^ 32 - 1)) % 2 ^ 32) / ncols
        let data : List Byte := List.replicate (((ncols * nrows) % 2 ^ 32) * size0) 0
        let lz := toSizeT (mulI32 width colorspace)
        (gridLoop encoded_images cnt ncols height.toNat lz nrows 0 data).map (fun data' =>
          some { data := data'
                 width := toU32 (width * (ncols : Int))
                 height := toU32 (height * (nrows : Int))
                 channel := toU32 colorspace })

/-- Function `Images`. -/
def Images (encode : Encoder) (name : String) (encoded_images : List (List Byte))
    (height width colorspace : Int) (max_cols : Nat := 8) : Except Fault (Option Summary) :=
  match ImagesCompose encoded_images height width colorspace max_cols with
  | .error e => .error e
  | .ok none => .ok none
  | .ok (some call) =>
    let r := encode call.data call.width call.height call.channel
    if r.1 < 0 then .ok none
    else
      let img : SummaryImage :=
        { height := height
          width := width
          colorspace := colorspace
          encoded_image_string := r.2 }
      .ok (some { value := [{ tag := CleanTag name, kind := .image img }] })

/-- Reference: block `b` of the mosaic, counting the `lz`-byte pixel rows of all grid cells
from the top left: row `i` of the image in cell `(h, w)`, or zeros when the cell is empty. -/
def mosaicBlock (imgs : List (List Byte)) (cnt ncols height lz b : Nat) : List Byte :=
  let w := b % ncols
  let i := (b / ncols) % height
  let h := (b / ncols) / height
  if h * ncols + w < cnt then ((imgs.getD (h * ncols + w) []).drop (i * lz)).take lz
  else List.replicate lz 0

/-- Reference: the first `n` blocks of the mosaic. -/
def mosaicPrefix (imgs : List (List Byte)) (cnt ncols height lz : Nat) : Nat → List Byte
  | 0 => []
  | n + 1 => mosaicPrefix imgs cnt ncols height lz n ++ mosaicBlock imgs cnt ncols height lz n

/-- Reference: number of grid columns, `min(N, max_cols)`. -/
def mosaicCols (n max_cols : Nat) : Nat := min n max_cols

/-- Reference: offset in the composed buffer of byte `k` of pixel row `i` of image `n`, which
sits in grid cell `(n / ncols, n mod ncols)`. -/
def cellOffset (ncols H W C n i k : Nat) : Nat :=
  (((n / ncols) * H + i) * ncols + n % ncols) * (W * C) + k

/-! ## Single image (`record/summary.cc`) -/

/-- Function `Image(name, encoded_image, height, width, colorspace)`; `none` is the null
result. -/
def Image (name : String) (encoded_image : List Byte) (height width colorspace : Int) :
    Option Summary :=
  if 0 ≥ colorspace ∨ 6 < colorspace ∨ height ≤ 0 ∨ width ≤ 0 then none
  else if encoded_image.isEmpty then none
  else
    let img : SummaryImage :=
      { height := height
        width := width
        colorspace := colorspace
        encoded_image_string := encoded_image }
    some { value := [{ tag := CleanTag name, kind := .image img }] }

/-- Function `Scalar(name, value)`. -/
def Scalar (name : String) (value : ℚ) : Summary :=
  { value := [{ tag := CleanTag name, kind := .simple_value value }] }

/-! ## Events and the two writers (`record/file_writer.cc`, `record/async_file_writer.cc`) -/

/-- Message `Event` as far as the recorder fills it: the wall time, the step when one was set,
and the summary. -/
structure Event where
  wall_time : ℚ
  step : Option Int
  summary : Summary
deriving DecidableEq

/-- The external schema serializer `event.SerializeToString(&buf)`. -/
abbrev Serializer := Event → List Byte

/-- The bytes a stream has taken so far: those in the file followed by those still buffered,
which is the content of the file once the buffer is written out. -/
def OfStream.content (s : OfStream) : List Byte := s.file ++ s.pending

/-- Method `FileWriter::Write(tensorboard::Event&& event)`. -/
def FileWriter.WriteEvent (serialize : Serializer) (w : FileWriter) (event : Event) :
    Int × FileWriter :=
  if !w.fout_.is_open then (-1, w)
  else
    let buf := serialize event
    w.Write buf

/-- Method `FileWriter::Flush`. -/
def FileWriter.Flush (w : FileWriter) : Int × FileWriter :=
  if !w.fout_.is_open then (-1, w) else (0, ⟨w.fout_.flush⟩)

/-- Method `FileWriter::Close`. -/
def FileWriter.Close (w : FileWriter) : Int × FileWriter :=
  if !w.fout_.is_open then (-1, w) else (0, ⟨w.fout_.close⟩)

/-- The asynchronous writer: the stop flag and the stream. The flush period, the worker
thread and the mutex have no state of their own in a sequential run. -/
structure AsyncFileWriter where
  stop_ : Bool
  fout_ : OfStream
deriving DecidableEq, Repr

/-- Constructor `AsyncFileWriter::AsyncFileWriter(prefix, flush, app)`. The file named by the
prefix, the timestamp and the host name holds `old`; `ok` is whether it can be opened. -/
def AsyncFileWriter.new (old : List Byte) (app ok : Bool) : AsyncFileWriter :=
  let fout := OfStream.openFile old (!app) ok
  if !fout.is_open || !fout.good then { stop_ := true, fout_ := fout.close }
  else { stop_ := false, fout_ := fout }

/-- Method `AsyncFileWriter::Write(tensorboard::Event&& event)`. -/
def AsyncFileWriter.Write (serialize : Serializer) (w : AsyncFileWriter) (event : Event) :
    Int × AsyncFileWriter :=
  if !w.stop_ then
    let buf := serialize event
    let header := rawBytes 8 (buf.length % 2 ^ 64)
    let f1 := w.fout_.write header
    let crc := MaskedCRC32c header
    let f2 := f1.write (rawBytes 4 crc)
    let f3 := f2.write buf
    let crc := MaskedCRC32c buf
    let f4 := f3.write (rawBytes 4 crc)
    (toInt32 buf.length, { w with fout_ := f4 })
  else (-1, w)

/-- Method `AsyncFileWriter::Flush`. -/
def AsyncFileWriter.Flush (w : AsyncFileWriter) : Int × AsyncFileWriter :=
  if !w.stop_ then
    if w.fout_.is_open && w.fout_.good then (0, { w with fout_ := w.fout_.flush }) else (0, w)
  else (0, w)

/-- Method `AsyncFileWriter::Close`. -/
def AsyncFileWriter.Close (w : AsyncFileWriter) : Int × AsyncFileWriter :=
  if !w.stop_ then
    if w.fout_.is_open && w.fout_.good then
      (0, { stop_ := true, fout_ := w.fout_.flush.close })
    else (0, { w with stop_ := true })
  else (0, w)

/-- Destructor `AsyncFileWriter::~AsyncFileWriter`, followed by the destructor of the member
`fout_`, which closes a file still open. -/
def AsyncFileWriter.destroy (w : AsyncFileWriter) : AsyncFileWriter :=
  let w1 : AsyncFileWriter :=
    if !w.stop_ then
      if w.fout_.is_open && w.fout_.good then { stop_ := true, fout_ := w.fout_.close }
      else { w with stop_ := true }
    else w
  if w1.fout_.is_open then { w1 with fout_ := w1.fout_.close } else w1

/-- Method `AsyncFileWriter::Ready`. -/
def AsyncFileWriter.Ready (w : AsyncFileWriter) : Bool := !w.stop_

/-- The events written one after the other to an asynchronous writer. -/
def AsyncFileWriter.writeAll (serialize : Serializer) (w : AsyncFileWriter) :
    List Event → AsyncFileWriter
  | [] => w
  | e :: es => AsyncFileWriter.writeAll serialize (w.Write serialize e).2 es

/-- The two implementations of the interface `Writer`. -/
inductive Writer where
  | sync (w : FileWriter)
  | async (w : AsyncFileWriter)
deriving DecidableEq, Repr

/-- Virtual call `writer->Write(std::move(event))`. -/
def Writer.Write (serialize : Serializer) : Writer → Event → Int × Writer
  | .sync w, event => ((w.WriteEvent serialize event).1, .sync (w.WriteEvent serialize event).2)
  | .async w, event => ((w.Write serialize event).1, .async (w.Write serialize event).2)

/-! ## Recorder: grouped scalars (`record/recorder.cc`) -/

/-- Function `AddEvent(writer, summary, step)`; `wall_time` is the value of `Timestamp()` and
`step` has already been converted to `int`. -/
def AddEvent (serialize : Serializer) (wall_time : ℚ) (writer : Writer) (summary : Summary)
    (step : Int) : Int × Writer :=
  let event : Event :=
    { wall_time := wall_time
      summary := summary
      step := if step ≥ 0 then some step else none }
  writer.Write serialize event

/-- Function `Replace(txt, old_value, new_value)`: `txt.find(old_value)` is zero, hence false,
exactly when `txt` starts with `old_value`. -/
def Replace (txt : String) (old_value new_value : Char) : String :=
  if txt.data.head? ≠ some old_value then
    String.mk (txt.data.map (fun c => if c = old_value then new_value else c))
  else txt

/-- Function `JoinPath(path, sub_path)`. -/
def JoinPath (path sub_path : String) : String :=
  if path.data ≠ [] ∧ path.data.getLast? = some '/' then path ++ sub_path
  else path ++ "/" ++ sub_path

/-- What the recorder takes from its environment, whose state is `σ`: the functions of
`record/utils.h` that end in system calls, the writer factory `make_writer_` (which returns a
writer: `AddEvent` asserts that the pointer is not null), the clock and the schema serializer. -/
structure Host (σ : Type) where
  IsExisted : σ → String → Bool
  IsDirectory : σ → String → Bool
  MakeDirs : σ → String → Int × σ
  GetDirectoryPath : σ → String → String
  make_writer : σ → String → Writer × σ
  Timestamp : σ → ℚ
  serialize : Serializer

/-- Members of `Recorder`. A `Writer*` is modelled by the key under which the map `writers_`
holds the writer: entries are never erased, so a key stands for one object. -/
structure Recorder where
  log_dir_ : String
  writer_ : Option String
  writers_ : List (String × Writer)
deriving DecidableEq

/-- Result of `writers_.find(dir)`: the key of the entry, or `none` for `end()`. -/
def Recorder.find (r : Recorder) (dir : String) : Option String :=
  if (r.writers_.lookup dir).isSome then some dir else none

/-- The map after the writer under `key` has been left in state `w` by a call. -/
def setWriter (writers : List (String × Writer)) (key : String) (w : Writer) :
    List (String × Writer) :=
  writers.map (fun kv => if kv.1 = key then (kv.1, w) else kv)

/-- Body of the loop of `Recorder::AddScalars` up to the write: the writer of the sub-tag is
looked up or created and, when there is one, the event is written. The result is the value of
`cnt`, or `none` when the sub-tag has no writer. -/
def Recorder.scalarsItem {σ : Type} (P : Host σ) (main_tag : String) (global_step : Int)
    (r : Recorder) (fs : σ) (item : String × ℚ) : Option Int × Recorder × σ :=
  let dir := r.log_dir_ ++ "/" ++ Replace main_tag '/' '_' ++ "_" ++ item.1
  let iter := r.find dir
  let resolved : String × Option String × Recorder × σ :=
    if iter = none then
      let looked : String × Option String × σ :=
        if P.IsExisted fs dir then
          if !P.IsDirectory fs dir then
            (P.GetDirectoryPath fs dir, r.find (P.GetDirectoryPath fs dir), fs)
          else (dir, iter, fs)
        else (dir, iter, (P.MakeDirs fs dir).2)
      if looked.2.1 = none ∧ P.IsExisted looked.2.2 looked.1 = true then
        let made := P.make_writer looked.2.2 (JoinPath looked.1 "events")
        (looked.1, some looked.1,
          { r with writers_ := r.writers_ ++ [(looked.1, made.1)] }, made.2)
      else (looked.1, looked.2.1, r, looked.2.2)
    else (dir, iter, r, fs)
  match resolved.2.1 with
  | some key =>
    match resolved.2.2.1.writers_.lookup key with
    | some writer =>
      let summary := Scalar main_tag item.2
      let res := AddEvent P.serialize (P.Timestamp resolved.2.2.2) writer summary
        (wrapI32 global_step)
      (some res.1,
        { resolved.2.2.1 with writers_ := setWriter resolved.2.2.1.writers_ key res.2 },
        resolved.2.2.2)
    | none => (none, resolved.2.2.1, resolved.2.2.2)
  | none => (none, resolved.2.2.1, resolved.2.2.2)

/-- End of the body of the loop of `Recorder::AddScalars`: the new value of `ret`, with `cnt`
the result of the write or `none` when the sub-tag has no writer. -/
def scalarsAccumulate (ret : Int) (cnt : Option Int) : Int :=
  match cnt with
  | some c => if c < 0 ∨ ret < 0 then -1 else wrapI32 (ret + c)
  | none => -1

/-- Loop of `Recorder::AddScalars` over the entries of the map, in key order. -/
def Recorder.scalarsLoop {σ : Type} (P : Host σ) (main_tag : String) (global_step : Int) :
    List (String × ℚ) → Int → Recorder → σ → Int × Recorder × σ
  | [], ret, r, fs => (ret, r, fs)
  | item :: rest, ret, r, fs =>
    let done := Recorder.scalarsItem P main_tag global_step r fs item
    Recorder.scalarsLoop P main_tag global_step rest (scalarsAccumulate ret done.1)
      done.2.1 done.2.2

/-- Method `Recorder::AddScalars(main_tag, tag_values, global_step)`. -/
def Recorder.AddScalars {σ : Type} (P : Host σ) (r : Recorder) (fs : σ) (main_tag : String)
    (tag_values : List (String × ℚ)) (global_step : Int) : Int × Recorder × σ :=
  Recorder.scalarsLoop P main_tag global_step tag_values 0 r fs

/-- Reference: the sub-tags processed one after the other whatever their results: the list of
their results (`none` for a sub-tag without writer) and the state left. -/
def scalarsRun {σ : Type} (P : Host σ) (main_tag : String) (global_step : Int) :
    List (String × ℚ) → Recorder → σ → List (Option Int) × Recorder × σ
  | [], r, fs => ([], r, fs)
  | item :: rest, r, fs =>
    let done := Recorder.scalarsItem P main_tag global_step r fs item
    let more := scalarsRun P main_tag global_step rest done.2.1 done.2.2
    (done.1 :: more.1, more.2)

/-- Reference: a sub-tag failed when it had no writer or its write returned a negative
value. -/
def scalarFailed (cnt : Option Int) : Prop :=
  match cnt with
  | some c => c < 0
  | none => True

/-- Reference: the sum of the byte counts of the sub-tags that did not fail. -/
def countsTotal (results : List (Option Int)) : Int :=
  (results.map (fun cnt => match cnt with
    | some c => max c 0
    | none => 0)).sum

/-- Reference: an environment in which every path is an existing directory, the factory makes
a synchronous writer on a new, empty file, and every event is serialized as `payload`. -/
def plainHost (payload : List Byte) : Host Unit :=
  { IsExisted := fun _ _ => true
    IsDirectory := fun _ _ => true
    MakeDirs := fun _ _ => (0, ())
    GetDirectoryPath := fun _ path => path
    make_writer := fun _ _ => (Writer.sync (FileWriter.new [] false true), ())
    Timestamp := fun _ => 0
    serialize := fun _ => payload }

/-- Reference: the environment `plainHost` in which the path `missing` does not exist and
cannot be created. -/
def gapHost (missing : String) (payload : List Byte) : Host Unit :=
  { plainHost payload with IsExisted := fun _ path => path != missing }

/-! ## The other encoders (`record/summary.cc`) -/

/-- Function `HistogramRaw(name, min, max, num, sum, sum_squares, bucket_limits,
bucket_counts)`. -/
def HistogramRaw (name : String) (min max num sum sum_squares : F64)
    (bucket_limits bucket_counts : List F64) : Summary :=
  let histo : HistogramProto :=
    { min := min
      max := max
      num := num
      sum := sum
      sum_squares := sum_squares
      bucket_limit := bucket_limits
      bucket := bucket_counts }
  { value := [{ tag := CleanTag name, kind := .histo histo }] }

/-- Function `Audio(name, encoded_audio, sample_rate, num_channels, length_frames,
content_type)`; `none` is the null result. -/
def Audio (name : String) (encoded_audio : List Byte) (sample_rate : ℚ)
    (num_channels length_frames : Int) (content_type : String) : Option Summary :=
  if encoded_audio.isEmpty then none
  else
    let audio : SummaryAudio :=
      { sample_rate := sample_rate
        num_channels := num_channels
        length_frames := length_frames
        encoded_audio_string := encoded_audio
        content_type := content_type }
    some { value := [{ tag := CleanTag name, kind := .audio audio }] }

/-- Function `Text(name, text)`. -/
def Text (name : String) (text : String) : Summary :=
  let tensor : SummaryTensor :=
    { string_val := [text]
      shape := [1]
      plugin_name := "text" }
  { value := [{ tag := CleanTag (name ++ "/text_summary"), kind := .tensor tensor }] }

/-! ## `MakeHistogram` (`record/summary.h`) -/

/-- The objects behind the output pointers of `MakeHistogram`. -/
structure HistogramOut where
  min : F64
  max : F64
  num : F64
  sum : F64
  sum_squares : F64
  bucket_limits : List F64
  bucket_counts : List F64
deriving DecidableEq

/-- Effect of `bucket_counts->at(i) += 1` inside the vector. -/
def addOneAt : List F64 → Nat → List F64
  | [], _ => []
  | c :: cs, 0 => (c + F64.fin 1) :: cs
  | c :: cs, i + 1 => c :: addOneAt cs i

/-- Reference: the `double` that `n` executions of `+= 1` leave in a counter that starts at
`0.0`. -/
def countUp : Nat → F64
  | 0 => 0
  | n + 1 => countUp n + F64.fin 1

/-- Body of the loop `for (const auto& v : data)` of `MakeHistogram`: the state is the output
objects and whether `bucket_counts->at(i)` has been called with `i` outside the vector, in
which case it throws `std::out_of_range`. -/
def makeStep (bins : List F64) (s : HistogramOut × Bool) (v : F64) : HistogramOut × Bool :=
  let iter := lower_bound bins v
  ({ s.1 with
     bucket_counts := if iter < s.1.bucket_counts.length then addOneAt s.1.bucket_counts iter
       else s.1.bucket_counts
     sum := s.1.sum + v
     sum_squares := s.1.sum_squares + v * v
     max := if v > s.1.max then v else s.1.max
     min := if v > s.1.max then s.1.min else if v < s.1.min then v else s.1.min },
   s.2 || !(decide (iter < s.1.bucket_counts.length)))

/-- Body of the loop `for (size_t i = 0; i < bucket_counts->size(); ++i)` of `MakeHistogram`:
the state is the output objects and `cur`. -/
def compactStep (bins : List F64) (s : HistogramOut × Nat) (i : Nat) : HistogramOut × Nat :=
  if s.1.bucket_counts.getD i 0 > 0 then
    ({ s.1 with
       bucket_limits := s.1.bucket_limits ++ [bins.getD i 0]
       bucket_counts := if i ≠ s.2 then s.1.bucket_counts.set s.2 (s.1.bucket_counts.getD i 0)
         else s.1.bucket_counts }, s.2 + 1)
  else s

/-- Function `MakeHistogram(data, min, max, num, sum, sum_squares, bucket_limits,
bucket_counts, bins)` for `T = double`: the value returned and the output objects, which hold
`out` before the call. -/
def MakeHistogram (data : List F64) (out : HistogramOut) (bins : List F64) :
    Except Fault (Int × HistogramOut) :=
  if data.isEmpty ∨ bins.isEmpty then .ok (-1, out)
  else
    let o1 : HistogramOut :=
      { out with
        min := data.headD 0
        max := data.headD 0
        num := 0
        sum := 0
        sum_squares := 0
        bucket_counts := List.replicate bins.length 0 }
    let o2 := data.foldl (makeStep bins) (o1, false)
    if o2.2 then .error .out_of_bounds
    else
      let o3 : HistogramOut := { o2.1 with bucket_limits := [] }
      let done := (List.range o3.bucket_counts.length).foldl (compactStep bins) (o3, 0)
      .ok (toInt32 done.2, { done.1 with bucket_counts := done.1.bucket_counts.take done.2 })

/-! ## Recorder: construction and the root writer (`record/recorder.cc`, `record/utils.cc`) -/

/-- Function `StringUtil::EmptyOrSpaces`. -/
def EmptyOrSpaces (str : String) : Bool :=
  str.data.isEmpty || str.data.all (fun c => c = ' ' || c = '\t' || c = '\r' || c = '\n')

/-- Function `AbsolutePath(path)`; `realpath` is the system call, `none` when it fails. -/
def AbsolutePath (realpath : String → Option String) (path : String) : String :=
  match realpath path with
  | some full_path => full_path
  | none => path

/-- Result of `s.find_last_of(c)`: the last position of `c`, `none` for `npos`. -/
def find_last_of : List Char → Char → Option Nat
  | [], _ => none
  | x :: xs, c =>
    match find_last_of xs c with
    | some pos => some (pos + 1)
    | none => if x = c then some 0 else none

/-- Function `GetDirectoryPath(path, absolute)`: the position is searched in `root` and the
prefix of that length is taken from `path`. -/
def GetDirectoryPath (realpath : String → Option String) (path : String)
    (absolute : Bool := true) : String :=
  let root := if absolute then AbsolutePath realpath path else path
  match find_last_of root.data '/' with
  | some pos => String.mk (path.data.take pos)
  | none => if absolute then "/" else "."

/-- Constructor `Recorder::Recorder(log_dir, maker)`; `stamp` is the text of the current time
and `host_name` is `Env::HostName`, used when no directory is given. -/
def Recorder.new {σ : Type} (P : Host σ) (fs : σ) (log_dir : String) (stamp host_name : String) :
    Recorder × σ :=
  let dir0 := if EmptyOrSpaces log_dir then "runs/" ++ stamp ++ "_" ++ host_name else log_dir
  let placed : String × σ :=
    if P.IsExisted fs dir0 then
      if !P.IsDirectory fs dir0 then (P.GetDirectoryPath fs dir0, fs) else (dir0, fs)
    else (dir0, (P.MakeDirs fs dir0).2)
  if P.IsExisted placed.2 placed.1 then
    let made := P.make_writer placed.2 (JoinPath placed.1 "events")
    ({ log_dir_ := placed.1, writer_ := some placed.1, writers_ := [(placed.1, made.1)] }, made.2)
  else ({ log_dir_ := placed.1, writer_ := none, writers_ := [] }, placed.2)

/-- The writer `writer_` points to, `none` for the null pointer: `writer_` is null or the entry
the constructor stored in `writers_`. -/
def Recorder.root (r : Recorder) : Option Writer :=
  match r.writer_ with
  | some key => r.writers_.lookup key
  | none => none

/-- The call `AddEvent(writer_, summary, step)` that ends the `Add*` methods: the `int64_t`
step is converted to the `int` parameter, and the root writer is left in the state after the
write. -/
def Recorder.rootWrite {σ : Type} (P : Host σ) (r : Recorder) (fs : σ) (writer : Writer)
    (summary : Summary) (step : Int) : Int × Recorder :=
  let res := AddEvent P.serialize (P.Timestamp fs) writer summary (wrapI32 step)
  (res.1, match r.writer_ with
    | some key => { r with writers_ := setWriter r.writers_ key res.2 }
    | none => r)

/-- Method `Recorder::AddScalar(tag, value, step)`. -/
def Recorder.AddScalar {σ : Type} (P : Host σ) (r : Recorder) (fs : σ) (tag : String)
    (value : ℚ) (step : Int) : Int × Recorder :=
  match r.root with
  | none => (-1, r)
  | some writer => r.rootWrite P fs writer (Scalar tag value) step

/-- Method `Recorder::AddHistogram(tag, values, global_step, bins)`. -/
def Recorder.AddHistogram {σ : Type} (P : Host σ) (r : Recorder) (fs : σ) (tag : String)
    (values : List F64) (global_step : Int) (bins : String := "tensorflow") :
    Except Fault (Int × Recorder) :=
  match r.root with
  | none => .ok (-1, r)
  | some writer =>
    match Histogram tag values bins with
    | .error e => .error e
    | .ok summary => .ok (r.rootWrite P fs writer summary global_step)

/-- Method `Recorder::AddHistogramRaw`. -/
def Recorder.AddHistogramRaw {σ : Type} (P : Host σ) (r : Recorder) (fs : σ) (tag : String)
    (min max num sum sum_squares : F64) (bucket_limits bucket_counts : List F64)
    (global_step : Int) : Int × Recorder :=
  match r.root with
  | none => (-1, r)
  | some writer =>
    r.rootWrite P fs writer
      (HistogramRaw tag min max num sum sum_squares bucket_limits bucket_counts) global_step

/-- Class `ImageMetadata`. -/
structure ImageMetadata where
  width : Int
  height : Int
  colorspace : Int
deriving DecidableEq

/-- Class `AudioMetadata`. -/
structure AudioMetadata where
  num_channels : Int
  length_frames : Int
  sample_rate : ℚ
  content_type : String
deriving DecidableEq

/-- Method `Recorder::AddImage(tag, img, meta, global_step)`. -/
def Recorder.AddImage {σ : Type} (P : Host σ) (r : Recorder) (fs : σ) (tag : String)
    (img : List Byte) (md : ImageMetadata) (global_step : Int) : Int × Recorder :=
  match r.root with
  | none => (-1, r)
  | some writer =>
    match Image tag img md.height md.width md.colorspace with
    | none => (-1, r)
    | some summary => r.rootWrite P fs writer summary global_step

/-- Method `Recorder::AddImages(tag, imgs, meta, global_step)`; `encode` is the codec. -/
def Recorder.AddImages {σ : Type} (P : Host σ) (encode : Encoder) (r : Recorder) (fs : σ)
    (tag : String) (imgs : List (List Byte)) (md : ImageMetadata) (global_step : Int) :
    Except Fault (Int × Recorder) :=
  match r.root with
  | none => .ok (-1, r)
  | some writer =>
    match Images encode tag imgs md.height md.width md.colorspace with
    | .error e => .error e
    | .ok none => .ok (-1, r)
    | .ok (some summary) => .ok (r.rootWrite P fs writer summary global_step)

/-- Method `Recorder::AddAudio(tag, audio, amd, global_step)`. -/
def Recorder.AddAudio {σ : Type} (P : Host σ) (r : Recorder) (fs : σ) (tag : String)
    (audio : List Byte) (amd : AudioMetadata) (global_step : Int) : Int × Recorder :=
  match r.root with
  | none => (-1, r)
  | some writer =>
    match Audio tag audio amd.sample_rate amd.num_channels amd.length_frames
        amd.content_type with
    | none => (-1, r)
    | some summary => r.rootWrite P fs writer summary global_step

/-- Method `Recorder::AddText(tag, text, s)`. -/
def Recorder.AddText {σ : Type} (P : Host σ) (r : Recorder) (fs : σ) (tag : String)
    (text : String) (s : Int) : Int × Recorder :=
  match r.root with
  | none => (-1, r)
  | some writer => r.rootWrite P fs writer (Text tag text) s

/-- The value of the local `dir` of `Recorder::AddScalars` for one sub-tag. -/
def Recorder.scalarsDir (r : Recorder) (main_tag sub_tag : String) : String :=
  r.log_dir_ ++ "/" ++ Replace main_tag '/' '_' ++ "_" ++ sub_tag

/-! ## Recorder: embeddings (`record/recorder.cc`) -/

/-- What `AddEmbedding` takes from its environment, whose state is `σ`: `MakeDirs`, the opening
of a `std::ofstream` on a path (in append mode or not; `none` when
`!fout.is_open() || fout.fail()`), the text put on the open file up to `close()`, and the text
`operator<<` gives a `float` and `"%05d"` gives the step. -/
structure Disk (σ : Type) where
  MakeDirs : σ → String → Int × σ
  openFile : σ → String → Bool → Option σ
  putText : σ → String → String → σ
  showFloat : ℚ → String
  showStep : Int → String

/-- Inner loop `for (size_t j = 1; j < D; ++j)` of the tensor file with `k` iterations left:
the text so far and the index `cur` points to. -/
def tensorsCols (showFloat : ℚ → String) (mat : List ℚ) :
    Nat → Nat → String → Except Fault (String × Nat)
  | 0, cur, text => .ok (text, cur)
  | k + 1, cur, text =>
    match mat.get? cur with
    | none => .error .out_of_bounds
    | some v => tensorsCols showFloat mat k (cur + 1) (text ++ "\t" ++ showFloat v)

/-- Outer loop `for (size_t i = 0; i < N; ++i)` of the tensor file with `n` iterations left:
each row starts with `fout << *cur++`. -/
def tensorsRows (showFloat : ℚ → String) (mat : List ℚ) (D : Nat) :
    Nat → Nat → String → Except Fault String
  | 0, _, text => .ok text
  | n + 1, cur, text =>
    match mat.get? cur with
    | none => .error .out_of_bounds
    | some v =>
      match tensorsCols showFloat mat (D - 1) (cur + 1) (text ++ showFloat v) with
      | .error e => .error e
      | .ok row => tensorsRows showFloat mat D n row.2 (row.1 ++ "\n")

/-- Method `Recorder::AddProjectConfig(tag, dir, mfn, lifn, step)`. -/
def Recorder.AddProjectConfig {σ : Type} (K : Disk σ) (r : Recorder) (fs : σ)
    (tag dir mfn _lifn : String) (step : Int) : Int × σ :=
  let path := r.log_dir_ ++ "/projector_config.pbtxt"
  match K.openFile fs path true with
  | none => (-1, fs)
  | some fs1 =>
    let txt := "embeddings \x7b\n" ++ "  tensor_name: \"" ++ tag ++ ":" ++ K.showStep step ++ "\"\n"
      ++ "  tensor_path: \"" ++ dir ++ "/tensors.tsv\"\n"
      ++ (if mfn ≠ "" then "  metadata_path: \"" ++ dir ++ "/" ++ mfn ++ "\"\n" else "")
      ++ "\x7d\n"
    (toInt32 txt.utf8ByteSize, K.putText fs1 path txt)

/-- The block `if (!metadata.empty())` of `AddEmbedding`: `none` when it returns `-1`. -/
def embeddingMetadata {σ : Type} (K : Disk σ) (fs : σ) (save_path : String) (N : Nat)
    (metadata : List String) : Option σ :=
  if metadata.isEmpty then some fs
  else if metadata.length ≠ N then none
  else
    match K.openFile fs (save_path ++ "/metadata.tsv") false with
    | none => none
    | some fs1 =>
      some (K.putText fs1 (save_path ++ "/metadata.tsv")
        (String.join (metadata.map (fun label => label ++ "\n"))))

/-- Method `Recorder::AddEmbedding(mat, N, D, metadata, global_step, tag)`: the result and the
state of the file system afterwards. `N * D` is a product of `size_t`. -/
def Recorder.AddEmbedding {σ : Type} (K : Disk σ) (r : Recorder) (fs : σ) (mat : List ℚ)
    (N D : Nat) (metadata : List String) (global_step : Int := 0) (tag : String := "default") :
    Except Fault (Int × σ) :=
  if r.writer_ = none then .ok (-1, fs)
  else if mat.length ≠ (N * D) % 2 ^ 64 then .ok (-1, fs)
  else
    let step := if global_step < 0 then 0 else global_step
    let subdir := K.showStep step ++ "/" ++ tag
    let save_path := JoinPath r.log_dir_ subdir
    let made := K.MakeDirs fs save_path
    if made.1 < 0 then .ok (-1, made.2)
    else
      match embeddingMetadata K made.2 save_path N metadata with
      | none => .ok (-1, made.2)
      | some fs1 =>
        match K.openFile fs1 (save_path ++ "/tensors.tsv") false with
        | none => .ok (-1, fs1)
        | some fs2 =>
          match tensorsRows K.showFloat mat D N 0 "" with
          | .error e => .error e
          | .ok text =>
            .ok (r.AddProjectConfig K (K.putText fs2 (save_path ++ "/tensors.tsv") text) tag
              subdir (if metadata.isEmpty then "" else "metadata.tsv") "" step)

/-- Reference: a file system as the list of its directories and the list of its files with
their text. -/
structure DiskState where
  dirs : List String
  files : List (String × String)
deriving DecidableEq

/-- Reference: an environment in which every directory can be made and every file opened;
every `float` is shown as `v` and every step as `00000`. -/
def memDisk : Disk DiskState :=
  { MakeDirs := fun s dir => (0, if dir ∈ s.dirs then s else { s with dirs := s.dirs ++ [dir] })
    openFile := fun s path app =>
      some (if app ∧ (s.files.lookup path).isSome then s
        else { s with files := s.files.filter (fun f => f.1 ≠ path) ++ [(path, "")] })
    putText := fun s path text =>
      { s with files := s.files.map (fun f => if f.1 = path then (f.1, f.2 ++ text) else f) }
    showFloat := fun _ => "v"
    showStep := fun _ => "00000" }

/-- Reference: the environment `plainHost` in which the paths of `files` are regular files and
`GetDirectoryPath` is the function of `record/utils.cc` over `realpath`. -/
def fileHost (realpath : String → Option String) (files : List String) (payload : List Byte) :
    Host Unit :=
  { plainHost payload with
    IsDirectory := fun _ path => !(files.contains path)
    GetDirectoryPath := fun _ path => GetDirectoryPath realpath path true }

/-- Reference: the paths that have an entry in the map `writers_`. -/
def Recorder.keys (r : Recorder) : List String := r.writers_.map (fun kv => kv.1)

/-- Reference: a writer after the events have been written to it one after the other. -/
def Writer.writeAll (serialize : Serializer) (w : Writer) : List Event → Writer
  | [] => w
  | e :: es => Writer.writeAll serialize (w.Write serialize e).2 es

/-- Reference: a sequence of calls of `AddScalars`, each given by its main tag, its sub-tags
with their values and its step. -/
def Recorder.addScalarsAll {σ : Type} (P : Host σ) :
    List (String × List (String × ℚ) × Int) → Recorder → σ → Recorder × σ
  | [], r, fs => (r, fs)
  | call :: rest, r, fs =>
    Recorder.addScalarsAll P rest (r.AddScalars P fs call.1 call.2.1 call.2.2).2.1
      (r.AddScalars P fs call.1 call.2.1 call.2.2).2.2

/-- Reference: `r2` is `r1` after writers were added and events written: the same directory
and root writer, the entries of `r1` first and in the same order, no path twice if none was,
and every writer of `r1` still under its path, having received further events only. -/
def Recorder.Extends (serialize : Serializer) (r1 r2 : Recorder) : Prop :=
  r2.log_dir_ = r1.log_dir_ ∧ r2.writer_ = r1.writer_ ∧ r1.keys <+: r2.keys ∧
  (r1.keys.Nodup → r2.keys.Nodup) ∧
  ∀ key w, r1.writers_.lookup key = some w →
    ∃ events, r2.writers_.lookup key = some (w.writeAll serialize events)

/-- Reference: the text of the elements of a row after the first, each after a tab. -/
def tensorsTail (showFloat : ℚ → String) : List ℚ → String
  | [] => ""
  | v :: vs => "\t" ++ showFloat v ++ tensorsTail showFloat vs

/-- Reference: the line of the tensor file for a row of at least one element. -/
def tensorsLine (showFloat : ℚ → String) (row : List ℚ) : String :=
  showFloat (row.headD 0) ++ tensorsTail showFloat row.tail ++ "\n"

/-- Reference: the tensor file of the first `n` rows of `D` elements of a matrix. -/
def tensorsText (showFloat : ℚ → String) (D : Nat) : Nat → List ℚ → String
  | 0, _ => ""
  | n + 1, mat => tensorsLine showFloat (mat.take D) ++ tensorsText showFloat D n (mat.drop D)


/-! ## Sample inputs for the overflow of `AddScalars` -/

/-- Reference: the `2^k` names of `k` letters `a` or `b`, in ascending order. -/
def bitNames : Nat → List (List Char)
  | 0 => [[]]
  | k + 1 => (bitNames k).map (fun cs => 'a' :: cs) ++ (bitNames k).map (fun cs => 'b' :: cs)

/-- Reference: a map of `n` sub-tags (for `n <= 2^k`) with names of `k` letters, all with the
value `0`, in key order. -/
def subTags (n k : Nat) : List (String × ℚ) :=
  ((bitNames k).take n).map (fun cs => (String.mk cs, 0))

/-- Reference: a main tag of 3975 characters that starts with `/`: fifteen path components of
253 letters and one of 164, each behind a `/`. -/
def deepTag : String :=
  String.mk ((List.replicate 15 ('/' :: List.replicate 253 'a')).flatten
    ++ '/' :: List.replicate 164 'a')

/-! ## Checksum engine: lemmas -/

theorem crcBitStep_xor (a b : Nat) : crcBitStep (a ^^^ b) = crcBitStep a ^^^ crcBitStep b := by
  unfold crcBitStep
  have hs : (a ^^^ b) >>> 1 = a >>> 1 ^^^ b >>> 1 := by
    simp only [Nat.shiftRight_eq_div_pow, pow_one, Nat.xor_div_two]
  have hm : (a ^^^ b) % 2 = (a + b) % 2 := Nat.xor_mod_two_eq
  rcases Nat.mod_two_eq_zero_or_one a with ha | ha <;>
  rcases Nat.mod_two_eq_zero_or_one b with hb | hb
  · have : (a + b) % 2 = 0 := by omega
    simp [hm, ha, hb, hs, this]
  · have : (a + b) % 2 = 1 := by omega
    simp [hm, ha, hb, hs, this, Nat.xor_assoc]
  · have : (a + b) % 2 = 1 := by omega
    simp only [hm, ha, hb, hs, this, if_true]
    simp
    rw [Nat.xor_assoc, Nat.xor_assoc, Nat.xor_comm (b >>> 1)]
  · have : (a + b) % 2 = 0 := by omega
    simp only [hm, ha, hb, hs, this, if_true]
    simp
    rw [Nat.xor_assoc, Nat.xor_comm (b >>> 1), ← Nat.xor_assoc 2197175160, Nat.xor_self,
      Nat.zero_xor]

theorem crcBitStep_iter_xor (k a b : Nat) :
    crcBitStep^[k] (a ^^^ b) = crcBitStep^[k] a ^^^ crcBitStep^[k] b := by
  induction k generalizing a b with
  | zero => rfl
  | succ k ih => simp only [Function.iterate_succ, Function.comp, crcBitStep_xor, ih]

theorem crcBitStep_iter_shift (k y : Nat) : crcBitStep^[k] (y <<< k) = y := by
  induction k generalizing y with
  | zero => simp
  | succ k ih =>
    have h0 : y <<< (k + 1) = 2 * (y <<< k) := by
      simp only [Nat.shiftLeft_eq, pow_succ]; ring
    have h2 : crcBitStep (y <<< (k + 1)) = y <<< k := by
      unfold crcBitStep
      rw [h0]
      simp [Nat.shiftRight_eq_div_pow]
    rw [Function.iterate_succ, Function.comp, h2, ih]

theorem split_low8 (x : Nat) : (x % 256) ^^^ ((x >>> 8) <<< 8) = x := by
  apply Nat.eq_of_testBit_eq
  intro i
  have : (256 : Nat) = 2 ^ 8 := by norm_num
  rw [this]
  simp only [Nat.testBit_xor, Nat.testBit_mod_two_pow, Nat.testBit_shiftLeft,
    Nat.testBit_shiftRight]
  by_cases h : i < 8
  · have h' : ¬ (i ≥ 8) := by omega
    simp [h, h']
  · have h' : 8 ≤ i := by omega
    have h'' : 8 + (i - 8) = i := by omega
    simp [h, h', h'']

theorem crcBitStep_iter8 (x : Nat) :
    crcBitStep^[8] x = crcBitStep^[8] (x % 256) ^^^ (x >>> 8) := by
  conv_lhs => rw [← split_low8 x]
  rw [crcBitStep_iter_xor, crcBitStep_iter_shift]

theorem crcTable_getD (i : Nat) (h : i < 256) : crcTable.getD i 0 = crcBitStep^[8] i := by
  unfold crcTable
  simp [List.getD, h, crcTableEntry]

theorem shiftRight8_xor_byte (c : Nat) (b : Byte) : (c ^^^ b.val) >>> 8 = c >>> 8 := by
  apply Nat.eq_of_testBit_eq
  intro i
  simp only [Nat.testBit_shiftRight, Nat.testBit_xor]
  have : b.val.testBit (8 + i) = false := by
    apply Nat.testBit_lt_two_pow
    calc b.val < 256 := b.isLt
      _ = 2 ^ 8 := by norm_num
      _ ≤ 2 ^ (8 + i) := Nat.pow_le_pow_right (by norm_num) (by omega)
  simp [this]

theorem crcUpdate_eq_ref (c : Nat) (b : Byte) : crcUpdate c b = crcRefByte c b := by
  unfold crcUpdate crcRefByte
  rw [crcTable_getD _ (Nat.mod_lt _ (by norm_num)), crcBitStep_iter8 (c ^^^ b.val),
    shiftRight8_xor_byte]

theorem CRC32c_eq_reference (buf : List Byte) : CRC32c buf = crc32cReference buf := by
  unfold CRC32c crc32cReference
  have : crcUpdate = crcRefByte := by funext c b; exact crcUpdate_eq_ref c b
  rw [this]

theorem crcBitStep_lt (c : Nat) (h : c < 2 ^ 32) : crcBitStep c < 2 ^ 32 := by
  unfold crcBitStep
  have h1 : c >>> 1 < 2 ^ 32 := by
    rw [Nat.shiftRight_eq_div_pow]; omega
  split
  · exact Nat.xor_lt_two_pow h1 (by norm_num)
  · exact h1

theorem crcBitStep_iter_lt (k c : Nat) (h : c < 2 ^ 32) : crcBitStep^[k] c < 2 ^ 32 := by
  induction k generalizing c with
  | zero => exact h
  | succ k ih =>
    rw [Function.iterate_succ, Function.comp]
    exact ih _ (crcBitStep_lt c h)

theorem crcUpdate_lt (c : Nat) (b : Byte) (h : c < 2 ^ 32) : crcUpdate c b < 2 ^ 32 := by
  unfold crcUpdate
  have hm : (c ^^^ b.val) % 256 < 256 := Nat.mod_lt _ (by norm_num)
  rw [crcTable_getD _ hm]
  apply Nat.xor_lt_two_pow
  · exact crcBitStep_iter_lt 8 _ (by omega)
  · rw [Nat.shiftRight_eq_div_pow]; omega

theorem foldl_crcUpdate_lt (buf : List Byte) (c : Nat) (h : c < 2 ^ 32) :
    buf.foldl crcUpdate c < 2 ^ 32 := by
  induction buf generalizing c with
  | nil => exact h
  | cons b bs ih => exact ih _ (crcUpdate_lt c b h)

theorem CRC32c_lt (buf : List Byte) : CRC32c buf < 2 ^ 32 := by
  unfold CRC32c
  exact Nat.xor_lt_two_pow (foldl_crcUpdate_lt buf _ (by norm_num)) (by norm_num)

theorem MaskedCRC32c_lt (buf : List Byte) : MaskedCRC32c buf < 2 ^ 32 := by
  unfold MaskedCRC32c
  exact Nat.mod_lt _ (by norm_num)

theorem rotr15_eq (x : Nat) (h : x < 2 ^ 32) :
    (x >>> 15) ||| ((x <<< 17) % 2 ^ 32) = rotate_right_32 x 15 := by
  unfold rotate_right_32
  have h1 : (x <<< 17) % 2 ^ 32 = 2 ^ 17 * (x % 2 ^ 15) := by
    rw [Nat.shiftLeft_eq]; omega
  have h2 : x >>> 15 = x / 2 ^ 15 := Nat.shiftRight_eq_div_pow x 15
  have h3 : x / 2 ^ 15 < 2 ^ 17 := by omega
  rw [h1, h2, Nat.or_comm, ← Nat.mul_add_lt_is_or h3]
  ring

/-! ## Record writer: lemmas -/

theorem rawBytes_length (k n : Nat) : (rawBytes k n).length = k := by
  induction k generalizing n with
  | zero => rfl
  | succ k ih => simp [rawBytes, ih]

theorem leValue_rawBytes (k n : Nat) : leValue (rawBytes k n) = n % 256 ^ k := by
  induction k generalizing n with
  | zero => simp [rawBytes, leValue, Nat.mod_one]
  | succ k ih =>
    simp only [rawBytes, leValue, ih]
    rw [pow_succ, Nat.mul_comm (256 ^ k) 256, Nat.mod_mul]

theorem leValue_rawBytes8 (n : Nat) (h : n < 2 ^ 64) : leValue (rawBytes 8 n) = n := by
  rw [leValue_rawBytes]
  exact Nat.mod_eq_of_lt (by norm_num; norm_num at h; exact h)

theorem leValue_rawBytes4 (n : Nat) (h : n < 2 ^ 32) : leValue (rawBytes 4 n) = n := by
  rw [leValue_rawBytes]
  exact Nat.mod_eq_of_lt (by norm_num; norm_num at h; exact h)

theorem frame_length (p : List Byte) : (frame p).length = p.length + 16 := by
  simp only [frame, List.length_append, rawBytes_length]; omega

theorem frame_ne_nil (p : List Byte) : frame p ≠ [] := by
  intro h
  have := frame_length p
  rw [h] at this
  simp at this

theorem Write_ready (w : FileWriter) (p : List Byte) (hne : p ≠ []) (hr : w.Ready = true) :
    w.Write p = (toInt32 p.length,
      ⟨{ is_open := true, good := true,
         file := w.fout_.file ++ w.fout_.pending ++ frame p, pending := [] }⟩) := by
  obtain ⟨⟨o, g, f, pd⟩⟩ := w
  simp only [FileWriter.Ready, Bool.and_eq_true] at hr
  obtain ⟨ho, hg⟩ := hr
  subst ho hg
  have : p.isEmpty = false := by cases p <;> simp_all
  simp [FileWriter.Write, this, OfStream.write, OfStream.flush, frame, List.append_assoc]

theorem parseRecords_frame (fuel : Nat) (p rest : List Byte) (hp : p.length < 2 ^ 64) :
    parseRecords (fuel + 1) (frame p ++ rest)
      = (parseRecords fuel rest).map (fun ps => p :: ps) := by
  have hne : frame p ++ rest ≠ [] := by simp [frame_ne_nil]
  have hmod : p.length % 2 ^ 64 = p.length := Nat.mod_eq_of_lt hp
  have e : frame p ++ rest = rawBytes 8 p.length
      ++ (rawBytes 4 (MaskedCRC32c (rawBytes 8 p.length))
      ++ (p ++ (rawBytes 4 (MaskedCRC32c p) ++ rest))) := by
    simp only [frame, hmod, List.append_assoc]
  have t8 : (frame p ++ rest).take 8 = rawBytes 8 p.length := by
    rw [e, List.take_left' (rawBytes_length 8 _)]
  have d8 : (frame p ++ rest).drop 8 = rawBytes 4 (MaskedCRC32c (rawBytes 8 p.length))
      ++ (p ++ (rawBytes 4 (MaskedCRC32c p) ++ rest)) := by
    rw [e, List.drop_left' (rawBytes_length 8 _)]
  rw [parseRecords, if_neg hne]
  simp only [t8, d8, leValue_rawBytes8 _ hp, List.take_left' (rawBytes_length 4 _),
    List.drop_left' (rawBytes_length 4 _),
    List.take_left' (rfl : p.length = p.length), List.drop_left' (rfl : p.length = p.length),
    rawBytes_length, leValue_rawBytes4 _ (MaskedCRC32c_lt _), and_self, if_true]

theorem framesOf_cons (p : List Byte) (ps : List (List Byte)) :
    framesOf (p :: ps) = frame p ++ framesOf ps := by
  simp [framesOf]

theorem parseRecords_framesOf (ps : List (List Byte)) (fuel : Nat) (hf : ps.length ≤ fuel)
    (hp : ∀ p ∈ ps, p.length < 2 ^ 64) : parseRecords fuel (framesOf ps) = some ps := by
  induction ps generalizing fuel with
  | nil => cases fuel <;> simp [framesOf, parseRecords]
  | cons p ps ih =>
    cases fuel with
    | zero => simp at hf
    | succ fuel =>
      rw [framesOf_cons, parseRecords_frame _ _ _ (hp p (List.mem_cons_self _ _)),
        ih fuel (by simpa using hf) (fun q hq => hp q (List.mem_cons_of_mem _ hq))]
      rfl

theorem framesOf_length_ge (ps : List (List Byte)) : ps.length ≤ (framesOf ps).length := by
  induction ps with
  | nil => simp [framesOf]
  | cons p ps ih =>
    rw [framesOf_cons, List.length_append, frame_length]
    simp only [List.length_cons]
    omega

theorem writeAll_ready (ps : List (List Byte)) (w : FileWriter) (hr : w.Ready = true)
    (hne : ∀ p ∈ ps, p ≠ []) :
    writeAll w ps = (if ps = [] then w else
      ⟨{ is_open := true, good := true,
         file := w.fout_.file ++ w.fout_.pending ++ framesOf ps, pending := [] }⟩) := by
  induction ps generalizing w with
  | nil => simp [writeAll]
  | cons p ps ih =>
    have h1 := Write_ready w p (hne p (List.mem_cons_self _ _)) hr
    simp only [writeAll, h1, reduceCtorEq, if_false]
    rw [ih _ (by simp [FileWriter.Ready]) (fun q hq => hne q (List.mem_cons_of_mem _ hq))]
    by_cases hps : ps = []
    · subst hps; simp [framesOf]
    · simp [hps, framesOf, List.append_assoc]

theorem FileWriter_new_fresh (old : List Byte) :
    FileWriter.new old false true
      = ⟨{ is_open := true, good := true, file := [], pending := [] }⟩ := by
  simp [FileWriter.new, OfStream.openFile]

/-! ## Record framing and checksums: the claims -/

/-- C1, amended: on a writer that is open and healthy (no error bit set on its stream), a
non-empty payload `p` written to it appends to the file, behind whatever the stream still
buffered (which is nothing after the constructor or an earlier write, that ends with a flush),
exactly the 8-byte little-endian length of `p`, the 4-byte little-endian masked CRC of these 8
bytes, the bytes of `p` and the 4-byte little-endian masked CRC of `p`, in this order:
`|p| + 16` bytes, the previous content being kept as a prefix. -/
theorem write_appends_framed_record (w : FileWriter) (p : List Byte) (hne : p ≠ [])
    (hsize : p.length < 2 ^ 64) (hready : w.Ready = true) :
    ∃ len crc1 crc2 : List Byte,
      (w.Write p).2.fout_.file
        = w.fout_.file ++ w.fout_.pending ++ (len ++ crc1 ++ p ++ crc2) ∧
      len.length = 8 ∧ leValue len = p.length ∧
      crc1.length = 4 ∧ leValue crc1 = MaskedCRC32c len ∧
      crc2.length = 4 ∧ leValue crc2 = MaskedCRC32c p ∧
      (len ++ crc1 ++ p ++ crc2).length = p.length + 16 ∧
      (w.Write p).2.fout_.pending = [] ∧ (w.Write p).2.Ready = true := by
  have hmod : p.length % 2 ^ 64 = p.length := Nat.mod_eq_of_lt hsize
  refine ⟨rawBytes 8 p.length, rawBytes 4 (MaskedCRC32c (rawBytes 8 p.length)),
    rawBytes 4 (MaskedCRC32c p), ?_, rawBytes_length _ _, leValue_rawBytes8 _ hsize,
    rawBytes_length _ _, leValue_rawBytes4 _ (MaskedCRC32c_lt _),
    rawBytes_length _ _, leValue_rawBytes4 _ (MaskedCRC32c_lt _), ?_, ?_, ?_⟩
  · rw [Write_ready w p hne hready]
    simp only [frame, hmod]
  · have := frame_length p
    simp only [frame, hmod] at this
    exact this
  · rw [Write_ready w p hne hready]
  · rw [Write_ready w p hne hready]
    rfl

/-- Witness of C1: the payload `"ab"` written to a writer opened on a file that holds `"old"`
and is kept (`resume`). -/
theorem write_appends_framed_record_witness :
    (FileWriter.new (ascii "old") true true).fout_.file = ascii "old" ∧
    (FileWriter.new (ascii "old") true true).fout_.pending = [] ∧
    ∃ len crc1 crc2 : List Byte,
      ((FileWriter.new (ascii "old") true true).Write (ascii "ab")).2.fout_.file
        = (FileWriter.new (ascii "old") true true).fout_.file
          ++ (FileWriter.new (ascii "old") true true).fout_.pending
          ++ (len ++ crc1 ++ ascii "ab" ++ crc2) ∧
      len.length = 8 ∧ leValue len = (ascii "ab").length ∧
      crc1.length = 4 ∧ leValue crc1 = MaskedCRC32c len ∧
      crc2.length = 4 ∧ leValue crc2 = MaskedCRC32c (ascii "ab") ∧
      (len ++ crc1 ++ ascii "ab" ++ crc2).length = (ascii "ab").length + 16 ∧
      ((FileWriter.new (ascii "old") true true).Write (ascii "ab")).2.fout_.pending = [] ∧
      ((FileWriter.new (ascii "old") true true).Write (ascii "ab")).2.Ready = true :=
  ⟨by decide, by decide,
    write_appends_framed_record (FileWriter.new (ascii "old") true true) (ascii "ab")
      (by decide) (by decide) (by decide)⟩

/-- C1 fails as stated on a writer that is open but whose stream has an error bit set, as after
a failed write: the four `fout_.write` calls and the flush leave such a stream alone, so the
file keeps its content `"old"` and no record is appended for the payload `"ab"`. -/
theorem write_on_failed_stream_appends_nothing :
    (FileWriter.mk ⟨true, false, ascii "old", []⟩).fout_.is_open = true ∧
    ((FileWriter.mk ⟨true, false, ascii "old", []⟩).Write (ascii "ab")).2.fout_.file
      = ascii "old" ∧
    ((FileWriter.mk ⟨true, false, ascii "old", []⟩).Write (ascii "ab")).2.fout_.pending
      = [] := by
  refine ⟨by decide, by decide, by decide⟩

/-- C2: the payloads `p1..pn`, all non-empty, written in order to a freshly opened, truncated
synchronous writer give a file that the reference reader parses completely, every length and
payload checksum verifying, into exactly `p1..pn`. -/
theorem record_stream_round_trip (old : List Byte) (ps : List (List Byte))
    (hne : ∀ p ∈ ps, p ≠ []) (hsize : ∀ p ∈ ps, p.length < 2 ^ 64) :
    readRecords (writeAll (FileWriter.new old false true) ps).fout_.file = some ps := by
  rw [FileWriter_new_fresh, writeAll_ready ps _ (by rfl) hne]
  by_cases hps : ps = []
  · subst hps
    simp [readRecords, parseRecords]
  · simp only [hps, if_false, List.append_nil, List.nil_append, readRecords]
    exact parseRecords_framesOf ps _ (framesOf_length_ge ps) hsize

/-- Witness of C2: two payloads written over an old file. -/
theorem record_stream_round_trip_witness :
    readRecords (writeAll (FileWriter.new (ascii "old") false true)
      [ascii "ab", ascii "c"]).fout_.file = some [ascii "ab", ascii "c"] :=
  record_stream_round_trip (ascii "old") [ascii "ab", ascii "c"] (by decide) (by decide)

/-- C3: for every buffer the masked checksum is the CRC-32C rotated right by 15 bits plus
`0xa282ead8` modulo `2 ^ 32`, and it has the three values of the reference table. -/
theorem masked_crc32c_is_rotate_add :
    (∀ b : List Byte,
      MaskedCRC32c b = (rotate_right_32 (CRC32c b) 15 + 0xa282ead8) % 2 ^ 32) ∧
    MaskedCRC32c (ascii "") = 0xA282EAD8 ∧
    MaskedCRC32c (ascii "121aba") = 0x5613858D ∧
    MaskedCRC32c (ascii "qwassfaf") = 0x15E88101 := by
  refine ⟨fun b => ?_, by decide, by decide, by decide⟩
  unfold MaskedCRC32c
  simp only [rotr15_eq _ (CRC32c_lt b)]

/-- C4: for every buffer the table-driven checksum is the standard (bit-at-a-time) CRC-32C
over the Castagnoli polynomial, it fits 32 bits, and it has the three values of the reference
table. -/
theorem crc32c_is_standard :
    (∀ b : List Byte, CRC32c b = crc32cReference b ∧ CRC32c b < 2 ^ 32) ∧
    CRC32c (ascii "") = 0 ∧
    CRC32c (ascii "121aba") = 0x4D5AD9C8 ∧
    CRC32c (ascii "qwassfaf") = 0xCB14B9B2 := by
  exact ⟨fun b => ⟨CRC32c_eq_reference b, CRC32c_lt b⟩, by decide, by decide, by decide⟩


/-! ## Doubles: rounding -/

theorem roundHalfEven_abs_sub_le (x : ℚ) : |(roundHalfEven x : ℚ) - x| ≤ 1 / 2 := by
  have h1 := Int.floor_le x
  have h2 := Int.lt_floor_add_one x
  unfold roundHalfEven
  split_ifs with c1 c2 c3
  · rw [abs_le]; constructor <;> linarith
  · rw [abs_le]; push_cast; constructor <;> linarith
  · rw [abs_le]; constructor <;> linarith
  · rw [abs_le]; push_cast; constructor <;> linarith

theorem roundHalfEven_intCast (n : Int) : roundHalfEven (n : ℚ) = n := by
  unfold roundHalfEven
  rw [Int.floor_intCast]
  simp

theorem roundHalfEven_pos (x : ℚ) (h : 1 ≤ x) : 0 < roundHalfEven x := by
  have h1 := roundHalfEven_abs_sub_le x
  rw [abs_le] at h1
  have : (0 : ℚ) < (roundHalfEven x : ℚ) := by linarith [h1.1]
  exact_mod_cast this

theorem f64_round_eval (x : ℚ) (e k : Int) (hx : 0 < x) (he : -1022 ≤ e)
    (h1 : (2 : ℚ) ^ e ≤ x) (h2 : x < (2 : ℚ) ^ (e + 1))
    (hk : roundHalfEven (x / 2 ^ (e - 52)) = k) (hm : (k : ℚ) * 2 ^ (e - 52) < 2 ^ 1024) :
    F64.round x = .fin ((k : ℚ) * 2 ^ (e - 52)) := by
  have hlog : Int.log 2 x = e := by
    apply le_antisymm
    · have := (Int.lt_zpow_iff_log_lt (b := 2) (by norm_num) hx (x := e + 1)).1 (by exact_mod_cast h2)
      omega
    · exact (Int.zpow_le_iff_le_log (b := 2) (by norm_num) hx).1 (by exact_mod_cast h1)
  unfold F64.round
  rw [if_neg (ne_of_gt hx)]
  simp only [abs_of_pos hx, hlog, max_eq_left he, hk]
  rw [if_neg (not_le.2 hm), if_neg (not_lt.2 (le_of_lt hx))]
theorem f64_log_ge (x : ℚ) (h1 : (2 : ℚ) ^ (-1022 : Int) ≤ x) : -1022 ≤ Int.log 2 x := by
  have hx : 0 < x := lt_of_lt_of_le (by positivity) h1
  exact (Int.zpow_le_iff_le_log (b := 2) (by norm_num) hx).1 (by exact_mod_cast h1)

/-- Rounding a value of the normal range changes it by at most the factor `1 ± 2^-53`. -/
theorem f64_round_bounds (x : ℚ) (h1 : (2 : ℚ) ^ (-1022 : Int) ≤ x) (h2 : x ≤ 2 ^ 1023) :
    ∃ y : ℚ, F64.round x = .fin y ∧ x * (1 - 1 / 2 ^ 53) ≤ y ∧ y ≤ x * (1 + 1 / 2 ^ 53) := by
  have hx : 0 < x := lt_of_lt_of_le (by positivity) h1
  have he := f64_log_ge x h1
  have hlo : (2 : ℚ) ^ Int.log 2 x ≤ x := by
    have := Int.zpow_log_le_self (b := 2) (by norm_num) hx
    exact_mod_cast this
  have hhi : x < (2 : ℚ) ^ (Int.log 2 x + 1) := by
    have := Int.lt_zpow_succ_log_self (b := 2) (by norm_num) x
    exact_mod_cast this
  obtain ⟨e, hE⟩ : ∃ e, e = Int.log 2 x := ⟨_, rfl⟩
  rw [← hE] at he hlo hhi
  have hu : (0 : ℚ) < 2 ^ (e - 52) := by positivity
  have hr := roundHalfEven_abs_sub_le (x / 2 ^ (e - 52))
  rw [abs_le] at hr
  have hsplit : (2 : ℚ) ^ (e - 52) = 2 ^ e * (1 / 2 ^ 52) := by
    rw [zpow_sub₀ (by norm_num : (2 : ℚ) ≠ 0)]
    norm_num
    ring
  obtain ⟨k, hk⟩ : ∃ k, k = roundHalfEven (x / 2 ^ (e - 52)) := ⟨_, rfl⟩
  rw [← hk] at hr
  have hxk : x = x / 2 ^ (e - 52) * 2 ^ (e - 52) := by field_simp
  have hb1 : (k : ℚ) * 2 ^ (e - 52) ≤ x + 2 ^ (e - 52) / 2 := by
    have : (k : ℚ) * 2 ^ (e - 52) ≤ (x / 2 ^ (e - 52) + 1 / 2) * 2 ^ (e - 52) :=
      mul_le_mul_of_nonneg_right (by linarith [hr.2]) (le_of_lt hu)
    rw [add_mul, ← hxk] at this
    linarith
  have hb2 : x - 2 ^ (e - 52) / 2 ≤ (k : ℚ) * 2 ^ (e - 52) := by
    have : (x / 2 ^ (e - 52) - 1 / 2) * 2 ^ (e - 52) ≤ (k : ℚ) * 2 ^ (e - 52) :=
      mul_le_mul_of_nonneg_right (by linarith [hr.1]) (le_of_lt hu)
    rw [sub_mul, ← hxk] at this
    linarith
  have hulp : (2 : ℚ) ^ (e - 52) / 2 ≤ x * (1 / 2 ^ 53) := by
    rw [hsplit]
    have : (2 : ℚ) ^ e * (1 / 2 ^ 52) / 2 = 2 ^ e * (1 / 2 ^ 53) := by norm_num; ring
    rw [this]
    exact mul_le_mul_of_nonneg_right hlo (by positivity)
  have hm : (k : ℚ) * 2 ^ (e - 52) < 2 ^ 1024 := by
    have h3 : x * (1 / 2 ^ 53) ≤ 2 ^ 1023 * (1 / 2 ^ 53) :=
      mul_le_mul_of_nonneg_right h2 (by positivity)
    have h4 : (2 : ℚ) ^ 1023 + 2 ^ 1023 * (1 / 2 ^ 53) < 2 ^ 1024 := by norm_num
    linarith
  refine ⟨(k : ℚ) * 2 ^ (e - 52), f64_round_eval x e k hx he hlo hhi hk.symm hm, ?_, ?_⟩
  · linarith
  · linarith

theorem f64_round_neg (x : ℚ) : F64.round (-x) = -(F64.round x) := by
  show F64.round (-x) = F64.neg (F64.round x)
  rcases lt_trichotomy x 0 with h | h | h
  · have h1 : ¬ (-x < 0) := by linarith
    have h2 : -x ≠ 0 := by linarith
    have h3 : x ≠ 0 := ne_of_lt h
    unfold F64.round
    rw [if_neg h2, if_neg h3]
    simp only [abs_neg, h, h1, if_true, if_false, decide_True, decide_False]
    split_ifs <;> simp [F64.neg]
  · subst h
    simp [F64.round, F64.neg]
  · have h1 : -x < 0 := by linarith
    have h2 : -x ≠ 0 := by linarith
    have h3 : x ≠ 0 := ne_of_gt h
    have h4 : ¬ x < 0 := by linarith
    unfold F64.round
    rw [if_neg h2, if_neg h3]
    simp only [abs_neg, h4, h1, if_true, if_false, decide_True, decide_False]
    split_ifs <;> simp [F64.neg]

/-- A value `k * 2^j` with `0 < k < 2^53` inside the normal range is a `double`: rounding
returns it. -/
theorem f64_round_exact (k j : Int) (hk0 : 0 < k) (hk : k < 2 ^ 53) (hj : -1022 ≤ j)
    (hlt : (k : ℚ) * 2 ^ j < 2 ^ 1024) : F64.round ((k : ℚ) * 2 ^ j) = .fin ((k : ℚ) * 2 ^ j) := by
  have hkq : (1 : ℚ) ≤ (k : ℚ) := by exact_mod_cast hk0
  have hkq2 : (k : ℚ) < 2 ^ 53 := by exact_mod_cast hk
  have hj0 : (0 : ℚ) < 2 ^ j := by positivity
  have hx : (0 : ℚ) < (k : ℚ) * 2 ^ j := by positivity
  have h1 : (2 : ℚ) ^ (-1022 : Int) ≤ (k : ℚ) * 2 ^ j := by
    have : (2 : ℚ) ^ (-1022 : Int) ≤ 2 ^ j := zpow_le_zpow_right₀ (by norm_num) hj
    nlinarith
  have he := f64_log_ge _ h1
  have hlo : (2 : ℚ) ^ Int.log 2 ((k : ℚ) * 2 ^ j) ≤ (k : ℚ) * 2 ^ j := by
    have := Int.zpow_log_le_self (b := 2) (by norm_num) hx
    exact_mod_cast this
  have hhi : (k : ℚ) * 2 ^ j < (2 : ℚ) ^ (Int.log 2 ((k : ℚ) * 2 ^ j) + 1) := by
    have := Int.lt_zpow_succ_log_self (b := 2) (by norm_num) ((k : ℚ) * 2 ^ j)
    exact_mod_cast this
  obtain ⟨e, hE⟩ : ∃ e, e = Int.log 2 ((k : ℚ) * 2 ^ j) := ⟨_, rfl⟩
  rw [← hE] at he hlo hhi
  have hej : e - 52 ≤ j := by
    have h3 : (2 : ℚ) ^ e < 2 ^ (53 + j) := by
      rw [zpow_add₀ (by norm_num : (2 : ℚ) ≠ 0)]
      have : (k : ℚ) * 2 ^ j < 2 ^ (53 : Int) * 2 ^ j := by
        have h53 : (2 : ℚ) ^ (53 : Int) = 2 ^ 53 := by norm_num
        rw [h53]
        exact mul_lt_mul_of_pos_right hkq2 hj0
      linarith
    have := (zpow_lt_zpow_iff_right₀ (by norm_num : (1 : ℚ) < 2)).1 h3
    omega
  obtain ⟨n, hn⟩ : ∃ n : Nat, j - (e - 52) = n := ⟨(j - (e - 52)).toNat, by omega⟩
  have hdiv : (k : ℚ) * 2 ^ j / 2 ^ (e - 52) = ((k * 2 ^ n : Int) : ℚ) := by
    have hj2 : j = (e - 52) + n := by omega
    rw [hj2, zpow_add₀ (by norm_num : (2 : ℚ) ≠ 0)]
    push_cast
    field_simp
    ring
  have hkk : roundHalfEven ((k : ℚ) * 2 ^ j / 2 ^ (e - 52)) = k * 2 ^ n := by
    rw [hdiv, roundHalfEven_intCast]
  have hval : ((k * 2 ^ n : Int) : ℚ) * 2 ^ (e - 52) = (k : ℚ) * 2 ^ j := by
    rw [← hdiv]
    field_simp
  have := f64_round_eval _ e (k * 2 ^ n) hx he hlo hhi hkk (by rw [hval]; exact hlt)
  rw [this, hval]

theorem f64_round_int (n : Int) (h : |n| ≤ 2 ^ 53) : F64.round (n : ℚ) = .fin (n : ℚ) := by
  have key : ∀ m : Int, 0 < m → m ≤ 2 ^ 53 → F64.round (m : ℚ) = .fin (m : ℚ) := by
    intro m h0 hm
    rcases lt_or_eq_of_le hm with h1 | h1
    · have := f64_round_exact m 0 h0 h1 (by norm_num) (by
        rw [zpow_zero, mul_one]
        have : (m : ℚ) < 2 ^ 53 := by exact_mod_cast h1
        have h2 : (2 : ℚ) ^ 53 < 2 ^ 1024 := by norm_num
        linarith)
      rwa [zpow_zero, mul_one] at this
    · have := f64_round_exact 1 53 (by norm_num) (by norm_num) (by norm_num) (by norm_num)
      subst h1
      have e : ((1 : Int) : ℚ) * 2 ^ (53 : Int) = ((2 ^ 53 : Int) : ℚ) := by norm_num
      rwa [e] at this
  rcases lt_trichotomy n 0 with hn | hn | hn
  · have h1 := key (-n) (by omega) (by rw [abs_of_neg hn] at h; exact h)
    have h2 := f64_round_neg ((-n : Int) : ℚ)
    rw [h1] at h2
    push_cast at h2
    rw [neg_neg] at h2
    rw [h2]
    show F64.neg (F64.fin (-(n : ℚ))) = _
    simp [F64.neg]
  · subst hn
    simp [F64.round]
  · exact key n hn (by rw [abs_of_pos hn] at h; exact h)

theorem f64_ofNat_exact (n : Nat) (h : n ≤ 2 ^ 53) : F64.ofNat n = .fin (n : ℚ) := by
  have := f64_round_int (n : Int) (by
    rw [abs_of_nonneg (by omega)]
    exact_mod_cast h)
  simpa [F64.ofNat] using this
/-! ## Doubles: order -/

theorem f64_lt_iff (a b : F64) : a < b ↔ F64.lt a b = true := Iff.rfl

theorem f64_le_iff (a b : F64) : a ≤ b ↔ F64.le a b = true := Iff.rfl

theorem f64_fin_lt_fin (a b : ℚ) : F64.fin a < F64.fin b ↔ a < b := by
  simp [f64_lt_iff, F64.lt]

theorem f64_fin_le_fin (a b : ℚ) : F64.fin a ≤ F64.fin b ↔ a ≤ b := by
  simp [f64_le_iff, F64.le]

theorem f64_lt_trans {a b c : F64} (h1 : a < b) (h2 : b < c) : a < c := by
  cases a <;> cases b <;> cases c <;>
    simp_all [f64_lt_iff, F64.lt]
  exact lt_trans h1 h2

theorem f64_le_trans {a b c : F64} (h1 : a ≤ b) (h2 : b ≤ c) : a ≤ c := by
  cases a <;> cases b <;> cases c <;>
    simp_all [f64_le_iff, F64.le] <;>
    first | exact le_trans h1 h2 | (rcases h1 with h | h <;> simp_all)

theorem f64_lt_of_lt_of_le {a b c : F64} (h1 : a < b) (h2 : b ≤ c) : a < c := by
  cases a <;> cases b <;> cases c <;>
    simp_all [f64_lt_iff, f64_le_iff, F64.lt, F64.le]
  exact lt_of_lt_of_le h1 h2

theorem f64_lt_of_le_of_lt {a b c : F64} (h1 : a ≤ b) (h2 : b < c) : a < c := by
  cases a <;> cases b <;> cases c <;>
    simp_all [f64_lt_iff, f64_le_iff, F64.lt, F64.le]
  exact lt_of_le_of_lt h1 h2

theorem f64_lt_irrefl (a : F64) : ¬ a < a := by
  cases a <;> simp [f64_lt_iff, F64.lt]

theorem f64_le_of_lt {a b : F64} (h : a < b) : a ≤ b := by
  cases a <;> cases b <;> simp_all [f64_lt_iff, f64_le_iff, F64.lt, F64.le]
  exact le_of_lt h

theorem f64_le_refl {a : F64} (h : a ≠ .nan) : a ≤ a := by
  cases a <;> simp_all [f64_le_iff, F64.le]

theorem f64_le_antisymm {a b : F64} (h1 : a ≤ b) (h2 : b ≤ a) : a = b := by
  cases a <;> cases b <;> simp_all [f64_le_iff, F64.le]
  · rcases h1 with h | h <;> rcases h2 with h' | h' <;> simp_all
  · exact le_antisymm h1 h2

theorem f64_not_lt {a b : F64} (ha : a ≠ .nan) (hb : b ≠ .nan) : ¬ a < b ↔ b ≤ a := by
  cases a <;> cases b <;> simp_all [f64_lt_iff, f64_le_iff, F64.lt, F64.le]
  rename_i n1 n2
  cases n1 <;> cases n2 <;> simp

theorem f64_not_le_of_lt {a b : F64} (h : a < b) : ¬ b ≤ a := by
  cases a <;> cases b <;> simp_all [f64_lt_iff, f64_le_iff, F64.lt, F64.le]

theorem f64_ne_nan_of_le {a b : F64} (h : a ≤ b) : a ≠ .nan ∧ b ≠ .nan := by
  cases a <;> cases b <;> simp_all [f64_le_iff, F64.le]

theorem f64_ne_nan_of_lt {a b : F64} (h : a < b) : a ≠ .nan ∧ b ≠ .nan := by
  cases a <;> cases b <;> simp_all [f64_lt_iff, F64.lt]

theorem f64_not_nan_lt (a : F64) : ¬ F64.nan < a := by
  cases a <;> simp [f64_lt_iff, F64.lt]

theorem f64_not_lt_nan (a : F64) : ¬ a < F64.nan := by
  cases a <;> simp [f64_lt_iff, F64.lt]

theorem f64_not_le_nan (a : F64) : ¬ a ≤ F64.nan := by
  cases a <;> simp [f64_le_iff, F64.le]

theorem f64_not_nan_le (a : F64) : ¬ F64.nan ≤ a := by
  cases a <;> simp [f64_le_iff, F64.le]

theorem f64_fin_lt_inf (a : ℚ) : F64.fin a < F64.inf false := by
  simp [f64_lt_iff, F64.lt]

theorem f64_neg_fin (a : ℚ) : -(F64.fin a) = F64.fin (-a) := rfl

theorem f64_fin_add (a b : ℚ) : F64.fin a + F64.fin b = F64.round (a + b) := rfl

theorem f64_fin_mul (a b : ℚ) : F64.fin a * F64.fin b = F64.round (a * b) := rfl

theorem f64_zero : (0 : F64) = F64.fin 0 := rfl

/-- Rounding a value of at least `2^-1022` gives a `double` above zero. -/
theorem f64_round_pos (x : ℚ) (h1 : (2 : ℚ) ^ (-1022 : Int) ≤ x) : F64.fin 0 < F64.round x := by
  have hx : 0 < x := lt_of_lt_of_le (by positivity) h1
  have he := f64_log_ge x h1
  have hlo : (2 : ℚ) ^ Int.log 2 x ≤ x := by
    have := Int.zpow_log_le_self (b := 2) (by norm_num) hx
    exact_mod_cast this
  obtain ⟨e, hE⟩ : ∃ e, e = Int.log 2 x := ⟨_, rfl⟩
  rw [← hE] at he hlo
  have hu : (0 : ℚ) < 2 ^ (e - 52) := by positivity
  have hsplit : (2 : ℚ) ^ e = 2 ^ (e - 52) * 2 ^ 52 := by
    have : e = (e - 52) + 52 := by omega
    conv_lhs => rw [this]
    rw [zpow_add₀ (by norm_num : (2 : ℚ) ≠ 0)]
    norm_num
  have hq : (1 : ℚ) ≤ x / 2 ^ (e - 52) := by
    rw [le_div_iff₀ hu]
    have : (1 : ℚ) * 2 ^ (e - 52) ≤ 2 ^ (e - 52) * 2 ^ 52 := by
      have h52 : (1 : ℚ) ≤ 2 ^ 52 := by norm_num
      nlinarith
    linarith
  have hk := roundHalfEven_pos _ hq
  have hm : (0 : ℚ) < (roundHalfEven (x / 2 ^ (e - 52)) : ℚ) * 2 ^ (e - 52) := by
    have : (0 : ℚ) < (roundHalfEven (x / 2 ^ (e - 52)) : ℚ) := by exact_mod_cast hk
    positivity
  unfold F64.round
  rw [if_neg (ne_of_gt hx)]
  simp only [abs_of_pos hx, ← hE, max_eq_left he]
  split_ifs with c1 c2
  · have : ¬ x < 0 := not_lt.2 (le_of_lt hx)
    simp [f64_lt_iff, F64.lt, this]
  · exact absurd c2 (not_lt.2 (le_of_lt hx))
  · exact (f64_fin_lt_fin _ _).2 hm

theorem f64_ofNat_pos (n : Nat) (h : 0 < n) : F64.fin 0 < F64.ofNat n := by
  apply f64_round_pos
  have h1 : (1 : ℚ) ≤ (n : ℚ) := by exact_mod_cast h
  have h2 : (2 : ℚ) ^ (-1022 : Int) ≤ 1 := by norm_num
  linarith

theorem roundHalfEven_tie_even (k : Int) (hk : k % 2 = 0) :
    roundHalfEven ((k : ℚ) + 1 / 2) = k := by
  have hf : ⌊(k : ℚ) + 1 / 2⌋ = k := by
    rw [Int.floor_eq_iff]
    constructor <;> linarith
  unfold roundHalfEven
  rw [hf]
  have e : (k : ℚ) + 1 / 2 - (k : ℚ) = 1 / 2 := by ring
  rw [e, if_neg (lt_irrefl _), if_neg (lt_irrefl _), if_pos hk]

/-- The sum `1e16 + 1` lies halfway between two `double`s and rounds to the even one,
`1e16`. -/
theorem f64_add_1e16_one : F64.fin 1e16 + F64.fin 1 = F64.fin 1e16 := by
  rw [f64_fin_add]
  have hk : roundHalfEven (((1e16 : ℚ) + 1) / 2 ^ ((53 : Int) - 52)) = 5000000000000000 := by
    have e : ((1e16 : ℚ) + 1) / 2 ^ ((53 : Int) - 52)
        = ((5000000000000000 : Int) : ℚ) + 1 / 2 := by norm_num
    rw [e]
    exact roundHalfEven_tie_even _ (by norm_num)
  have h := f64_round_eval ((1e16 : ℚ) + 1) 53 5000000000000000 (by norm_num) (by norm_num)
    (by norm_num) (by norm_num) hk (by norm_num)
  rw [h]
  congr 1
  norm_num

theorem f64_add_neg_self (q : ℚ) : F64.fin q + F64.fin (-q) = F64.fin 0 := by
  rw [f64_fin_add, add_neg_cancel]
  simp [F64.round]

theorem f64_zero_add_exact (k j : Int) (hk0 : 0 < k) (hk : k < 2 ^ 53) (hj : -1022 ≤ j)
    (hlt : (k : ℚ) * 2 ^ j < 2 ^ 1024) :
    (0 : F64) + F64.fin ((k : ℚ) * 2 ^ j) = F64.fin ((k : ℚ) * 2 ^ j) := by
  rw [f64_zero, f64_fin_add, zero_add]
  exact f64_round_exact k j hk0 hk hj hlt

/-! ## Bucket table: lemmas -/

theorem binsLoop_succ (fuel : Nat) (v : F64) (p q : List F64) :
    binsLoop (fuel + 1) v (p, q)
      = if v < F64.lit 1e20 then binsLoop fuel (v * F64.lit 1.1) (p ++ [v], q ++ [-v])
        else (p, q) := rfl

/-- The literal `1E20` is a `double`: `1e20 = 5^20 * 2^20` and `5^20 < 2^53`. -/
theorem lit_1e20 : F64.lit 1e20 = F64.fin 1e20 := by
  have h := f64_round_exact (5 ^ 20) 20 (by norm_num) (by norm_num) (by norm_num) (by norm_num)
  have e : ((5 ^ 20 : Int) : ℚ) * 2 ^ (20 : Int) = 1e20 := by norm_num
  rw [e] at h
  exact h

/-- The literal `1.1` is the `double` nearest to `11/10`, within the factor `1 ± 2^-53`. -/
theorem lit_1_1 : ∃ c : ℚ, F64.lit 1.1 = F64.fin c ∧
    (11 / 10 : ℚ) * (1 - 1 / 2 ^ 53) ≤ c ∧ c ≤ (11 / 10 : ℚ) * (1 + 1 / 2 ^ 53) := by
  have h := f64_round_bounds (11 / 10) (by norm_num) (by norm_num)
  have e : (1.1 : ℚ) = 11 / 10 := by norm_num
  unfold F64.lit
  rw [e]
  exact h

/-- The literal `1E-12` is the `double` nearest to `10^-12`, within the factor `1 ± 2^-53`. -/
theorem lit_1em12 : ∃ a : ℚ, F64.lit 1e-12 = F64.fin a ∧
    (1 / 10 ^ 12 : ℚ) * (1 - 1 / 2 ^ 53) ≤ a ∧ a ≤ (1 / 10 ^ 12 : ℚ) * (1 + 1 / 2 ^ 53) := by
  have h := f64_round_bounds (1 / 10 ^ 12) (by norm_num) (by norm_num)
  have e : (1e-12 : ℚ) = 1 / 10 ^ 12 := by norm_num
  unfold F64.lit
  rw [e]
  exact h

/-- One `v *= 1.1` on a boundary of the table range: the product is finite and lies within
`v * 1.0999999` and `v * 1.1000001`. -/
theorem bins_step (v : ℚ) (h1 : 1 / 10 ^ 13 ≤ v) (h2 : v ≤ 10 ^ 21) :
    ∃ w : ℚ, F64.fin v * F64.lit 1.1 = F64.fin w ∧
      v * (10999999 / 10000000) ≤ w ∧ w ≤ v * (11000001 / 10000000) := by
  obtain ⟨c, hc, hc1, hc2⟩ := lit_1_1
  have hv : 0 < v := lt_of_lt_of_le (by norm_num) h1
  have hcl : (109 / 100 : ℚ) ≤ c := le_trans (by norm_num) hc1
  have hcu : c ≤ (111 / 100 : ℚ) := le_trans hc2 (by norm_num)
  have hc0 : 0 < c := lt_of_lt_of_le (by norm_num) hcl
  have hp1 : (2 : ℚ) ^ (-1022 : Int) ≤ v * c := by
    have : (1 / 10 ^ 13 : ℚ) * (109 / 100) ≤ v * c :=
      mul_le_mul h1 hcl (by norm_num) (le_of_lt hv)
    exact le_trans (by norm_num) this
  have hp2 : v * c ≤ 2 ^ 1023 := by
    have : v * c ≤ 10 ^ 21 * (111 / 100 : ℚ) := mul_le_mul h2 hcu (le_of_lt hc0) (by norm_num)
    exact le_trans this (by norm_num)
  obtain ⟨y, hy, hy1, hy2⟩ := f64_round_bounds (v * c) hp1 hp2
  refine ⟨y, ?_, ?_, ?_⟩
  · rw [hc, f64_fin_mul, hy]
  · have k1 : v * ((11 / 10 : ℚ) * (1 - 1 / 2 ^ 53)) ≤ v * c :=
      mul_le_mul_of_nonneg_left hc1 (le_of_lt hv)
    have k2 : v * ((11 / 10 : ℚ) * (1 - 1 / 2 ^ 53)) * (1 - 1 / 2 ^ 53)
        ≤ v * c * (1 - 1 / 2 ^ 53) := mul_le_mul_of_nonneg_right k1 (by norm_num)
    have k3 : v * (10999999 / 10000000)
        ≤ v * ((11 / 10 : ℚ) * (1 - 1 / 2 ^ 53) * (1 - 1 / 2 ^ 53)) :=
      mul_le_mul_of_nonneg_left (by norm_num) (le_of_lt hv)
    linarith
  · have k1 : v * c ≤ v * ((11 / 10 : ℚ) * (1 + 1 / 2 ^ 53)) :=
      mul_le_mul_of_nonneg_left hc2 (le_of_lt hv)
    have k2 : v * c * (1 + 1 / 2 ^ 53)
        ≤ v * ((11 / 10 : ℚ) * (1 + 1 / 2 ^ 53)) * (1 + 1 / 2 ^ 53) :=
      mul_le_mul_of_nonneg_right k1 (by norm_num)
    have k3 : v * ((11 / 10 : ℚ) * (1 + 1 / 2 ^ 53) * (1 + 1 / 2 ^ 53))
        ≤ v * (11000001 / 10000000) :=
      mul_le_mul_of_nonneg_left (by norm_num) (le_of_lt hv)
    linarith

theorem binsLoop_spec (fuel : Nat) (v : ℚ) (hv : 1 / 10 ^ 13 ≤ v) (pos neg : List F64) :
    ∃ P : List ℚ,
      binsLoop fuel (F64.fin v) (pos, neg)
        = (pos ++ P.map F64.fin, neg ++ P.map (fun x => F64.fin (-x))) ∧
      P.Pairwise (· < ·) ∧ (∀ x ∈ P, v ≤ x ∧ x < 1e20) ∧
      (∀ i, i < P.length → v * (10999999 / 10000000) ^ i ≤ P.getD i 0) ∧
      (0 < fuel → v < 1e20 → P.head? = some v) := by
  induction fuel generalizing v pos neg with
  | zero => exact ⟨[], by simp [binsLoop]⟩
  | succ fuel ih =>
    have hv0 : 0 < v := lt_of_lt_of_le (by norm_num) hv
    by_cases h : v < 1e20
    · obtain ⟨w, hw, hw1, hw2⟩ := bins_step v hv (le_trans (le_of_lt h) (by norm_num))
      have hlt : v < w := by
        have : v * (10999999 / 10000000) = v + v * (999999 / 10000000) := by ring
        rw [this] at hw1
        linarith [mul_pos hv0 (by norm_num : (0 : ℚ) < 999999 / 10000000)]
      obtain ⟨P, hP, hs, hb, hg, -⟩ := ih w (le_trans hv (le_of_lt hlt)) (pos ++ [F64.fin v])
        (neg ++ [F64.fin (-v)])
      refine ⟨v :: P, ?_, ?_, ?_, ?_, fun _ _ => rfl⟩
      · rw [binsLoop_succ, lit_1e20, if_pos ((f64_fin_lt_fin _ _).2 h), hw, f64_neg_fin, hP]
        simp [List.append_assoc]
      · rw [List.pairwise_cons]
        exact ⟨fun x hx => lt_of_lt_of_le hlt (hb x hx).1, hs⟩
      · intro x hx
        rcases List.mem_cons.1 hx with rfl | hx
        · exact ⟨le_refl _, h⟩
        · exact ⟨le_of_lt (lt_of_lt_of_le hlt (hb x hx).1), (hb x hx).2⟩
      · intro i hi
        cases i with
        | zero => simp
        | succ i =>
          have h1 := hg i (by simpa using hi)
          have h2 : v * (10999999 / 10000000) * (10999999 / 10000000) ^ i
              ≤ w * (10999999 / 10000000) ^ i :=
            mul_le_mul_of_nonneg_right hw1 (by positivity)
          rw [List.getD_cons_succ, pow_succ]
          linarith [mul_assoc v (10999999 / 10000000 : ℚ) ((10999999 / 10000000) ^ i),
            mul_comm (10999999 / 10000000 : ℚ) ((10999999 / 10000000) ^ i)]
    · refine ⟨[], ?_, List.Pairwise.nil, by simp, by simp, fun _ hh => absurd hh h⟩
      rw [binsLoop_succ, lit_1e20, if_neg (fun hh => h ((f64_fin_lt_fin _ _).1 hh))]
      simp

theorem binsLoop_count (n : Nat) : ∀ (v : ℚ) (p q : List F64) (m : Nat), 1 / 10 ^ 13 ≤ v →
    (∀ k, k < n → v * (11000001 / 10000000) ^ k < 1e20) →
    (1e20 : ℚ) ≤ v * (10999999 / 10000000) ^ n →
    binsLoop (n + m) (F64.fin v) (p, q) = binsLoop n (F64.fin v) (p, q) ∧
    (binsLoop n (F64.fin v) (p, q)).1.length = p.length + n := by
  induction n with
  | zero =>
    intro v p q m _ _ h
    have hv : ¬ F64.fin v < F64.lit 1e20 := by
      rw [lit_1e20, f64_fin_lt_fin]
      simpa using h
    cases m with
    | zero => exact ⟨rfl, rfl⟩
    | succ m =>
      rw [Nat.zero_add, binsLoop_succ, if_neg hv]
      exact ⟨rfl, rfl⟩
  | succ n ih =>
    intro v p q m hv hlt hge
    have hv0 : 0 < v := lt_of_lt_of_le (by norm_num) hv
    have h0 : v < 1e20 := by simpa using hlt 0 (by omega)
    have h0' : F64.fin v < F64.lit 1e20 := by
      rw [lit_1e20, f64_fin_lt_fin]
      exact h0
    obtain ⟨w, hw, hw1, hw2⟩ := bins_step v hv (le_trans (le_of_lt h0) (by norm_num))
    have hvw : v ≤ w := by
      have : v * (10999999 / 10000000) = v + v * (999999 / 10000000) := by ring
      rw [this] at hw1
      linarith [mul_pos hv0 (by norm_num : (0 : ℚ) < 999999 / 10000000)]
    have e : n + 1 + m = (n + m) + 1 := by omega
    obtain ⟨i1, i2⟩ := ih w (p ++ [F64.fin v]) (q ++ [-(F64.fin v)]) m (le_trans hv hvw)
      (fun k hk => by
        have h3 := hlt (k + 1) (by omega)
        have h4 : w * (11000001 / 10000000) ^ k
            ≤ v * (11000001 / 10000000) * (11000001 / 10000000) ^ k :=
          mul_le_mul_of_nonneg_right hw2 (by positivity)
        rw [pow_succ] at h3
        linarith [mul_assoc v (11000001 / 10000000 : ℚ) ((11000001 / 10000000) ^ k),
          mul_comm (11000001 / 10000000 : ℚ) ((11000001 / 10000000) ^ k)])
      (by
        have h4 : v * (10999999 / 10000000) * (10999999 / 10000000) ^ n
            ≤ w * (10999999 / 10000000) ^ n :=
          mul_le_mul_of_nonneg_right hw1 (by positivity)
        rw [pow_succ] at hge
        linarith [mul_assoc v (10999999 / 10000000 : ℚ) ((10999999 / 10000000) ^ n),
          mul_comm (10999999 / 10000000 : ℚ) ((10999999 / 10000000) ^ n)])
    rw [e, binsLoop_succ, binsLoop_succ, if_pos h0', if_pos h0', hw, i1]
    refine ⟨rfl, ?_⟩
    rw [i2]
    simp only [List.length_append, List.length_singleton]
    omega

theorem bins_last_bound :
    (1 / 10 ^ 12 : ℚ) * (1 + 1 / 2 ^ 53) * (11000001 / 10000000) ^ 773 < 1e20 := by norm_num

theorem bins_exit_bound :
    (1e20 : ℚ) ≤ (1 / 10 ^ 12 : ℚ) * (1 - 1 / 2 ^ 53) * (10999999 / 10000000) ^ 774 := by
  norm_num

/-- The loop of `GenerateDefaultBins` leaves by its own test after exactly 774 iterations,
rounding included. -/
theorem binsLoop_run (m : Nat) :
    binsLoop (774 + m) (F64.lit 1e-12) ([], []) = binsLoop 774 (F64.lit 1e-12) ([], []) ∧
    (binsLoop 774 (F64.lit 1e-12) ([], [])).1.length = 774 := by
  obtain ⟨a, ha, ha1, ha2⟩ := lit_1em12
  have ha0 : 0 < a := lt_of_lt_of_le (by norm_num) ha1
  have h := binsLoop_count 774 a [] [] m (le_trans (by norm_num) ha1)
    (fun k hk => by
      have h1 : (11000001 / 10000000 : ℚ) ^ k ≤ (11000001 / 10000000) ^ 773 :=
        pow_le_pow_right₀ (by norm_num) (by omega)
      have h2 := bins_last_bound
      have h3 : a * (11000001 / 10000000 : ℚ) ^ k ≤ a * (11000001 / 10000000) ^ 773 :=
        mul_le_mul_of_nonneg_left h1 (le_of_lt ha0)
      have h4 : a * (11000001 / 10000000 : ℚ) ^ 773
          ≤ (1 / 10 ^ 12 : ℚ) * (1 + 1 / 2 ^ 53) * (11000001 / 10000000) ^ 773 :=
        mul_le_mul_of_nonneg_right ha2 (by positivity)
      linarith)
    (by
      have h2 := bins_exit_bound
      have h4 : (1 / 10 ^ 12 : ℚ) * (1 - 1 / 2 ^ 53) * (10999999 / 10000000) ^ 774
          ≤ a * (10999999 / 10000000 : ℚ) ^ 774 :=
        mul_le_mul_of_nonneg_right ha1 (by positivity)
      linarith)
  rw [ha]
  simpa using h

/-- The loop of `GenerateDefaultBins` terminates by its own test: any bound of at least 774
iterations gives the same table. -/
theorem GenerateDefaultBinsFuel_stable (fuel : Nat) (h : 774 ≤ fuel) :
    GenerateDefaultBinsFuel fuel = GenerateDefaultBins := by
  have e1 : fuel = 774 + (fuel - 774) := by omega
  have e2 : (1000 : Nat) = 774 + 226 := by norm_num
  unfold GenerateDefaultBins GenerateDefaultBinsFuel
  rw [e1, e2, (binsLoop_run (fuel - 774)).1, (binsLoop_run 226).1]

theorem bins_top_bound :
    (9e19 : ℚ) ≤ (1 / 10 ^ 12 : ℚ) * (1 - 1 / 2 ^ 53) * (10999999 / 10000000) ^ 773 := by
  norm_num

/-- The table under rounding: the 774 positive boundaries are finite, strictly ascending, start
with the `double` of `1E-12`, stay below `1e20` and reach `9e19`; the table is their opposites
in reverse order, zero, and the boundaries themselves. -/
theorem DefaultBins_shape :
    ∃ P : List ℚ,
      DefaultBins = (P.map (fun x => F64.fin (-x))).reverse ++ [F64.fin 0] ++ P.map F64.fin ∧
      P.Pairwise (· < ·) ∧ (∀ x ∈ P, 1 / 10 ^ 13 ≤ x ∧ x < 1e20) ∧ P.length = 774 ∧
      (∃ a, F64.lit 1e-12 = F64.fin a ∧ a ∈ P) ∧ (∃ x ∈ P, (9e19 : ℚ) ≤ x) := by
  obtain ⟨a, ha, ha1, ha2⟩ := lit_1em12
  have ha13 : (1 / 10 ^ 13 : ℚ) ≤ a := le_trans (by norm_num) ha1
  obtain ⟨P, hP, hs, hb, hg, hh⟩ := binsLoop_spec 1000 a ha13 [] []
  have hc := (binsLoop_run 226).2
  have hr := (binsLoop_run 226).1
  have e : (774 + 226 : Nat) = 1000 := by norm_num
  rw [e] at hr
  rw [← hr, ha, hP] at hc
  simp only [List.nil_append, List.length_map] at hc
  have ha20 : a < 1e20 := lt_of_le_of_lt ha2 (by norm_num)
  have hhead := hh (by norm_num) ha20
  refine ⟨P, ?_, hs, fun x hx => ⟨le_trans ha13 (hb x hx).1, (hb x hx).2⟩, hc,
    ⟨a, ha, List.mem_of_mem_head? hhead⟩, ?_⟩
  · simp only [DefaultBins, GenerateDefaultBins, GenerateDefaultBinsFuel, ha, hP,
      List.nil_append]
    rfl
  · refine ⟨P.getD 773 0, ?_, ?_⟩
    · rw [List.getD_eq_getElem _ _ (by omega)]
      exact List.getElem_mem _
    · have h1 := hg 773 (by omega)
      have h2 : (1 / 10 ^ 12 : ℚ) * (1 - 1 / 2 ^ 53) * (10999999 / 10000000) ^ 773
          ≤ a * (10999999 / 10000000 : ℚ) ^ 773 :=
        mul_le_mul_of_nonneg_right ha1 (by positivity)
      linarith [bins_top_bound]

/-- The table is a list of finite `double`s, strictly ascending as numbers. -/
theorem DefaultBins_rat :
    ∃ Q : List ℚ, DefaultBins = Q.map F64.fin ∧ Q.Pairwise (· < ·) ∧ Q.length = 1549 ∧
      (∀ x ∈ Q, x < 1e20) ∧ (0 : ℚ) ∈ Q ∧ (∃ a, F64.lit 1e-12 = F64.fin a ∧ a ∈ Q) ∧
      (∃ x ∈ Q, (9e19 : ℚ) ≤ x) := by
  obtain ⟨P, hP, hs, hb, hlen, ⟨a, ha, haP⟩, ⟨t, htP, ht⟩⟩ := DefaultBins_shape
  have hpos : ∀ x ∈ P, (0 : ℚ) < x := fun x hx =>
    lt_of_lt_of_le (by norm_num) (hb x hx).1
  refine ⟨(P.map (fun x => -x)).reverse ++ [0] ++ P, ?_, ?_, ?_, ?_, by simp,
    ⟨a, ha, by simp [haP]⟩, ⟨t, by simp [htP], ht⟩⟩
  · rw [hP]
    simp [List.map_reverse]
  · rw [List.append_assoc, List.pairwise_append]
    refine ⟨?_, ?_, ?_⟩
    · rw [List.pairwise_reverse, List.pairwise_map]
      exact hs.imp (fun h => by linarith)
    · rw [List.singleton_append, List.pairwise_cons]
      exact ⟨fun x hx => hpos x hx, hs⟩
    · intro x hx y hy
      rw [List.mem_reverse, List.mem_map] at hx
      obtain ⟨z, hz, rfl⟩ := hx
      have hz0 := hpos z hz
      rcases List.mem_cons.1 hy with rfl | hy
      · linarith
      · linarith [hpos y hy]
  · simp [hlen]
  · intro x hx
    simp only [List.mem_append, List.mem_reverse, List.mem_map, List.mem_singleton] at hx
    rcases hx with (⟨z, hz, rfl⟩ | rfl) | hx
    · have := hpos z hz
      have h3 : (0 : ℚ) < 1e20 := by norm_num
      linarith
    · norm_num
    · exact (hb x hx).2

theorem DefaultBins_sorted : DefaultBins.Pairwise (· < ·) := by
  obtain ⟨Q, hQ, hs, -⟩ := DefaultBins_rat
  rw [hQ, List.pairwise_map]
  exact hs.imp (fun h => (f64_fin_lt_fin _ _).2 h)

/-- The table has 774 positive boundaries, their 774 opposites and zero. -/
theorem DefaultBins_length : DefaultBins.length = 1549 := by
  obtain ⟨Q, hQ, -, hl, -⟩ := DefaultBins_rat
  rw [hQ, List.length_map, hl]

theorem DefaultBins_finite (b : F64) (hb : b ∈ DefaultBins) : ∃ q : ℚ, b = F64.fin q := by
  obtain ⟨Q, hQ, -⟩ := DefaultBins_rat
  rw [hQ, List.mem_map] at hb
  obtain ⟨q, -, rfl⟩ := hb
  exact ⟨q, rfl⟩

theorem DefaultBins_ne_nan (b : F64) (hb : b ∈ DefaultBins) : b ≠ F64.nan := by
  obtain ⟨q, rfl⟩ := DefaultBins_finite b hb
  exact fun h => F64.noConfusion h

theorem DefaultBins_lt (b : F64) (hb : b ∈ DefaultBins) : b < F64.fin 1e20 := by
  obtain ⟨Q, hQ, -, -, hlt, -⟩ := DefaultBins_rat
  rw [hQ, List.mem_map] at hb
  obtain ⟨q, hq, rfl⟩ := hb
  exact (f64_fin_lt_fin _ _).2 (hlt q hq)

theorem zero_mem_DefaultBins : F64.fin 0 ∈ DefaultBins := by
  obtain ⟨Q, hQ, -, -, -, h0, -⟩ := DefaultBins_rat
  rw [hQ]
  exact List.mem_map_of_mem _ h0

theorem tiny_mem_DefaultBins : F64.lit 1e-12 ∈ DefaultBins := by
  obtain ⟨Q, hQ, -, -, -, -, ⟨a, ha, haQ⟩, -⟩ := DefaultBins_rat
  rw [hQ, ha]
  exact List.mem_map_of_mem _ haQ

theorem DefaultBins_ne_nil : DefaultBins ≠ [] := by
  intro h
  have := zero_mem_DefaultBins
  rw [h] at this
  exact absurd this (List.not_mem_nil _)

/-! ## Largest boundary: lemmas -/

theorem foldl_max_spec (l : List ℚ) (a : ℚ) :
    a ≤ l.foldl max a ∧ (∀ b ∈ l, b ≤ l.foldl max a) ∧ (l.foldl max a = a ∨ l.foldl max a ∈ l) := by
  induction l generalizing a with
  | nil => simp
  | cons x xs ih =>
    obtain ⟨h1, h2, h3⟩ := ih (max a x)
    rw [List.foldl_cons]
    refine ⟨le_trans (le_max_left a x) h1, ?_, ?_⟩
    · intro b hb
      rcases List.mem_cons.1 hb with rfl | hb
      · exact le_trans (le_max_right a b) h1
      · exact h2 b hb
    · rcases h3 with e | e
      · rcases max_choice a x with e' | e'
        · exact Or.inl (e.trans e')
        · exact Or.inr (by rw [e, e']; exact List.mem_cons_self _ _)
      · exact Or.inr (List.mem_cons_of_mem _ e)

theorem foldl_pick_fin (l : List ℚ) (a : ℚ) :
    (l.map F64.fin).foldl (fun m b => if m < b then b else m) (F64.fin a)
      = F64.fin (l.foldl max a) := by
  induction l generalizing a with
  | nil => rfl
  | cons x xs ih =>
    rw [List.map_cons, List.foldl_cons, List.foldl_cons]
    by_cases h : a < x
    · rw [if_pos ((f64_fin_lt_fin _ _).2 h), max_eq_right (le_of_lt h)]
      exact ih x
    · rw [if_neg (fun hh => h ((f64_fin_lt_fin _ _).1 hh)), max_eq_left (not_lt.1 h)]
      exact ih a

/-- The largest boundary of the table is one of its entries, finite, at least `9e19`, below
`1e20` and not below any entry. -/
theorem largestBoundary_spec :
    ∃ M : ℚ, largestBoundary DefaultBins = F64.fin M ∧ F64.fin M ∈ DefaultBins ∧
      (∀ b ∈ DefaultBins, b ≤ F64.fin M) ∧ 9e19 ≤ M ∧ M < 1e20 := by
  obtain ⟨Q, hQ, -, hl, hlt, -, -, ⟨t, htQ, ht⟩⟩ := DefaultBins_rat
  obtain ⟨x, xs, rfl⟩ := List.exists_cons_of_ne_nil (l := Q) (by
    intro h
    rw [h] at hl
    simp at hl)
  obtain ⟨h1, h2, h3⟩ := foldl_max_spec (x :: xs) x
  have hmem : (x :: xs).foldl max x ∈ x :: xs := by
    rcases h3 with e | e
    · rw [e]
      exact List.mem_cons_self _ _
    · exact e
  refine ⟨(x :: xs).foldl max x, ?_, ?_, ?_, le_trans ht (h2 t htQ), hlt _ hmem⟩
  · unfold largestBoundary
    rw [hQ, List.map_cons, List.headD_cons, ← List.map_cons]
    exact foldl_pick_fin (x :: xs) x
  · rw [hQ]
    exact List.mem_map_of_mem _ hmem
  · intro b hb
    rw [hQ, List.mem_map] at hb
    obtain ⟨q, hq, rfl⟩ := hb
    exact (f64_fin_le_fin _ _).2 (h2 q hq)

theorem le_largestBoundary_iff (v : F64) :
    v ≤ largestBoundary DefaultBins ↔ ∃ b ∈ DefaultBins, v ≤ b := by
  obtain ⟨M, hM, hmem, hall, -⟩ := largestBoundary_spec
  rw [hM]
  constructor
  · intro h
    exact ⟨_, hmem, h⟩
  · rintro ⟨b, hb, hvb⟩
    exact f64_le_trans hvb (hall b hb)

theorem not_largestBoundary_lt_iff (v : F64) :
    ¬ largestBoundary DefaultBins < v ↔ v = F64.nan ∨ v ≤ largestBoundary DefaultBins := by
  obtain ⟨M, hM, -⟩ := largestBoundary_spec
  rw [hM]
  by_cases hv : v = F64.nan
  · subst hv
    simp [f64_not_lt_nan]
  · rw [f64_not_lt (fun h => F64.noConfusion h) hv]
    simp [hv]

theorem in_range_of_le_largest (vs : List F64)
    (h : ∀ v ∈ vs, v ≤ largestBoundary DefaultBins) :
    ∀ v ∈ vs, ∃ b ∈ DefaultBins, v ≤ b :=
  fun v hv => (le_largestBoundary_iff v).1 (h v hv)

theorem largestBoundary_lt : largestBoundary DefaultBins < F64.fin 1e20 := by
  obtain ⟨M, hM, -, -, -, hlt⟩ := largestBoundary_spec
  rw [hM]
  exact (f64_fin_lt_fin _ _).2 hlt

theorem zero_le_largestBoundary : F64.fin 0 ≤ largestBoundary DefaultBins :=
  (le_largestBoundary_iff _).2 ⟨_, zero_mem_DefaultBins, f64_le_refl (fun h => F64.noConfusion h)⟩

theorem tiny_le_largestBoundary : F64.lit 1e-12 ≤ largestBoundary DefaultBins :=
  (le_largestBoundary_iff _).2 ⟨_, tiny_mem_DefaultBins,
    f64_le_refl (DefaultBins_ne_nan _ tiny_mem_DefaultBins)⟩

theorem fin_le_largestBoundary (q : ℚ) (h : q ≤ 9e19) : F64.fin q ≤ largestBoundary DefaultBins := by
  obtain ⟨M, hM, -, -, hge, -⟩ := largestBoundary_spec
  rw [hM]
  exact (f64_fin_le_fin _ _).2 (le_trans h hge)

/-! ## Binary search: lemmas -/

theorem sorted_getD_lt (a : List F64) (hs : a.Pairwise (· < ·)) (i j : Nat) (hij : i < j)
    (hj : j < a.length) : a.getD i 0 < a.getD j 0 := by
  rw [List.getD_eq_getElem _ _ (by omega), List.getD_eq_getElem _ _ hj]
  exact List.pairwise_iff_getElem.1 hs i j (by omega) hj hij

theorem lowerBoundLoop_spec (a : List F64) (val : F64) (hs : a.Pairwise (· < ·)) (fuel : Nat) :
    ∀ first len : Nat, len ≤ fuel → first + len ≤ a.length →
      (∀ j, j < first → a.getD j 0 < val) →
      (∀ j, first + len ≤ j → j < a.length → ¬ a.getD j 0 < val) →
      lowerBoundLoop a val fuel first len ≤ a.length ∧
      (∀ j, j < lowerBoundLoop a val fuel first len → a.getD j 0 < val) ∧
      (∀ j, lowerBoundLoop a val fuel first len ≤ j → j < a.length → ¬ a.getD j 0 < val) := by
  induction fuel with
  | zero =>
    intro first len hl hb hlo hhi
    have : len = 0 := by omega
    subst this
    exact ⟨by simpa [lowerBoundLoop] using hb, by simpa [lowerBoundLoop] using hlo,
      by simpa [lowerBoundLoop] using hhi⟩
  | succ fuel ih =>
    intro first len hl hb hlo hhi
    by_cases h0 : 0 < len
    · by_cases hm : a.getD (first + len / 2) 0 < val
      · have e : lowerBoundLoop a val (fuel + 1) first len
            = lowerBoundLoop a val fuel (first + len / 2 + 1) (len - len / 2 - 1) := by
          simp only [lowerBoundLoop, h0, if_true, hm]
        rw [e]
        apply ih
        · omega
        · omega
        · intro j hj
          rcases Nat.eq_or_lt_of_le (Nat.le_of_lt_succ hj) with h | h
          · rw [h]
            exact hm
          · exact f64_lt_trans (sorted_getD_lt a hs j _ h (by omega)) hm
        · intro j hj1 hj2
          exact hhi j (by omega) hj2
      · have e : lowerBoundLoop a val (fuel + 1) first len
            = lowerBoundLoop a val fuel first (len / 2) := by
          simp only [lowerBoundLoop, h0, if_true, hm, if_false]
        rw [e]
        apply ih
        · omega
        · omega
        · exact hlo
        · intro j hj1 hj2
          rcases Nat.eq_or_lt_of_le hj1 with h | h
          · rw [← h]
            exact hm
          · exact fun hh => hm (f64_lt_trans (sorted_getD_lt a hs _ j h hj2) hh)
    · have e : lowerBoundLoop a val (fuel + 1) first len = first := by
        simp only [lowerBoundLoop, h0, if_false]
      have : len = 0 := by omega
      subst this
      rw [e]
      exact ⟨by simpa using hb, hlo, by simpa using hhi⟩

/-- The search returns the index that splits a strictly ascending table into the entries below
`val` and the entries not below it. -/
theorem lower_bound_spec (a : List F64) (val : F64) (hs : a.Pairwise (· < ·)) :
    lower_bound a val ≤ a.length ∧
    (∀ j, j < lower_bound a val → a.getD j 0 < val) ∧
    (∀ j, lower_bound a val ≤ j → j < a.length → ¬ a.getD j 0 < val) :=
  lowerBoundLoop_spec a val hs a.length 0 a.length (le_refl _) (by omega)
    (fun j hj => by omega) (fun j h1 h2 => by omega)

theorem lower_bound_lt_length (a : List F64) (val : F64) (hs : a.Pairwise (· < ·))
    (hin : ∃ b ∈ a, ¬ b < val) : lower_bound a val < a.length := by
  obtain ⟨hle, hlo, -⟩ := lower_bound_spec a val hs
  rcases Nat.eq_or_lt_of_le hle with h | h
  · obtain ⟨b, hb, hvb⟩ := hin
    obtain ⟨n, hn, rfl⟩ := List.getElem_of_mem hb
    have := hlo n (by omega)
    rw [List.getD_eq_getElem _ _ hn] at this
    exact absurd this hvb
  · exact h

theorem lower_bound_smallest (a : List F64) (val : F64) (hs : a.Pairwise (· < ·))
    (hnan : ∀ b ∈ a, b ≠ F64.nan) (hin : ∃ b ∈ a, val ≤ b) :
    IsSmallestBoundaryGE a val (a.getD (lower_bound a val) 0) := by
  obtain ⟨b0, hb0, hvb0⟩ := hin
  have hv : val ≠ F64.nan := (f64_ne_nan_of_le hvb0).1
  have hlt := lower_bound_lt_length a val hs ⟨b0, hb0, fun h => f64_not_le_of_lt h hvb0⟩
  obtain ⟨-, hlo, hhi⟩ := lower_bound_spec a val hs
  have hmem : a.getD (lower_bound a val) 0 ∈ a := by
    rw [List.getD_eq_getElem _ _ hlt]
    exact List.getElem_mem _
  refine ⟨hmem, (f64_not_lt (hnan _ hmem) hv).1 (hhi _ (le_refl _) hlt), ?_⟩
  intro b' hb' hvb'
  obtain ⟨n, hn, rfl⟩ := List.getElem_of_mem hb'
  by_cases h : n < lower_bound a val
  · have := hlo n h
    rw [List.getD_eq_getElem _ _ hn] at this
    exact absurd hvb' (f64_not_le_of_lt this)
  · rcases Nat.eq_or_lt_of_le (Nat.le_of_not_lt h) with h1 | h1
    · rw [List.getD_eq_getElem _ _ hlt]
      simp only [h1]
      exact f64_le_refl (hnan _ (List.getElem_mem _))
    · have := sorted_getD_lt a hs (lower_bound a val) n h1 hn
      rw [List.getD_eq_getElem _ _ hn] at this
      exact f64_le_of_lt this

theorem smallest_boundary_unique (a : List F64) (v b b' : F64)
    (h : IsSmallestBoundaryGE a v b) (h' : IsSmallestBoundaryGE a v b') : b = b' :=
  f64_le_antisymm (h.2.2 b' h'.1 h'.2.1) (h'.2.2 b h.1 h.2.1)

theorem lower_bound_eq_length (a : List F64) (val : F64) (hs : a.Pairwise (· < ·))
    (hall : ∀ b ∈ a, b < val) : lower_bound a val = a.length := by
  obtain ⟨hle, -, hhi⟩ := lower_bound_spec a val hs
  rcases Nat.eq_or_lt_of_le hle with h | h
  · exact h
  · have h1 := hhi _ (le_refl _) h
    rw [List.getD_eq_getElem _ _ h] at h1
    exact absurd (hall _ (List.getElem_mem _)) h1

/-- No entry of a table compares below NaN, so the search for NaN never moves `first`. -/
theorem lowerBoundLoop_nan (a : List F64) (fuel first len : Nat) :
    lowerBoundLoop a F64.nan fuel first len = first := by
  induction fuel generalizing len with
  | zero => rfl
  | succ fuel ih =>
    by_cases h0 : 0 < len
    · simp only [lowerBoundLoop, h0, if_true, f64_not_lt_nan, if_false]
      exact ih _
    · simp only [lowerBoundLoop, h0, if_false]

theorem lower_bound_nan (a : List F64) : lower_bound a F64.nan = 0 :=
  lowerBoundLoop_nan a a.length 0 a.length

/-! ## Histogram loops: lemmas -/

theorem incrAt_length (c : List Nat) (k : Nat) : (incrAt c k).length = c.length := by
  induction c generalizing k with
  | nil => rfl
  | cons x xs ih => cases k <;> simp [incrAt, ih]

theorem incrAt_getD (c : List Nat) (k i : Nat) (hk : k < c.length) :
    (incrAt c k).getD i 0 = c.getD i 0 + if k = i then 1 else 0 := by
  induction c generalizing k i with
  | nil => simp at hk
  | cons x xs ih =>
    cases k with
    | zero => cases i <;> simp [incrAt]
    | succ k =>
      cases i with
      | zero => simp [incrAt]
      | succ i =>
        have := ih k i (by simpa using hk)
        simpa [incrAt] using this

theorem incrAt_sum (c : List Nat) (k : Nat) (hk : k < c.length) :
    (incrAt c k).sum = c.sum + 1 := by
  induction c generalizing k with
  | nil => simp at hk
  | cons x xs ih =>
    cases k with
    | zero => simp [incrAt]; omega
    | succ k =>
      have := ih k (by simpa using hk)
      simp [incrAt, this]; omega

theorem histFold_counts (bl : List F64) (vs : List F64) (s : HistLoop)
    (hlen : s.counts.length = bl.length) (hin : ∀ v ∈ vs, lower_bound bl v < bl.length) :
    (vs.foldl (histStep bl) s).counts.length = bl.length ∧
    (vs.foldl (histStep bl) s).fault = s.fault ∧
    (∀ i, (vs.foldl (histStep bl) s).counts.getD i 0
        = s.counts.getD i 0 + vs.countP (fun v => decide (lower_bound bl v = i))) ∧
    (vs.foldl (histStep bl) s).counts.sum = s.counts.sum + vs.length := by
  induction vs generalizing s with
  | nil => simp [hlen]
  | cons v vs ih =>
    have hv : lower_bound bl v < s.counts.length := by
      rw [hlen]; exact hin v (List.mem_cons_self _ _)
    have e : histStep bl s v =
        { counts := incrAt s.counts (lower_bound bl v)
          fault := s.fault
          sum := s.sum + v
          sum_square := s.sum_square + v * v
          max := if v > s.max then v else s.max
          min := if v > s.max then s.min else if v < s.min then v else s.min } := by
      simp [histStep, hv]
    obtain ⟨h1, h2, h3, h4⟩ := ih (histStep bl s v) (by rw [e]; simp [incrAt_length, hlen])
      (fun x hx => hin x (List.mem_cons_of_mem _ hx))
    rw [List.foldl_cons]
    refine ⟨h1, ?_, ?_, ?_⟩
    · rw [h2, e]
    · intro i
      rw [h3 i, e]
      simp only [incrAt_getD _ _ i hv, List.countP_cons, decide_eq_true_eq]
      omega
    · rw [h4, e]
      simp only [incrAt_sum _ _ hv, List.length_cons]
      omega

theorem histFold_stats (bl : List F64) (vs : List F64) (s : HistLoop) :
    (vs.foldl (histStep bl) s).sum = vs.foldl (fun acc v => acc + v) s.sum ∧
    (vs.foldl (histStep bl) s).sum_square = vs.foldl (fun acc v => acc + v * v) s.sum_square := by
  induction vs generalizing s with
  | nil => exact ⟨rfl, rfl⟩
  | cons v vs ih =>
    obtain ⟨h1, h2⟩ := ih (histStep bl s v)
    rw [List.foldl_cons, List.foldl_cons, List.foldl_cons, h1, h2]
    exact ⟨rfl, rfl⟩

theorem histFold_minmax (bl : List F64) (vs : List F64) (s : HistLoop) (h : s.min ≤ s.max)
    (hnan : ∀ v ∈ vs, v ≠ F64.nan) :
    (vs.foldl (histStep bl) s).min ≤ s.min ∧
    (∀ v ∈ vs, (vs.foldl (histStep bl) s).min ≤ v) ∧
    ((vs.foldl (histStep bl) s).min = s.min ∨ (vs.foldl (histStep bl) s).min ∈ vs) ∧
    s.max ≤ (vs.foldl (histStep bl) s).max ∧
    (∀ v ∈ vs, v ≤ (vs.foldl (histStep bl) s).max) ∧
    ((vs.foldl (histStep bl) s).max = s.max ∨ (vs.foldl (histStep bl) s).max ∈ vs) := by
  induction vs generalizing s with
  | nil =>
    obtain ⟨k1, k2⟩ := f64_ne_nan_of_le h
    exact ⟨f64_le_refl k1, by simp, Or.inl rfl, f64_le_refl k2, by simp, Or.inl rfl⟩
  | cons v vs ih =>
    obtain ⟨k1, k2⟩ := f64_ne_nan_of_le h
    have kv : v ≠ F64.nan := hnan v (List.mem_cons_self _ _)
    have hmin : (histStep bl s v).min = if v > s.max then s.min else if v < s.min then v
        else s.min := rfl
    have hmax : (histStep bl s v).max = if v > s.max then v else s.max := rfl
    have hstep : (histStep bl s v).min ≤ (histStep bl s v).max ∧
        (histStep bl s v).min ≤ s.min ∧ (histStep bl s v).min ≤ v ∧
        ((histStep bl s v).min = s.min ∨ (histStep bl s v).min = v) ∧
        s.max ≤ (histStep bl s v).max ∧ v ≤ (histStep bl s v).max ∧
        ((histStep bl s v).max = s.max ∨ (histStep bl s v).max = v) := by
      rw [hmin, hmax]
      by_cases h1 : v > s.max
      · rw [if_pos h1, if_pos h1]
        exact ⟨f64_le_of_lt (f64_lt_of_le_of_lt h h1), f64_le_refl k1,
          f64_le_of_lt (f64_lt_of_le_of_lt h h1), Or.inl rfl, f64_le_of_lt h1, f64_le_refl kv,
          Or.inr rfl⟩
      · rw [if_neg h1, if_neg h1]
        have hle : v ≤ s.max := (f64_not_lt k2 kv).1 h1
        by_cases h2 : v < s.min
        · rw [if_pos h2]
          exact ⟨hle, f64_le_of_lt h2, f64_le_refl kv, Or.inr rfl, f64_le_refl k2, hle,
            Or.inl rfl⟩
        · rw [if_neg h2]
          exact ⟨h, f64_le_refl k1, (f64_not_lt kv k1).1 h2, Or.inl rfl, f64_le_refl k2, hle,
            Or.inl rfl⟩
    obtain ⟨s1, s2, s3, s4, s5, s6, s7⟩ := hstep
    obtain ⟨i1, i2, i3, i4, i5, i6⟩ := ih (histStep bl s v) s1
      (fun x hx => hnan x (List.mem_cons_of_mem _ hx))
    rw [List.foldl_cons]
    refine ⟨f64_le_trans i1 s2, ?_, ?_, f64_le_trans s5 i4, ?_, ?_⟩
    · intro x hx
      rcases List.mem_cons.1 hx with rfl | hx
      · exact f64_le_trans i1 s3
      · exact i2 x hx
    · rcases i3 with e | e
      · rcases s4 with e' | e'
        · exact Or.inl (e.trans e')
        · exact Or.inr (by rw [e, e']; exact List.mem_cons_self _ _)
      · exact Or.inr (List.mem_cons_of_mem _ e)
    · intro x hx
      rcases List.mem_cons.1 hx with rfl | hx
      · exact f64_le_trans s6 i4
      · exact i5 x hx
    · rcases i6 with e | e
      · rcases s7 with e' | e'
        · exact Or.inl (e.trans e')
        · exact Or.inr (by rw [e, e']; exact List.mem_cons_self _ _)
      · exact Or.inr (List.mem_cons_of_mem _ e)

/-- On an input without NaN the single pass ends with the least and the greatest value. -/
theorem histLoop_minmax (bl : List F64) (vs : List F64) (hne : vs ≠ [])
    (hnan : ∀ v ∈ vs, v ≠ F64.nan) :
    ((histLoop bl vs).min ∈ vs ∧ ∀ v ∈ vs, (histLoop bl vs).min ≤ v) ∧
    ((histLoop bl vs).max ∈ vs ∧ ∀ v ∈ vs, v ≤ (histLoop bl vs).max) := by
  obtain ⟨x, xs, rfl⟩ := List.exists_cons_of_ne_nil hne
  obtain ⟨-, i2, i3, -, i5, i6⟩ := histFold_minmax bl (x :: xs)
    { counts := List.replicate bl.length 0, min := x, max := x, sum := 0, sum_square := 0,
      fault := false } (f64_le_refl (hnan x (List.mem_cons_self _ _))) hnan
  refine ⟨⟨?_, i2⟩, ⟨?_, i5⟩⟩
  · rcases i3 with e | e
    · unfold histLoop; rw [List.headD_cons, e]; exact List.mem_cons_self _ _
    · exact e
  · rcases i6 with e | e
    · unfold histLoop; rw [List.headD_cons, e]; exact List.mem_cons_self _ _
    · exact e

theorem histLoop_stats (bl : List F64) (vs : List F64) :
    (histLoop bl vs).sum = sumInOrder vs ∧
    (histLoop bl vs).sum_square = sumSquaresInOrder vs :=
  histFold_stats bl vs
    { counts := List.replicate bl.length 0, min := vs.headD 0, max := vs.headD 0, sum := 0,
      sum_square := 0, fault := false }

/-- Once the first value is NaN, `min` and `max` stay NaN: no comparison with NaN holds. -/
theorem histFold_nan (bl : List F64) (vs : List F64) (s : HistLoop) (h1 : s.min = F64.nan)
    (h2 : s.max = F64.nan) :
    (vs.foldl (histStep bl) s).min = F64.nan ∧ (vs.foldl (histStep bl) s).max = F64.nan := by
  induction vs generalizing s with
  | nil => exact ⟨h1, h2⟩
  | cons v vs ih =>
    rw [List.foldl_cons]
    apply ih
    · show (if v > s.max then s.min else if v < s.min then v else s.min) = F64.nan
      rw [h1, h2, if_neg (f64_not_nan_lt v), if_neg (f64_not_lt_nan v)]
    · show (if v > s.max then v else s.max) = F64.nan
      rw [h2, if_neg (f64_not_nan_lt v)]

/-- Sums of integers stay exact while they fit 53 bits. -/
theorem foldl_add_int (zs : List Int) (A : Int)
    (h : A.natAbs + (zs.map Int.natAbs).sum ≤ 2 ^ 53) :
    (zs.map (fun z : Int => F64.fin (z : ℚ))).foldl (fun acc v => acc + v) (F64.fin (A : ℚ))
      = F64.fin ((A + zs.sum : Int) : ℚ) := by
  induction zs generalizing A with
  | nil => simp
  | cons z zs ih =>
    rw [List.map_cons, List.sum_cons] at h
    rw [List.map_cons, List.foldl_cons, f64_fin_add]
    have e : (A : ℚ) + (z : ℚ) = ((A + z : Int) : ℚ) := by push_cast; rfl
    have hb : |A + z| ≤ 2 ^ 53 := by
      have := Int.natAbs_add_le A z
      rw [Int.abs_eq_natAbs]
      have h2 : (A + z).natAbs ≤ 2 ^ 53 := by omega
      exact_mod_cast h2
    rw [e, f64_round_int _ hb, ih (A + z) (by
      have := Int.natAbs_add_le A z
      omega)]
    rw [List.sum_cons, add_assoc]

/-- Sums of squares of integers stay exact while they fit 53 bits. -/
theorem foldl_add_sq_int (zs : List Int) (A : Int)
    (h : A.natAbs + (zs.map (fun z : Int => z.natAbs * z.natAbs)).sum ≤ 2 ^ 53) :
    (zs.map (fun z : Int => F64.fin (z : ℚ))).foldl (fun acc v => acc + v * v)
        (F64.fin (A : ℚ))
      = F64.fin ((A + (zs.map (fun z : Int => z * z)).sum : Int) : ℚ) := by
  induction zs generalizing A with
  | nil => simp
  | cons z zs ih =>
    rw [List.map_cons, List.sum_cons] at h
    rw [List.map_cons, List.foldl_cons, f64_fin_mul]
    have e1 : (z : ℚ) * (z : ℚ) = ((z * z : Int) : ℚ) := by push_cast; rfl
    have hzz : (z * z).natAbs = z.natAbs * z.natAbs := Int.natAbs_mul z z
    have hb1 : |z * z| ≤ 2 ^ 53 := by
      rw [Int.abs_eq_natAbs]
      have h2 : (z * z).natAbs ≤ 2 ^ 53 := by omega
      exact_mod_cast h2
    rw [e1, f64_round_int _ hb1, f64_fin_add]
    have e : (A : ℚ) + ((z * z : Int) : ℚ) = ((A + z * z : Int) : ℚ) := by push_cast; rfl
    have hb : |A + z * z| ≤ 2 ^ 53 := by
      have := Int.natAbs_add_le A (z * z)
      rw [Int.abs_eq_natAbs]
      have h2 : (A + z * z).natAbs ≤ 2 ^ 53 := by omega
      exact_mod_cast h2
    rw [e, f64_round_int _ hb, ih (A + z * z) (by
      have := Int.natAbs_add_le A (z * z)
      omega)]
    rw [List.map_cons, List.sum_cons, add_assoc]

theorem histLoop_counts (bl : List F64) (vs : List F64)
    (hin : ∀ v ∈ vs, lower_bound bl v < bl.length) :
    (histLoop bl vs).counts.length = bl.length ∧
    (histLoop bl vs).fault = false ∧
    (∀ i, (histLoop bl vs).counts.getD i 0
        = vs.countP (fun v => decide (lower_bound bl v = i))) ∧
    (histLoop bl vs).counts.sum = vs.length := by
  obtain ⟨h1, h2, h3, h4⟩ := histFold_counts bl vs
    { counts := List.replicate bl.length 0, min := vs.headD 0, max := vs.headD 0, sum := 0,
      sum_square := 0, fault := false } (by simp) hin
  unfold histLoop
  refine ⟨h1, h2, ?_, ?_⟩
  · intro i
    rw [h3 i]
    by_cases hi : i < bl.length
    · simp [List.getD_eq_getElem _ _ (show i < (List.replicate bl.length 0).length by simpa using hi)]
    · simp [List.getD_eq_default _ _ (show (List.replicate bl.length 0).length ≤ i by simpa using hi)]
  · rw [h4]; simp

theorem emitBuckets_sum (bl : List F64) (counts : List Nat) (h : counts.length ≤ bl.length) :
    ((emitBuckets bl counts).map (fun lc => lc.2)).sum = counts.sum := by
  induction counts generalizing bl with
  | nil => simp [emitBuckets]
  | cons c cs ih =>
    cases bl with
    | nil => simp at h
    | cons b bs =>
      have := ih bs (by simpa using h)
      unfold emitBuckets at this ⊢
      by_cases hc : 0 < c
      · simp [List.filter_cons, hc, this]
      · have : c = 0 := by omega
        subst this
        simpa [List.filter_cons] using this

theorem mem_zip_iff_getD (bl : List F64) (counts : List Nat) (b : F64) (c : Nat) :
    (b, c) ∈ bl.zip counts ↔
      ∃ i, i < bl.length ∧ i < counts.length ∧ bl.getD i 0 = b ∧ counts.getD i 0 = c := by
  induction bl generalizing counts with
  | nil => simp
  | cons x xs ih =>
    cases counts with
    | nil => simp
    | cons y ys =>
      rw [List.zip_cons_cons, List.mem_cons, ih ys]
      constructor
      · rintro (h | ⟨i, h1, h2, h3, h4⟩)
        · obtain ⟨rfl, rfl⟩ := Prod.mk.inj h
          exact ⟨0, by simp, by simp, rfl, rfl⟩
        · exact ⟨i + 1, by simpa using h1, by simpa using h2, h3, h4⟩
      · rintro ⟨i, h1, h2, h3, h4⟩
        cases i with
        | zero =>
          left
          rw [List.getD_cons_zero] at h3 h4
          rw [h3, h4]
        | succ i =>
          right
          exact ⟨i, by simpa using h1, by simpa using h2, h3, h4⟩

theorem mem_emitBuckets_iff (bl : List F64) (counts : List Nat) (b : F64) (c : Nat) :
    (b, c) ∈ emitBuckets bl counts ↔
      0 < c ∧ ∃ i, i < bl.length ∧ i < counts.length ∧ bl.getD i 0 = b ∧ counts.getD i 0 = c := by
  unfold emitBuckets
  rw [List.mem_filter, mem_zip_iff_getD]
  simp only [decide_eq_true_eq]
  exact And.comm

theorem map_fst_zip_sublist (bl : List F64) (counts : List Nat) :
    ((bl.zip counts).map (fun lc => lc.1)).Sublist bl := by
  induction bl generalizing counts with
  | nil => simp
  | cons x xs ih =>
    cases counts with
    | nil => simp
    | cons y ys =>
      simp only [List.zip_cons_cons, List.map_cons]
      exact List.Sublist.cons₂ _ (ih ys)

theorem emitBuckets_sorted (bl : List F64) (counts : List Nat) (hs : bl.Pairwise (· < ·)) :
    ((emitBuckets bl counts).map (fun lc => lc.1)).Pairwise (· < ·) := by
  have h1 : ((emitBuckets bl counts).map (fun lc => lc.1)).Sublist
      ((bl.zip counts).map (fun lc => lc.1)) := List.Sublist.map _ (List.filter_sublist _)
  exact List.Pairwise.sublist (h1.trans (map_fst_zip_sublist bl counts)) hs

theorem histogramOver_ok (bl : List F64) (name : String) (vs : List F64)
    (hf : (histLoop bl vs).fault = false) :
    histogramOver bl name vs = .ok { value := [{ tag := name, kind := .histo (HistogramProto.mk
      (histLoop bl vs).min (histLoop bl vs).max (F64.ofNat vs.length) (histLoop bl vs).sum
      (histLoop bl vs).sum_square
      ((emitBuckets bl (histLoop bl vs).counts).map (fun lc => lc.1))
      ((emitBuckets bl (histLoop bl vs).counts).map (fun lc => F64.ofNat lc.2))) }] } := by
  simp [histogramOver, hf, CleanTag]

theorem in_range_index (vs : List F64) (hin : ∀ v ∈ vs, ¬ largestBoundary DefaultBins < v) :
    ∀ v ∈ vs, lower_bound DefaultBins v < DefaultBins.length := by
  intro v hv
  obtain ⟨M, hM, hmem, -⟩ := largestBoundary_spec
  refine lower_bound_lt_length DefaultBins v DefaultBins_sorted ⟨_, hmem, ?_⟩
  rw [← hM]
  exact hin v hv

theorem not_lt_of_le_largest (vs : List F64) (hin : ∀ v ∈ vs, v ≤ largestBoundary DefaultBins) :
    ∀ v ∈ vs, ¬ largestBoundary DefaultBins < v :=
  fun v hv h => f64_not_le_of_lt h (hin v hv)

theorem index_iff_smallest (v : F64) (hv : ∃ b ∈ DefaultBins, v ≤ b) (i : Nat)
    (hi : i < DefaultBins.length) :
    lower_bound DefaultBins v = i ↔ IsSmallestBoundaryGE DefaultBins v (DefaultBins.getD i 0) := by
  have hsm := lower_bound_smallest DefaultBins v DefaultBins_sorted DefaultBins_ne_nan hv
  obtain ⟨b0, hb0, hvb0⟩ := hv
  have hlt := lower_bound_lt_length DefaultBins v DefaultBins_sorted
    ⟨b0, hb0, fun h => f64_not_le_of_lt h hvb0⟩
  constructor
  · rintro rfl
    exact hsm
  · intro h
    have e := smallest_boundary_unique _ _ _ _ hsm h
    rcases Nat.lt_trichotomy (lower_bound DefaultBins v) i with h1 | h1 | h1
    · have := sorted_getD_lt _ DefaultBins_sorted _ _ h1 hi
      rw [e] at this
      exact absurd this (f64_lt_irrefl _)
    · exact h1
    · have := sorted_getD_lt _ DefaultBins_sorted _ _ h1 hlt
      rw [e] at this
      exact absurd this (f64_lt_irrefl _)

theorem lower_bound_of_mem (v : F64) (hv : v ∈ DefaultBins) :
    DefaultBins.getD (lower_bound DefaultBins v) 0 = v := by
  have hn := DefaultBins_ne_nan v hv
  have hsm := lower_bound_smallest DefaultBins v DefaultBins_sorted DefaultBins_ne_nan
    ⟨v, hv, f64_le_refl hn⟩
  exact f64_le_antisymm (hsm.2.2 v hv (f64_le_refl hn)) hsm.2.1

theorem histLoop_single_counts (bl : List F64) (v : F64) :
    (histLoop bl [v]).counts.length = bl.length ∧
    (histLoop bl [v]).fault = !(decide (lower_bound bl v < bl.length)) := by
  simp [histLoop, histStep]
  split_ifs <;> simp [incrAt_length]

theorem histLoop_cons_eq (bl : List F64) (x : F64) (xs : List F64) :
    histLoop bl (x :: xs) = (x :: xs).foldl (histStep bl)
      { counts := List.replicate bl.length 0, min := x, max := x, sum := 0, sum_square := 0,
        fault := false } := rfl

theorem sumInOrder_three (a b c : F64) : sumInOrder [a, b, c] = 0 + a + b + c := rfl

/-! ## Histogram: the claims -/

/-- C5, amended to the values `v <= ` the largest boundary in `double` comparison: the default
bucket table, computed with every product rounded, is the 774 positive boundaries, their
opposites in reverse order before them and zero between, and is strictly ascending; for such
values `Histogram` keeps all its counts inside the table, the index it computes for a value is
the one of the smallest boundary at least the value (a value equal to a boundary gets that
boundary), and after the loop entry `i` of the counts is the number of values whose smallest
boundary at least the value is boundary `i`. -/
theorem histogram_counts_smallest_boundary (vs : List F64)
    (hin : ∀ v ∈ vs, v ≤ largestBoundary DefaultBins) :
    (∃ P : List F64, P.length = 774 ∧
      DefaultBins = (P.map (fun x => -x)).reverse ++ [0] ++ P) ∧
    DefaultBins.Pairwise (· < ·) ∧
    (histLoop DefaultBins vs).fault = false ∧
    (histLoop DefaultBins vs).counts.length = DefaultBins.length ∧
    (∀ v ∈ vs, lower_bound DefaultBins v < DefaultBins.length ∧
      IsSmallestBoundaryGE DefaultBins v (DefaultBins.getD (lower_bound DefaultBins v) 0) ∧
      (v ∈ DefaultBins → DefaultBins.getD (lower_bound DefaultBins v) 0 = v) ∧
      ∀ i, i < DefaultBins.length →
        (lower_bound DefaultBins v = i ↔
          IsSmallestBoundaryGE DefaultBins v (DefaultBins.getD i 0))) ∧
    (∀ i, (histLoop DefaultBins vs).counts.getD i 0
      = vs.countP (fun v => decide (lower_bound DefaultBins v = i))) := by
  have hin' := in_range_of_le_largest vs hin
  have hidx := in_range_index vs (not_lt_of_le_largest vs hin)
  obtain ⟨h1, h2, h3, -⟩ := histLoop_counts DefaultBins vs hidx
  refine ⟨?_, DefaultBins_sorted, h2, h1, ?_, h3⟩
  · obtain ⟨P, hP, -, -, hlen, -⟩ := DefaultBins_shape
    refine ⟨P.map F64.fin, by rw [List.length_map, hlen], ?_⟩
    rw [hP, List.map_map]
    rfl
  · intro v hv
    have hsm := lower_bound_smallest DefaultBins v DefaultBins_sorted DefaultBins_ne_nan
      (hin' v hv)
    exact ⟨hidx v hv, hsm, lower_bound_of_mem v,
      fun i hi => index_iff_smallest v (hin' v hv) i hi⟩

/-- Witness of C5: the values `0, 1e-12, 0`, boundaries of the table. -/
theorem histogram_counts_smallest_boundary_witness :
    (∀ v ∈ [F64.fin 0, F64.lit 1e-12, F64.fin 0], v ≤ largestBoundary DefaultBins) ∧
    (histLoop DefaultBins [F64.fin 0, F64.lit 1e-12, F64.fin 0]).fault = false ∧
    ∀ v ∈ [F64.fin 0, F64.lit 1e-12, F64.fin 0],
      DefaultBins.getD (lower_bound DefaultBins v) 0 = v := by
  have hin : ∀ v ∈ [F64.fin 0, F64.lit 1e-12, F64.fin 0], v ≤ largestBoundary DefaultBins := by
    intro v hv
    simp only [List.mem_cons, List.mem_singleton, List.not_mem_nil, or_false] at hv
    rcases hv with rfl | rfl | rfl
    · exact zero_le_largestBoundary
    · exact tiny_le_largestBoundary
    · exact zero_le_largestBoundary
  have h := histogram_counts_smallest_boundary [F64.fin 0, F64.lit 1e-12, F64.fin 0] hin
  refine ⟨hin, h.2.2.1, fun v hv => (h.2.2.2.2.1 v hv).2.2.1 ?_⟩
  simp only [List.mem_cons, List.mem_singleton, List.not_mem_nil, or_false] at hv
  rcases hv with rfl | rfl | rfl
  · exact zero_mem_DefaultBins
  · exact tiny_mem_DefaultBins
  · exact zero_mem_DefaultBins

/-- C5 fails for NaN as stated: NaN does not exceed the largest boundary (`NaN > b` is false
for every `b`), the search returns index 0 for it and `Histogram` counts it in the first
bucket, whose boundary is not at least NaN; no boundary of the table is. -/
theorem histogram_counts_nan_in_first_bucket :
    ¬ (F64.nan > largestBoundary DefaultBins) ∧
    lower_bound DefaultBins F64.nan = 0 ∧
    (histLoop DefaultBins [F64.nan]).fault = false ∧
    (histLoop DefaultBins [F64.nan]).counts.getD 0 0 = 1 ∧
    ¬ (F64.nan ≤ DefaultBins.getD 0 0) ∧
    ∀ b, ¬ IsSmallestBoundaryGE DefaultBins F64.nan b := by
  have hidx : ∀ v ∈ [F64.nan], lower_bound DefaultBins v < DefaultBins.length := by
    intro v hv
    rw [List.mem_singleton.1 hv, lower_bound_nan, DefaultBins_length]
    norm_num
  obtain ⟨-, h2, h3, -⟩ := histLoop_counts DefaultBins [F64.nan] hidx
  refine ⟨f64_not_lt_nan _, lower_bound_nan _, h2, ?_, f64_not_nan_le _,
    fun b h => f64_not_nan_le _ h.2.1⟩
  rw [h3 0]
  simp [lower_bound_nan]

/-- C6: for values that do not exceed the largest boundary (NaN included), `Histogram` returns
a histogram whose bucket list has as many limits as counts; the limits are exactly the
boundaries whose bucket received an input value (for inputs without NaN: the boundaries that
are the smallest boundary at least some input value), in strictly ascending order; the counts
are the `double`s of strictly positive integers, each the number of values its bucket received,
that sum to the number of input values, and `num` is the `double` of that number. Up to `2^53`
values these conversions are exact. -/
theorem histogram_emits_hit_buckets (name : String) (vs : List F64)
    (hin : ∀ v ∈ vs, ¬ v > largestBoundary DefaultBins) :
    ∃ (h : HistogramProto) (counts : List Nat),
      Histogram name vs = .ok { value := [{ tag := name, kind := .histo h }] } ∧
      h.bucket = counts.map F64.ofNat ∧
      h.bucket_limit.length = h.bucket.length ∧
      h.bucket_limit.Pairwise (· < ·) ∧
      (∀ c ∈ counts, 0 < c) ∧
      (∀ c ∈ h.bucket, (0 : F64) < c) ∧
      (∀ b, b ∈ h.bucket_limit ↔
        ∃ v ∈ vs, DefaultBins.getD (lower_bound DefaultBins v) 0 = b) ∧
      ((∀ v ∈ vs, v ≠ F64.nan) →
        ∀ b, b ∈ h.bucket_limit ↔ ∃ v ∈ vs, IsSmallestBoundaryGE DefaultBins v b) ∧
      (∀ b c, (b, c) ∈ h.bucket_limit.zip counts →
        c = vs.countP (fun v => decide (DefaultBins.getD (lower_bound DefaultBins v) 0 = b))) ∧
      counts.sum = vs.length ∧
      h.num = F64.ofNat vs.length ∧
      (vs.length ≤ 2 ^ 53 →
        h.num = F64.fin (vs.length : ℚ) ∧
        h.bucket = counts.map (fun c : Nat => F64.fin (c : ℚ))) := by
  have hidx := in_range_index vs hin
  obtain ⟨h1, h2, h3, h4⟩ := histLoop_counts DefaultBins vs hidx
  have hsum := emitBuckets_sum DefaultBins (histLoop DefaultBins vs).counts (le_of_eq h1)
  rw [h4] at hsum
  have hpos : ∀ c ∈ (emitBuckets DefaultBins (histLoop DefaultBins vs).counts).map
      (fun lc => lc.2), 0 < c := by
    intro c hc
    simp only [List.mem_map] at hc
    obtain ⟨⟨b, n⟩, hmem, rfl⟩ := hc
    exact ((mem_emitBuckets_iff _ _ b n).1 hmem).1
  have hmem : ∀ b, b ∈ (emitBuckets DefaultBins (histLoop DefaultBins vs).counts).map
      (fun lc => lc.1) ↔ ∃ v ∈ vs, DefaultBins.getD (lower_bound DefaultBins v) 0 = b := by
    intro b
    simp only [List.mem_map]
    constructor
    · rintro ⟨⟨b', n⟩, hmem, rfl⟩
      obtain ⟨hpos, i, hi1, -, hb, hc⟩ := (mem_emitBuckets_iff _ _ b' n).1 hmem
      rw [h3 i] at hc
      have hcp : 0 < vs.countP (fun v => decide (lower_bound DefaultBins v = i)) := by omega
      obtain ⟨v, hv, hvi⟩ := List.countP_pos_iff.1 hcp
      simp only [decide_eq_true_eq] at hvi
      exact ⟨v, hv, by rw [hvi]; exact hb⟩
    · rintro ⟨v, hv, e⟩
      have hlt := hidx v hv
      have hcp : 0 < vs.countP
          (fun x => decide (lower_bound DefaultBins x = lower_bound DefaultBins v)) :=
        List.countP_pos_iff.2 ⟨v, hv, by simp⟩
      refine ⟨(b, (histLoop DefaultBins vs).counts.getD (lower_bound DefaultBins v) 0), ?_, rfl⟩
      rw [mem_emitBuckets_iff]
      exact ⟨by rw [h3]; exact hcp, lower_bound DefaultBins v, hlt, by rw [h1]; exact hlt, e,
        rfl⟩
  have hpair : ∀ b c, (b, c) ∈ ((emitBuckets DefaultBins (histLoop DefaultBins vs).counts).map
      (fun lc => lc.1)).zip ((emitBuckets DefaultBins (histLoop DefaultBins vs).counts).map
      (fun lc => lc.2)) →
      c = vs.countP (fun v => decide (DefaultBins.getD (lower_bound DefaultBins v) 0 = b)) := by
    intro b c hbc
    rw [List.zip_map', List.mem_map] at hbc
    obtain ⟨⟨b', c'⟩, hm, e⟩ := hbc
    obtain ⟨rfl, rfl⟩ := Prod.mk.inj e
    obtain ⟨-, i, hi1, -, hb, hc⟩ := (mem_emitBuckets_iff _ _ b' c').1 hm
    rw [← hc, h3 i]
    apply List.countP_congr
    intro v hv
    simp only [decide_eq_true_eq]
    constructor
    · intro e1
      rw [e1]
      exact hb
    · intro e1
      rcases Nat.lt_trichotomy (lower_bound DefaultBins v) i with h | h | h
      · have := sorted_getD_lt _ DefaultBins_sorted _ _ h hi1
        rw [e1, hb] at this
        exact absurd this (f64_lt_irrefl _)
      · exact h
      · have := sorted_getD_lt _ DefaultBins_sorted _ _ h (hidx v hv)
        rw [e1, hb] at this
        exact absurd this (f64_lt_irrefl _)
  refine ⟨_, (emitBuckets DefaultBins (histLoop DefaultBins vs).counts).map (fun lc => lc.2),
    histogramOver_ok DefaultBins name vs h2, ?_, ?_, ?_, hpos, ?_, hmem, ?_, hpair, hsum, rfl,
    ?_⟩
  · simp only [List.map_map]
    rfl
  · simp
  · exact emitBuckets_sorted _ _ DefaultBins_sorted
  · intro c hc
    simp only [List.mem_map] at hc
    obtain ⟨⟨b, n⟩, hm, rfl⟩ := hc
    exact f64_ofNat_pos n ((mem_emitBuckets_iff _ _ b n).1 hm).1
  · intro hnan b
    rw [hmem b]
    have hle : ∀ v ∈ vs, ∃ b ∈ DefaultBins, v ≤ b := fun v hv =>
      (le_largestBoundary_iff v).1
        (((not_largestBoundary_lt_iff v).1 (hin v hv)).resolve_left (hnan v hv))
    constructor
    · rintro ⟨v, hv, e⟩
      refine ⟨v, hv, ?_⟩
      rw [← e]
      exact lower_bound_smallest DefaultBins v DefaultBins_sorted DefaultBins_ne_nan (hle v hv)
    · rintro ⟨v, hv, hsm⟩
      exact ⟨v, hv, smallest_boundary_unique _ _ _ _
        (lower_bound_smallest DefaultBins v DefaultBins_sorted DefaultBins_ne_nan (hle v hv))
        hsm⟩
  · intro hl
    refine ⟨f64_ofNat_exact _ hl, ?_⟩
    simp only [List.map_map]
    apply List.map_congr_left
    intro lc hlc
    have hc : lc.2 ∈ (emitBuckets DefaultBins (histLoop DefaultBins vs).counts).map
        (fun lc => lc.2) := List.mem_map_of_mem _ hlc
    have : lc.2 ≤ vs.length := by
      rw [← hsum]
      exact List.single_le_sum (by simp) _ hc
    exact f64_ofNat_exact _ (by omega)

/-- Witness of C6: the values `0, NaN, 1e-12, 0`; the limits emitted are the first boundary
of the table, where NaN is counted, `0` and `1e-12`. -/
theorem histogram_emits_hit_buckets_witness :
    (∀ v ∈ [F64.fin 0, F64.nan, F64.lit 1e-12, F64.fin 0],
      ¬ v > largestBoundary DefaultBins) ∧
    ∃ (h : HistogramProto) (counts : List Nat),
      Histogram "loss" [F64.fin 0, F64.nan, F64.lit 1e-12, F64.fin 0]
        = .ok { value := [{ tag := "loss", kind := .histo h }] } ∧
      (∀ b, b ∈ h.bucket_limit ↔
        b = DefaultBins.getD 0 0 ∨ b = F64.fin 0 ∨ b = F64.lit 1e-12) ∧
      h.bucket = counts.map (fun c : Nat => F64.fin (c : ℚ)) ∧ counts.sum = 4 ∧
      h.num = F64.fin 4 := by
  have hin : ∀ v ∈ [F64.fin 0, F64.nan, F64.lit 1e-12, F64.fin 0],
      ¬ v > largestBoundary DefaultBins := by
    intro v hv
    simp only [List.mem_cons, List.mem_singleton, List.not_mem_nil, or_false] at hv
    rcases hv with rfl | rfl | rfl | rfl
    · exact fun h => f64_not_le_of_lt h zero_le_largestBoundary
    · exact f64_not_lt_nan _
    · exact fun h => f64_not_le_of_lt h tiny_le_largestBoundary
    · exact fun h => f64_not_le_of_lt h zero_le_largestBoundary
  obtain ⟨h, counts, e, -, -, -, -, -, hmem, -, -, hs, -, hex⟩ :=
    histogram_emits_hit_buckets "loss" [F64.fin 0, F64.nan, F64.lit 1e-12, F64.fin 0] hin
  have h4 := hex (by norm_num)
  refine ⟨hin, h, counts, e, ?_, h4.2, hs, by simpa using h4.1⟩
  intro b
  rw [hmem]
  simp only [List.mem_cons, List.mem_singleton, List.not_mem_nil, or_false, exists_eq_or_imp,
    exists_eq_left, lower_bound_nan, lower_bound_of_mem _ zero_mem_DefaultBins,
    lower_bound_of_mem _ tiny_mem_DefaultBins]
  constructor
  · rintro (h | h | h | h)
    · exact Or.inr (Or.inl h.symm)
    · exact Or.inl h.symm
    · exact Or.inr (Or.inr h.symm)
    · exact Or.inr (Or.inl h.symm)
  · rintro (h | h | h)
    · exact Or.inr (Or.inl h.symm)
    · exact Or.inl h.symm
    · exact Or.inr (Or.inr (Or.inl h.symm))

/-- C7, amended: for a non-empty input of values `v <= ` the largest boundary in `double`
comparison (so without NaN), `Histogram` returns a histogram whose `min` is the least and whose
`max` is the greatest input value, whose `sum` is the `double` sum of the values and whose
`sum_squares` is the `double` sum of their squares, both added in input order with every
operation rounded; for integer values these sums are the exact ones while the absolute values,
respectively the squares, sum to at most `2^53`. -/
theorem histogram_min_max_sum (name : String) (vs : List F64) (hne : vs ≠ [])
    (hin : ∀ v ∈ vs, v ≤ largestBoundary DefaultBins) :
    ∃ h : HistogramProto,
      Histogram name vs = .ok { value := [{ tag := name, kind := .histo h }] } ∧
      (h.min ∈ vs ∧ ∀ v ∈ vs, h.min ≤ v) ∧
      (h.max ∈ vs ∧ ∀ v ∈ vs, v ≤ h.max) ∧
      h.sum = sumInOrder vs ∧
      h.sum_squares = sumSquaresInOrder vs ∧
      (∀ zs : List Int, vs = zs.map (fun z : Int => F64.fin (z : ℚ)) →
        ((zs.map Int.natAbs).sum ≤ 2 ^ 53 → h.sum = F64.fin ((zs.sum : Int) : ℚ)) ∧
        ((zs.map (fun z : Int => z.natAbs * z.natAbs)).sum ≤ 2 ^ 53 →
          h.sum_squares = F64.fin (((zs.map (fun z : Int => z * z)).sum : Int) : ℚ))) := by
  have hnan : ∀ v ∈ vs, v ≠ F64.nan := fun v hv => (f64_ne_nan_of_le (hin v hv)).1
  obtain ⟨hmin, hmax⟩ := histLoop_minmax DefaultBins vs hne hnan
  obtain ⟨hsum, hsq⟩ := histLoop_stats DefaultBins vs
  obtain ⟨-, h2, -, -⟩ := histLoop_counts DefaultBins vs
    (in_range_index vs (not_lt_of_le_largest vs hin))
  refine ⟨_, histogramOver_ok DefaultBins name vs h2, hmin, hmax, hsum, hsq, ?_⟩
  intro zs hzs
  constructor
  · intro hb
    show (histLoop DefaultBins vs).sum = _
    rw [hsum, hzs]
    have := foldl_add_int zs 0 (by simpa using hb)
    simpa [sumInOrder, f64_zero] using this
  · intro hb
    show (histLoop DefaultBins vs).sum_square = _
    rw [hsq, hzs]
    have := foldl_add_sq_int zs 0 (by simpa using hb)
    simpa [sumSquaresInOrder, f64_zero] using this

/-- Witness of C7: the values `3, 1, 2`. -/
theorem histogram_min_max_sum_witness :
    ([F64.fin 3, F64.fin 1, F64.fin 2] : List F64) ≠ [] ∧
    (∀ v ∈ [F64.fin 3, F64.fin 1, F64.fin 2], v ≤ largestBoundary DefaultBins) ∧
    ∃ h : HistogramProto,
      Histogram "loss" [F64.fin 3, F64.fin 1, F64.fin 2]
        = .ok { value := [{ tag := "loss", kind := .histo h }] } ∧
      h.min = F64.fin 1 ∧ h.max = F64.fin 3 ∧ h.sum = F64.fin 6 ∧
      h.sum_squares = F64.fin 14 := by
  have hin : ∀ v ∈ [F64.fin 3, F64.fin 1, F64.fin 2], v ≤ largestBoundary DefaultBins := by
    intro v hv
    simp only [List.mem_cons, List.mem_singleton, List.not_mem_nil, or_false] at hv
    rcases hv with rfl | rfl | rfl <;> exact fin_le_largestBoundary _ (by norm_num)
  obtain ⟨h, e, ⟨h1, h2⟩, ⟨h3, h4⟩, -, -, hz⟩ :=
    histogram_min_max_sum "loss" [F64.fin 3, F64.fin 1, F64.fin 2] (by simp) hin
  obtain ⟨h5, h6⟩ := hz [3, 1, 2] (by simp)
  refine ⟨by simp, hin, h, e, ?_, ?_, ?_, ?_⟩
  · refine f64_le_antisymm (h2 _ (by simp)) ?_
    simp only [List.mem_cons, List.mem_singleton, List.not_mem_nil, or_false] at h1
    rcases h1 with e | e | e <;> rw [e, f64_fin_le_fin] <;> norm_num
  · refine f64_le_antisymm ?_ (h4 _ (by simp))
    simp only [List.mem_cons, List.mem_singleton, List.not_mem_nil, or_false] at h3
    rcases h3 with e | e | e <;> rw [e, f64_fin_le_fin] <;> norm_num
  · have := h5 (by norm_num)
    simpa using this
  · have := h6 (by norm_num)
    simpa using this

/-- C7 fails as stated, in three ways. A NaN in first place stays in `min` and `max`: for
`NaN, 1, 2` the histogram returned has `min = max = NaN`, not `1` and `2`. The sums are
rounded: for `1e16, 1, -1e16` the recorded `sum` is `0`, not `1`, because `1e16 + 1` rounds to
`1e16`. And above the table there is no histogram: for `1e20` the call indexes `counts` outside
the vector. -/
theorem histogram_min_max_sum_fails :
    (∃ h : HistogramProto,
      Histogram "loss" [F64.nan, F64.fin 1, F64.fin 2]
        = .ok { value := [{ tag := "loss", kind := .histo h }] } ∧
      h.min = F64.nan ∧ h.max = F64.nan) ∧
    (∃ h : HistogramProto,
      Histogram "loss" [F64.fin 1e16, F64.fin 1, F64.fin (-1e16)]
        = .ok { value := [{ tag := "loss", kind := .histo h }] } ∧
      h.sum = F64.fin 0 ∧ (1e16 : ℚ) + 1 + -1e16 = 1) ∧
    Histogram "loss" [F64.fin 1e20] = .error .out_of_bounds := by
  refine ⟨?_, ?_, ?_⟩
  · have hin : ∀ v ∈ [F64.nan, F64.fin 1, F64.fin 2], ¬ largestBoundary DefaultBins < v := by
      intro v hv
      simp only [List.mem_cons, List.mem_singleton, List.not_mem_nil, or_false] at hv
      rcases hv with rfl | rfl | rfl
      · exact f64_not_lt_nan _
      · exact fun h => f64_not_le_of_lt h (fin_le_largestBoundary _ (by norm_num))
      · exact fun h => f64_not_le_of_lt h (fin_le_largestBoundary _ (by norm_num))
    obtain ⟨-, h2, -, -⟩ := histLoop_counts DefaultBins _ (in_range_index _ hin)
    obtain ⟨k1, k2⟩ := histFold_nan DefaultBins [F64.nan, F64.fin 1, F64.fin 2]
      { counts := List.replicate DefaultBins.length 0, min := F64.nan, max := F64.nan,
        sum := 0, sum_square := 0, fault := false } rfl rfl
    refine ⟨_, histogramOver_ok DefaultBins "loss" _ h2, ?_, ?_⟩
    · show (histLoop DefaultBins [F64.nan, F64.fin 1, F64.fin 2]).min = F64.nan
      rw [histLoop_cons_eq]
      exact k1
    · show (histLoop DefaultBins [F64.nan, F64.fin 1, F64.fin 2]).max = F64.nan
      rw [histLoop_cons_eq]
      exact k2
  · have hin : ∀ v ∈ [F64.fin 1e16, F64.fin 1, F64.fin (-1e16)],
        ¬ largestBoundary DefaultBins < v := by
      intro v hv
      simp only [List.mem_cons, List.mem_singleton, List.not_mem_nil, or_false] at hv
      rcases hv with rfl | rfl | rfl <;>
        exact fun h => f64_not_le_of_lt h (fin_le_largestBoundary _ (by norm_num))
    obtain ⟨-, h2, -, -⟩ := histLoop_counts DefaultBins _ (in_range_index _ hin)
    refine ⟨_, histogramOver_ok DefaultBins "loss" _ h2, ?_, by norm_num⟩
    show (histLoop DefaultBins [F64.fin 1e16, F64.fin 1, F64.fin (-1e16)]).sum = F64.fin 0
    rw [(histLoop_stats DefaultBins _).1]
    have e0 : (0 : F64) + F64.fin 1e16 = F64.fin 1e16 := by
      have h := f64_zero_add_exact (5 ^ 16) 16 (by norm_num) (by norm_num) (by norm_num)
        (by norm_num)
      have e : ((5 ^ 16 : Int) : ℚ) * 2 ^ (16 : Int) = 1e16 := by norm_num
      rw [e] at h
      exact h
    rw [sumInOrder_three, e0, f64_add_1e16_one, f64_add_neg_self]
  · have h1 : lower_bound DefaultBins (F64.fin 1e20) = DefaultBins.length :=
      lower_bound_eq_length DefaultBins _ DefaultBins_sorted DefaultBins_lt
    have h2 := (histLoop_single_counts DefaultBins (F64.fin 1e20)).2
    rw [h1] at h2
    simp only [lt_self_iff_false, decide_False, Bool.not_false] at h2
    simp [Histogram, histogramOver, h2]

/-- C8 fails on the code: for the single value `1e20`, which is a `double` and lies above the
largest boundary of the table, the search returns the end of the table, so `counts`, of 1549
elements, is indexed at 1549, one past its last element, and the call leaves defined behaviour;
the same happens for `+infinity`. -/
theorem histogram_above_table_out_of_bounds :
    largestBoundary DefaultBins < F64.fin 1e20 ∧
    F64.lit 1e20 = F64.fin 1e20 ∧
    DefaultBins.length = 1549 ∧
    lower_bound DefaultBins (F64.fin 1e20) = DefaultBins.length ∧
    (histLoop DefaultBins [F64.fin 1e20]).counts.length = DefaultBins.length ∧
    Histogram "loss" [F64.fin 1e20] = .error .out_of_bounds ∧
    lower_bound DefaultBins (F64.inf false) = DefaultBins.length ∧
    Histogram "loss" [F64.inf false] = .error .out_of_bounds := by
  have h1 : lower_bound DefaultBins (F64.fin 1e20) = DefaultBins.length :=
    lower_bound_eq_length DefaultBins _ DefaultBins_sorted DefaultBins_lt
  have h2 := (histLoop_single_counts DefaultBins (F64.fin 1e20)).2
  rw [h1] at h2
  simp only [lt_self_iff_false, decide_False, Bool.not_false] at h2
  have i1 : lower_bound DefaultBins (F64.inf false) = DefaultBins.length :=
    lower_bound_eq_length DefaultBins _ DefaultBins_sorted (fun b hb => by
      obtain ⟨q, rfl⟩ := DefaultBins_finite b hb
      exact f64_fin_lt_inf q)
  have i2 := (histLoop_single_counts DefaultBins (F64.inf false)).2
  rw [i1] at i2
  simp only [lt_self_iff_false, decide_False, Bool.not_false] at i2
  refine ⟨largestBoundary_lt, lit_1e20, DefaultBins_length, h1,
    (histLoop_single_counts DefaultBins _).1, ?_, i1, ?_⟩
  · simp [Histogram, histogramOver, h2]
  · simp [Histogram, histogramOver, i2]

/-! ## Image mosaic: lemmas -/

theorem toU32_natCast (n : Nat) : toU32 (n : Int) = n % 2 ^ 32 := by
  unfold toU32
  omega

theorem toU32_wrap_mul (x c : Int) : toU32 (wrapI32 x * c) = toU32 (x * c) := by
  unfold toU32
  congr 1
  have h : wrapI32 x % 2 ^ 32 = x % 2 ^ 32 := by
    unfold wrapI32
    omega
  rw [Int.mul_emod, h, ← Int.mul_emod]

theorem toU32_wrapI32 (x : Int) : toU32 (wrapI32 x) = toU32 x := by
  unfold toU32 wrapI32
  omega

theorem toU32_size (W H C : Nat) :
    toU32 (mulI32 (mulI32 (H : Int) (W : Int)) (C : Int)) = (W * H * C) % 2 ^ 32 := by
  unfold mulI32
  rw [toU32_wrapI32, toU32_wrap_mul]
  have : (H : Int) * (W : Int) * (C : Int) = ((W * H * C : Nat) : Int) := by
    push_cast; ring
  rw [this, toU32_natCast]

theorem toSizeT_row (W C : Nat) (h : W * C < 2 ^ 31) :
    toSizeT (mulI32 (W : Int) (C : Int)) = W * C := by
  have e : (W : Int) * (C : Int) = ((W * C : Nat) : Int) := by push_cast; ring
  unfold toSizeT mulI32 wrapI32
  rw [e]
  omega

theorem toU32_dim (a b : Nat) : toU32 ((a : Int) * (b : Int)) = (a * b) % 2 ^ 32 := by
  have e : (a : Int) * (b : Int) = ((a * b : Nat) : Int) := by push_cast; ring
  rw [e, toU32_natCast]

theorem ceil_div_bounds (N ncols : Nat) (h0 : 0 < ncols) (hN : 0 < N) :
    N ≤ ncols * ((N + ncols - 1) / ncols) ∧ ((N + ncols - 1) / ncols - 1) * ncols < N ∧
    ncols * ((N + ncols - 1) / ncols) ≤ N + ncols - 1 ∧ 0 < (N + ncols - 1) / ncols := by
  have h1 := Nat.div_add_mod (N + ncols - 1) ncols
  have h2 := Nat.mod_lt (N + ncols - 1) h0
  have h3 : 0 < (N + ncols - 1) / ncols := Nat.div_pos (by omega) h0
  refine ⟨by omega, ?_, by omega, h3⟩
  have : ((N + ncols - 1) / ncols - 1) * ncols = ncols * ((N + ncols - 1) / ncols) - ncols := by
    rw [Nat.sub_mul, Nat.one_mul, Nat.mul_comm]
  omega

theorem divmod_block (q w n : Nat) (hw : w < n) : (q * n + w) % n = w ∧ (q * n + w) / n = q := by
  have hn : 0 < n := by omega
  constructor
  · rw [Nat.add_comm, Nat.add_mul_mod_self_right, Nat.mod_eq_of_lt hw]
  · rw [Nat.add_comm, Nat.add_mul_div_right _ _ hn, Nat.div_eq_of_lt hw, Nat.zero_add]

theorem mosaicBlock_at (imgs : List (List Byte)) (cnt ncols H lz h i w : Nat)
    (hw : w < ncols) (hi : i < H) :
    mosaicBlock imgs cnt ncols H lz ((h * H + i) * ncols + w)
      = if h * ncols + w < cnt then ((imgs.getD (h * ncols + w) []).drop (i * lz)).take lz
        else List.replicate lz 0 := by
  obtain ⟨e1, e2⟩ := divmod_block (h * H + i) w ncols hw
  obtain ⟨e3, e4⟩ := divmod_block h i H hi
  simp only [mosaicBlock, e1, e2, e3, e4]

theorem mosaicBlock_length (imgs : List (List Byte)) (cnt ncols H lz b : Nat) (hH : 0 < H)
    (hsz : ∀ n, n < cnt → (imgs.getD n []).length = H * lz) :
    (mosaicBlock imgs cnt ncols H lz b).length = lz := by
  unfold mosaicBlock
  simp only
  split
  · rename_i hlt
    rw [List.length_take, List.length_drop, hsz _ hlt]
    have hi : (b / ncols) % H < H := Nat.mod_lt _ hH
    have : ((b / ncols) % H + 1) * lz ≤ H * lz := Nat.mul_le_mul_right _ hi
    rw [Nat.add_mul, Nat.one_mul] at this
    omega
  · simp

theorem mosaicPrefix_length (imgs : List (List Byte)) (cnt ncols H lz n : Nat) (hH : 0 < H)
    (hsz : ∀ n, n < cnt → (imgs.getD n []).length = H * lz) :
    (mosaicPrefix imgs cnt ncols H lz n).length = n * lz := by
  induction n with
  | zero => simp [mosaicPrefix]
  | succ n ih =>
    rw [mosaicPrefix, List.length_append, ih, mosaicBlock_length _ _ _ _ _ _ hH hsz, Nat.add_mul,
      Nat.one_mul]

theorem copyRow_block (P Z src : List Byte) (off lz : Nat) (hsrc : off + lz ≤ src.length)
    (hZ : lz ≤ Z.length) :
    copyRow (P ++ Z) P.length src off lz = .ok (P ++ (src.drop off).take lz ++ Z.drop lz) := by
  unfold copyRow
  have h1 : P.length + lz ≤ (P ++ Z).length := by rw [List.length_append]; omega
  rw [if_pos ⟨hsrc, h1⟩]
  congr 2
  · congr 1
    exact List.take_left' rfl
  · rw [List.drop_append]

theorem replicate_zero_split (a lz : Nat) :
    (List.replicate ((a + 1) * lz) (0 : Byte)) = List.replicate lz 0 ++ List.replicate (a * lz) 0 := by
  rw [List.append_replicate_replicate]
  congr 1
  ring

theorem zero_blocks_extend (imgs : List (List Byte)) (cnt ncols H lz T b m : Nat)
    (hz : ∀ j, j < m → mosaicBlock imgs cnt ncols H lz (b + j) = List.replicate lz 0)
    (hT : b + m ≤ T) :
    mosaicPrefix imgs cnt ncols H lz b ++ List.replicate ((T - b) * lz) 0
      = mosaicPrefix imgs cnt ncols H lz (b + m) ++ List.replicate ((T - (b + m)) * lz) 0 := by
  induction m with
  | zero => rfl
  | succ m ih =>
    rw [ih (fun j hj => hz j (by omega)) (by omega)]
    have e1 : b + (m + 1) = (b + m) + 1 := by omega
    have e2 : T - (b + m) = (T - (b + m + 1)) + 1 := by omega
    rw [e1, mosaicPrefix, hz m (by omega), e2, replicate_zero_split, List.append_assoc]


theorem colLoop_spec (imgs : List (List Byte)) (cnt ncols H lz nrows h i : Nat)
    (hH : 0 < H) (hsz : ∀ n, n < cnt → (imgs.getD n []).length = H * lz)
    (h64 : nrows * H * ncols * lz < 2 ^ 64) (hh : h < nrows) (hi : i < H) :
    ∀ k w data, w + k = ncols →
      data = mosaicPrefix imgs cnt ncols H lz ((h * H + i) * ncols + w)
        ++ List.replicate ((nrows * H * ncols - ((h * H + i) * ncols + w)) * lz) 0 →
      colLoop imgs cnt ncols H lz h i k w data
        = .ok (mosaicPrefix imgs cnt ncols H lz ((h * H + i) * ncols + ncols)
          ++ List.replicate ((nrows * H * ncols - ((h * H + i) * ncols + ncols)) * lz) 0) := by
  have hq : (h * H + i + 1) * ncols ≤ nrows * H * ncols := by
    apply Nat.mul_le_mul_right
    have : (h + 1) * H ≤ nrows * H := Nat.mul_le_mul_right _ hh
    rw [Nat.add_mul, Nat.one_mul] at this
    omega
  rw [Nat.add_mul, Nat.one_mul] at hq
  intro k
  induction k with
  | zero =>
    intro w data hw hd
    have : w = ncols := by omega
    subst this
    rw [hd]; rfl
  | succ k ih =>
    intro w data hw hd
    have hwlt : w < ncols := by omega
    by_cases hbr : h * ncols + w ≥ cnt
    · have e : colLoop imgs cnt ncols H lz h i (k + 1) w data = .ok data := by
        simp only [colLoop, hbr, if_true]
      rw [e, hd]
      congr 1
      have := zero_blocks_extend imgs cnt ncols H lz (nrows * H * ncols)
        ((h * H + i) * ncols + w) (k + 1) (fun j hj => by
          have := mosaicBlock_at imgs cnt ncols H lz h i (w + j) (by omega) hi
          rw [← Nat.add_assoc] at this
          rw [this, if_neg (by omega)]) (by omega)
      have e2 : (h * H + i) * ncols + w + (k + 1) = (h * H + i) * ncols + ncols := by omega
      rw [e2] at this
      exact this
    · have hcur : (((h * H + i) * ncols + w) * lz) % 2 ^ 64 = ((h * H + i) * ncols + w) * lz := by
        apply Nat.mod_eq_of_lt
        refine lt_of_le_of_lt (Nat.mul_le_mul_right _ ?_) h64
        omega
      have hsrc : (i * lz) % 2 ^ 64 = i * lz := by
        apply Nat.mod_eq_of_lt
        refine lt_of_le_of_lt (Nat.mul_le_mul_right _ ?_) h64
        have h1 : i ≤ H := by omega
        have h2 : H ≤ nrows * H := Nat.le_mul_of_pos_left _ (by omega)
        have h3 : nrows * H ≤ nrows * H * ncols := Nat.le_mul_of_pos_right _ (by omega)
        omega
      have hlen := mosaicPrefix_length imgs cnt ncols H lz ((h * H + i) * ncols + w) hH hsz
      have hrow : i * lz + lz ≤ (imgs.getD (h * ncols + w) []).length := by
        rw [hsz _ (by omega)]
        have : (i + 1) * lz ≤ H * lz := Nat.mul_le_mul_right _ hi
        rw [Nat.add_mul, Nat.one_mul] at this
        exact this
      have hZ : lz ≤ (List.replicate ((nrows * H * ncols - ((h * H + i) * ncols + w)) * lz)
          (0 : Byte)).length := by
        rw [List.length_replicate]
        exact Nat.le_mul_of_pos_left _ (by omega)
      have hcopy := copyRow_block (mosaicPrefix imgs cnt ncols H lz ((h * H + i) * ncols + w))
        (List.replicate ((nrows * H * ncols - ((h * H + i) * ncols + w)) * lz) 0)
        (imgs.getD (h * ncols + w) []) (i * lz) lz hrow hZ
      rw [hlen, ← hd] at hcopy
      have e : colLoop imgs cnt ncols H lz h i (k + 1) w data
          = colLoop imgs cnt ncols H lz h i k (w + 1)
            (mosaicPrefix imgs cnt ncols H lz ((h * H + i) * ncols + w) ++
              List.take lz (List.drop (i * lz) (imgs.getD (h * ncols + w) [])) ++
              List.drop lz (List.replicate
                ((nrows * H * ncols - ((h * H + i) * ncols + w)) * lz) 0)) := by
        simp only [colLoop, hbr, if_false, hcur, hsrc, hcopy]
      rw [e]
      apply ih (w + 1) _ (by omega)
      have e3 : (h * H + i) * ncols + (w + 1) = ((h * H + i) * ncols + w) + 1 := by omega
      have e4 : nrows * H * ncols - ((h * H + i) * ncols + w)
          = (nrows * H * ncols - ((h * H + i) * ncols + w + 1)) + 1 := by omega
      rw [e3, mosaicPrefix, mosaicBlock_at imgs cnt ncols H lz h i w hwlt hi,
        if_pos (by omega)]
      congr 1
      rw [e4, replicate_zero_split, List.drop_left' (List.length_replicate _ _)]

theorem rowLoop_spec (imgs : List (List Byte)) (cnt ncols H lz nrows h : Nat)
    (hH : 0 < H) (hsz : ∀ n, n < cnt → (imgs.getD n []).length = H * lz)
    (h64 : nrows * H * ncols * lz < 2 ^ 64) (hh : h < nrows) :
    ∀ k i data, i + k = H →
      data = mosaicPrefix imgs cnt ncols H lz ((h * H + i) * ncols)
        ++ List.replicate ((nrows * H * ncols - (h * H + i) * ncols) * lz) 0 →
      rowLoop imgs cnt ncols H lz h k i data
        = .ok (mosaicPrefix imgs cnt ncols H lz ((h * H + H) * ncols)
          ++ List.replicate ((nrows * H * ncols - (h * H + H) * ncols) * lz) 0) := by
  intro k
  induction k with
  | zero =>
    intro i data hi hd
    have : i = H := by omega
    subst this
    rw [hd]; rfl
  | succ k ih =>
    intro i data hi hd
    have hc := colLoop_spec imgs cnt ncols H lz nrows h i hH hsz h64 hh (by omega) ncols 0 data
      (by omega) (by simpa using hd)
    have e : rowLoop imgs cnt ncols H lz h (k + 1) i data
        = rowLoop imgs cnt ncols H lz h k (i + 1)
          (mosaicPrefix imgs cnt ncols H lz ((h * H + i) * ncols + ncols)
            ++ List.replicate ((nrows * H * ncols - ((h * H + i) * ncols + ncols)) * lz) 0) := by
      simp only [rowLoop, hc]
    rw [e]
    apply ih (i + 1) _ (by omega)
    have e2 : (h * H + (i + 1)) * ncols = (h * H + i) * ncols + ncols := by ring
    rw [e2]

theorem gridLoop_spec (imgs : List (List Byte)) (cnt ncols H lz nrows : Nat)
    (hH : 0 < H) (hsz : ∀ n, n < cnt → (imgs.getD n []).length = H * lz)
    (h64 : nrows * H * ncols * lz < 2 ^ 64) :
    ∀ k h data, h + k = nrows →
      data = mosaicPrefix imgs cnt ncols H lz (h * H * ncols)
        ++ List.replicate ((nrows * H * ncols - h * H * ncols) * lz) 0 →
      gridLoop imgs cnt ncols H lz k h data
        = .ok (mosaicPrefix imgs cnt ncols H lz (nrows * H * ncols)) := by
  intro k
  induction k with
  | zero =>
    intro h data hh hd
    have : h = nrows := by omega
    subst this
    rw [hd]; simp [gridLoop]
  | succ k ih =>
    intro h data hh hd
    have hr := rowLoop_spec imgs cnt ncols H lz nrows h hH hsz h64 (by omega) H 0 data
      (by omega) (by simpa using hd)
    have e : gridLoop imgs cnt ncols H lz (k + 1) h data
        = gridLoop imgs cnt ncols H lz k (h + 1)
          (mosaicPrefix imgs cnt ncols H lz ((h * H + H) * ncols)
            ++ List.replicate ((nrows * H * ncols - (h * H + H) * ncols) * lz) 0) := by
      simp only [gridLoop, hr]
    rw [e]
    apply ih (h + 1) _ (by omega)
    have e2 : (h + 1) * H * ncols = (h * H + H) * ncols := by ring
    rw [e2]

/-- Under the size conditions of the 32-bit arithmetic, `Images` validates its input and hands
the codec the mosaic of all blocks with the wrapped dimensions. -/
theorem ImagesCompose_spec (imgs : List (List Byte)) (W H C max_cols : Nat)
    (hW : 0 < W) (hH : 0 < H) (hC : 1 ≤ C ∧ C ≤ 6) (hN : imgs ≠ []) (hcols : 0 < max_cols)
    (hsize : ∀ img ∈ imgs, img.length = W * H * C)
    (h32 : W * H * C < 2 ^ 32) (hrow : W * C < 2 ^ 31)
    (hcnt : imgs.length + min imgs.length max_cols ≤ 2 ^ 32) :
    ImagesCompose imgs (H : Int) (W : Int) (C : Int) max_cols
      = .ok (some
          { data := mosaicPrefix imgs imgs.length (min imgs.length max_cols) H (W * C)
              ((imgs.length + min imgs.length max_cols - 1) / min imgs.length max_cols * H
                * min imgs.length max_cols)
            width := (W * min imgs.length max_cols) % 2 ^ 32
            height := (H * ((imgs.length + min imgs.length max_cols - 1)
              / min imgs.length max_cols)) % 2 ^ 32
            channel := C }) := by
  have hNpos : 0 < imgs.length := List.length_pos.2 hN
  have hncols : 0 < min imgs.length max_cols := by
    rw [Nat.lt_min]; exact ⟨hNpos, hcols⟩
  have hle : min imgs.length max_cols ≤ imgs.length := Nat.min_le_left _ _
  obtain ⟨x, xs, rfl⟩ := List.exists_cons_of_ne_nil hN
  have hcntmod : (x :: xs).length % 2 ^ 32 = (x :: xs).length := Nat.mod_eq_of_lt (by omega)
  have hncolsdef : (if (x :: xs).length < max_cols then (x :: xs).length else max_cols)
      = min (x :: xs).length max_cols := by
    split
    · rw [Nat.min_eq_left (by omega)]
    · rw [Nat.min_eq_right (by omega)]
  generalize hnc : min (x :: xs).length max_cols = ncols at *
  obtain ⟨c1, c2, c3, c4⟩ := ceil_div_bounds (x :: xs).length ncols hncols hNpos
  have hnrows : ((x :: xs).length + ncols + (2 ^ 32 - 1)) % 2 ^ 32
      = (x :: xs).length + ncols - 1 := by omega
  generalize hnr : ((x :: xs).length + ncols - 1) / ncols = nrows at *
  have hprod : (ncols * nrows) % 2 ^ 32 = ncols * nrows := Nat.mod_eq_of_lt (by omega)
  have hx : x.length = W * H * C := hsize x (List.mem_cons_self _ _)
  have hval : ¬ ((0 : Int) ≥ (C : Int) ∨ (6 : Int) < (C : Int) ∨ (H : Int) ≤ 0 ∨ (W : Int) ≤ 0) := by
    omega
  have hany : (xs.any fun img => decide (x.length ≠ img.length)) = false := by
    rw [List.any_eq_false]
    intro img himg
    simp [hx, hsize img (List.mem_cons_of_mem _ himg)]
  have hsz : ∀ n, n < (x :: xs).length → ((x :: xs).getD n []).length = H * (W * C) := by
    intro n hn
    rw [List.getD_eq_getElem _ _ hn, hsize _ (List.getElem_mem _)]
    ring
  have h64 : nrows * H * ncols * (W * C) < 2 ^ 64 := by
    have e : nrows * H * ncols * (W * C) = (ncols * nrows) * (W * H * C) := by ring
    rw [e]
    calc (ncols * nrows) * (W * H * C) < 2 ^ 32 * 2 ^ 32 :=
          Nat.mul_lt_mul'' (by omega) h32
      _ = 2 ^ 64 := by norm_num
  have hdata : List.replicate (ncols * nrows * (W * H * C)) (0 : Byte)
      = mosaicPrefix (x :: xs) (x :: xs).length ncols H (W * C) (0 * H * ncols)
        ++ List.replicate ((nrows * H * ncols - 0 * H * ncols) * (W * C)) 0 := by
    have e0 : 0 * H * ncols = 0 := by simp
    have e1 : ncols * nrows * (W * H * C) = nrows * H * ncols * (W * C) := by ring
    rw [e0, Nat.sub_zero, e1]
    rfl
  have hgrid := gridLoop_spec (x :: xs) (x :: xs).length ncols H (W * C) nrows hH hsz h64
    nrows 0 _ (by omega) hdata
  unfold ImagesCompose
  rw [if_neg hval]
  simp only [List.isEmpty_cons, Bool.false_eq_true, if_false, List.headD_cons, List.tail_cons,
    hany]
  rw [toU32_size, hx, Nat.mod_eq_of_lt h32]
  simp only [ne_eq, not_true_eq_false, if_false, hcntmod, hncolsdef]
  rw [if_neg (Nat.ne_of_gt hncols)]
  rw [hnrows, hnr, hprod, toSizeT_row W C hrow, Int.toNat_ofNat, hgrid]
  show Except.ok (some _) = _
  rw [toU32_dim, toU32_dim, toU32_natCast, Nat.mod_eq_of_lt (show C < 2 ^ 32 by omega)]
theorem mosaicPrefix_getElem_opt (imgs : List (List Byte)) (cnt ncols H lz : Nat) (hH : 0 < H)
    (hsz : ∀ n, n < cnt → (imgs.getD n []).length = H * lz) (n b k : Nat) (hb : b < n)
    (hk : k < lz) :
    (mosaicPrefix imgs cnt ncols H lz n)[b * lz + k]?
      = (mosaicBlock imgs cnt ncols H lz b)[k]? := by
  induction n with
  | zero => omega
  | succ n ih =>
    rw [mosaicPrefix]
    have hlen := mosaicPrefix_length imgs cnt ncols H lz n hH hsz
    by_cases hbn : b < n
    · have : b * lz + k < (mosaicPrefix imgs cnt ncols H lz n).length := by
        rw [hlen]
        have : (b + 1) * lz ≤ n * lz := Nat.mul_le_mul_right _ hbn
        rw [Nat.add_mul, Nat.one_mul] at this
        omega
      rw [List.getElem?_append_left this]
      exact ih hbn
    · have e : b = n := by omega
      subst e
      rw [List.getElem?_append_right (by rw [hlen]; omega), hlen]
      congr 1
      omega

theorem mosaic_image_byte (imgs : List (List Byte)) (ncols nrows H lz : Nat) (hH : 0 < H)
    (hnc : 0 < ncols) (hsz : ∀ n, n < imgs.length → (imgs.getD n []).length = H * lz)
    (hfit : imgs.length ≤ ncols * nrows) (n i k : Nat) (hn : n < imgs.length) (hi : i < H)
    (hk : k < lz) :
    (mosaicPrefix imgs imgs.length ncols H lz (nrows * H * ncols))[
        ((n / ncols * H + i) * ncols + n % ncols) * lz + k]?
      = (imgs.getD n [])[i * lz + k]? ∧
    ((n / ncols * H + i) * ncols + n % ncols) * lz + k
      < (mosaicPrefix imgs imgs.length ncols H lz (nrows * H * ncols)).length := by
  have hw : n % ncols < ncols := Nat.mod_lt _ hnc
  have hh : n / ncols < nrows := by
    apply Nat.div_lt_of_lt_mul
    omega
  have hb : (n / ncols * H + i) * ncols + n % ncols < nrows * H * ncols := by
    have h1 : (n / ncols + 1) * H ≤ nrows * H := Nat.mul_le_mul_right _ hh
    rw [Nat.add_mul, Nat.one_mul] at h1
    have h2 : (n / ncols * H + i + 1) * ncols ≤ nrows * H * ncols :=
      Nat.mul_le_mul_right _ (by omega)
    rw [Nat.add_mul, Nat.one_mul] at h2
    omega
  have hdm : n / ncols * ncols + n % ncols = n := by
    rw [Nat.mul_comm]; exact Nat.div_add_mod n ncols
  constructor
  · rw [mosaicPrefix_getElem_opt imgs imgs.length ncols H lz hH hsz _ _ k hb hk,
      mosaicBlock_at imgs imgs.length ncols H lz (n / ncols) i (n % ncols) hw hi, hdm,
      if_pos hn, List.getElem?_take_of_lt hk, List.getElem?_drop]
  · rw [mosaicPrefix_length imgs imgs.length ncols H lz _ hH hsz]
    have : ((n / ncols * H + i) * ncols + n % ncols + 1) * lz ≤ nrows * H * ncols * lz :=
      Nat.mul_le_mul_right _ hb
    rw [Nat.add_mul, Nat.one_mul] at this
    omega

theorem mosaic_zero_byte (imgs : List (List Byte)) (ncols nrows H lz : Nat) (hH : 0 < H)
    (hnc : 0 < ncols) (hsz : ∀ n, n < imgs.length → (imgs.getD n []).length = H * lz)
    (p : Nat) (hp : p < (mosaicPrefix imgs imgs.length ncols H lz (nrows * H * ncols)).length)
    (hfree : ¬ ∃ n i k, n < imgs.length ∧ i < H ∧ k < lz ∧
      p = ((n / ncols * H + i) * ncols + n % ncols) * lz + k) :
    (mosaicPrefix imgs imgs.length ncols H lz (nrows * H * ncols))[p]? = some 0 := by
  rw [mosaicPrefix_length imgs imgs.length ncols H lz _ hH hsz] at hp
  have hlz : 0 < lz := by
    rcases Nat.eq_zero_or_pos lz with h | h
    · rw [h] at hp; simp at hp
    · exact h
  have hb : p / lz < nrows * H * ncols := Nat.div_lt_of_lt_mul (by rw [Nat.mul_comm]; exact hp)
  have hk : p % lz < lz := Nat.mod_lt _ hlz
  have hpe : p / lz * lz + p % lz = p := by rw [Nat.mul_comm]; exact Nat.div_add_mod p lz
  have hw : p / lz % ncols < ncols := Nat.mod_lt _ hnc
  have hi : p / lz / ncols % H < H := Nat.mod_lt _ hH
  have hbe : (p / lz / ncols / H * H + p / lz / ncols % H) * ncols + p / lz % ncols = p / lz := by
    have h1 : p / lz / ncols / H * H + p / lz / ncols % H = p / lz / ncols := by
      rw [Nat.mul_comm]; exact Nat.div_add_mod _ H
    rw [h1, Nat.mul_comm]; exact Nat.div_add_mod _ ncols
  rw [← hpe, mosaicPrefix_getElem_opt imgs imgs.length ncols H lz hH hsz _ _ _ hb hk]
  by_cases hcell : p / lz / ncols / H * ncols + p / lz % ncols < imgs.length
  · exfalso
    apply hfree
    obtain ⟨e1, e2⟩ := divmod_block (p / lz / ncols / H) (p / lz % ncols) ncols hw
    refine ⟨p / lz / ncols / H * ncols + p / lz % ncols, p / lz / ncols % H, p % lz, hcell, hi,
      hk, ?_⟩
    rw [e1, e2, hbe, hpe]
  · have : mosaicBlock imgs imgs.length ncols H lz (p / lz) = List.replicate lz 0 := by
      unfold mosaicBlock
      simp only [hcell, if_false]
    rw [this, List.getElem?_replicate, if_pos hk]

/-! ## Image mosaic: the claims -/

/-- The layout of the mosaic where the 32-bit arithmetic of the code does not overflow: for
`N >= 1` images of `W*H*C` bytes each and `max_cols >= 1` with `W*C < 2^31`, `W*H*C < 2^32` and
`N + ncols <= 2^32` (`ncols = min(N, max_cols)`), `Images` composes a buffer in which byte
`k` of pixel row `i` of image `n` is at offset
`(((n / ncols)*H + i)*ncols + n mod ncols)*W*C + k`, and every byte outside these cells is
zero. -/
theorem images_mosaic_layout (imgs : List (List Byte)) (W H C max_cols : Nat)
    (hW : 0 < W) (hH : 0 < H) (hC : 1 ≤ C ∧ C ≤ 6) (hN : imgs ≠ []) (hcols : 0 < max_cols)
    (hsize : ∀ img ∈ imgs, img.length = W * H * C)
    (h32 : W * H * C < 2 ^ 32) (hrow : W * C < 2 ^ 31)
    (hcnt : imgs.length + mosaicCols imgs.length max_cols ≤ 2 ^ 32) :
    ∃ call : EncoderCall,
      ImagesCompose imgs (H : Int) (W : Int) (C : Int) max_cols = .ok (some call) ∧
      (∀ n i k, n < imgs.length → i < H → k < W * C →
        cellOffset (mosaicCols imgs.length max_cols) H W C n i k < call.data.length ∧
        call.data[cellOffset (mosaicCols imgs.length max_cols) H W C n i k]?
          = (imgs.getD n [])[i * (W * C) + k]?) ∧
      (∀ p, p < call.data.length →
        (¬ ∃ n i k, n < imgs.length ∧ i < H ∧ k < W * C ∧
          p = cellOffset (mosaicCols imgs.length max_cols) H W C n i k) →
        call.data[p]? = some 0) := by
  unfold mosaicCols at hcnt
  have hNpos : 0 < imgs.length := List.length_pos.2 hN
  have hncols : 0 < min imgs.length max_cols := by
    rw [Nat.lt_min]; exact ⟨hNpos, hcols⟩
  obtain ⟨c1, -, -, -⟩ := ceil_div_bounds imgs.length (min imgs.length max_cols) hncols hNpos
  have hsz : ∀ n, n < imgs.length → (imgs.getD n []).length = H * (W * C) := by
    intro n hn
    rw [List.getD_eq_getElem _ _ hn, hsize _ (List.getElem_mem _)]
    ring
  refine ⟨_, ImagesCompose_spec imgs W H C max_cols hW hH hC hN hcols hsize h32 hrow hcnt, ?_, ?_⟩
  · intro n i k hn hi hk
    obtain ⟨h1, h2⟩ := mosaic_image_byte imgs (min imgs.length max_cols)
      ((imgs.length + min imgs.length max_cols - 1) / min imgs.length max_cols) H (W * C) hH
      hncols hsz c1 n i k hn hi hk
    exact ⟨h2, h1⟩
  · intro p hp hfree
    exact mosaic_zero_byte imgs (min imgs.length max_cols)
      ((imgs.length + min imgs.length max_cols - 1) / min imgs.length max_cols) H (W * C) hH
      hncols hsz p hp hfree

/-- The layout of the mosaic on three images of two pixels in a grid of two columns. -/
theorem images_mosaic_layout_witness :
    ImagesCompose [[1, 2], [3, 4], [5, 6]] 1 2 1 2
      = .ok (some { data := [1, 2, 3, 4, 5, 6, 0, 0], width := 4, height := 2, channel := 1 }) ∧
    ∃ call : EncoderCall,
      ImagesCompose [[1, 2], [3, 4], [5, 6]] ((1 : Nat) : Int) ((2 : Nat) : Int) ((1 : Nat) : Int) 2
        = .ok (some call) ∧
      (∀ n i k, n < 3 → i < 1 → k < 2 * 1 →
        cellOffset (mosaicCols 3 2) 1 2 1 n i k < call.data.length ∧
        call.data[cellOffset (mosaicCols 3 2) 1 2 1 n i k]?
          = (([[1, 2], [3, 4], [5, 6]] : List (List Byte)).getD n [])[i * (2 * 1) + k]?) ∧
      (∀ p, p < call.data.length →
        (¬ ∃ n i k, n < 3 ∧ i < 1 ∧ k < 2 * 1 ∧ p = cellOffset (mosaicCols 3 2) 1 2 1 n i k) →
        call.data[p]? = some 0) :=
  ⟨by rfl, images_mosaic_layout [[1, 2], [3, 4], [5, 6]] 2 1 1 2 (by decide) (by decide)
    (by decide) (by decide) (by decide) (by decide) (by decide) (by decide) (by decide)⟩

theorem gridLoop_row_overflow (imgs : List (List Byte)) (cnt ncols H lz nrows : Nat)
    (data : List Byte) (h1 : 0 < nrows) (h2 : 0 < H) (h3 : 0 < ncols) (h4 : 0 < cnt)
    (h5 : (imgs.getD 0 []).length < lz) :
    gridLoop imgs cnt ncols H lz nrows 0 data = .error .out_of_bounds := by
  obtain ⟨r, rfl⟩ := Nat.exists_eq_succ_of_ne_zero (Nat.ne_of_gt h1)
  obtain ⟨j, rfl⟩ := Nat.exists_eq_succ_of_ne_zero (Nat.ne_of_gt h2)
  obtain ⟨m, rfl⟩ := Nat.exists_eq_succ_of_ne_zero (Nat.ne_of_gt h3)
  have hc : copyRow data 0 (imgs.getD 0 []) 0 lz = .error .out_of_bounds := by
    unfold copyRow
    rw [if_neg]
    intro h
    omega
  have hcol : colLoop imgs cnt (m + 1) (j + 1) lz 0 0 (m + 1) 0 data
      = .error .out_of_bounds := by
    simp only [colLoop, Nat.zero_mul, Nat.zero_add, Nat.add_zero, Nat.zero_mod, ge_iff_le,
      Nat.le_zero_eq, Nat.ne_of_gt h4, if_false, hc]
  have hrowl : rowLoop imgs cnt (m + 1) (j + 1) lz 0 (j + 1) 0 data = .error .out_of_bounds := by
    simp only [rowLoop, hcol]
  simp only [gridLoop, hrowl]

theorem images_row_overflow_of_length (img : List Byte) (h : img.length = 2 ^ 31) :
    ImagesCompose [img] 1 (2 ^ 30) 2 8 = .error .out_of_bounds := by
  have hval : ¬ ((0 : Int) ≥ 2 ∨ (6 : Int) < 2 ∨ (1 : Int) ≤ 0 ∨ (2 ^ 30 : Int) ≤ 0) := by
    norm_num
  have hs0 : ¬ (img.length ≠ toU32 (mulI32 (mulI32 1 (2 ^ 30)) 2)) := by
    rw [h]; exact not_not.2 rfl
  have hlz : ([img].getD 0 []).length < toSizeT (mulI32 (2 ^ 30) 2) := by
    rw [List.getD_cons_zero, h]; decide
  unfold ImagesCompose
  rw [if_neg hval]
  simp only [List.isEmpty_cons, Bool.false_eq_true, if_false, List.headD_cons, List.tail_cons,
    List.any_nil, hs0, List.length_singleton]
  rw [if_neg (by decide)]
  rw [gridLoop_row_overflow]
  · rfl
  · decide
  · decide
  · decide
  · decide
  · exact hlz

/-- C9 fails on the code: one image of `W*H*C = 2^31` bytes with `W = 2^30`, `H = 1`, `C = 2`
is a valid input, but the row length `lz = width * colorspace` overflows `int` and the first
row copy runs outside the image: no composed buffer holding the image is produced. -/
theorem images_row_length_overflow :
    (List.replicate (2 ^ 31) (0 : Byte)).length = 2 ^ 30 * 1 * 2 ∧
    ImagesCompose [List.replicate (2 ^ 31) 0] 1 (2 ^ 30) 2 8 = .error .out_of_bounds ∧
    ¬ ∃ call : EncoderCall,
      ImagesCompose [List.replicate (2 ^ 31) 0] 1 (2 ^ 30) 2 8 = .ok (some call) ∧
      call.data[cellOffset (mosaicCols 1 8) 1 (2 ^ 30) 2 0 0 0]?
        = (List.replicate (2 ^ 31) (0 : Byte))[0]? := by
  have h := images_row_overflow_of_length (List.replicate (2 ^ 31) 0) (List.length_replicate _ _)
  refine ⟨(List.length_replicate _ _).trans (by norm_num), h, ?_⟩
  rintro ⟨call, hc, -⟩
  rw [h] at hc
  exact absurd hc (by intro h'; cases h')

/-- C11 fails on the code: for two images of one pixel (`W = H = C = 1`, `max_cols = 8`) the
codec is called for a mosaic of width `2 = W * min(N, max_cols)`, but the returned Summary
records width `1`, the width of one image: `set_width(width)` and `set_height(height)` take the
dimensions of the input images, not those passed to `Image::Write`. -/
theorem images_summary_keeps_tile_dimensions :
    ImagesCompose [[1], [2]] 1 1 1 8
      = .ok (some { data := [1, 2], width := 2, height := 1, channel := 1 }) ∧
    (1 : Nat) * mosaicCols 2 8 = 2 ∧
    Images (fun data _ _ _ => (1, data)) "img" [[1], [2]] 1 1 1 8
      = .ok (some { value := [{ tag := "img", kind := SummaryKind.image (SummaryImage.mk
          1 1 1 [1, 2]) }] }) := by
  refine ⟨by rfl, by decide, by rfl⟩

/-- C12 fails on the code: with `width = height = 65536`, `colorspace = 1` the product
`height * width * colorspace` is `2^32`, which the 32-bit check reduces to `0`, so one empty
image passes the validation; `Images` does not return null but copies rows of 65536 bytes out
of the empty image. -/
theorem images_accepts_wrapped_size :
    ([] : List Byte).length ≠ 65536 * 65536 * 1 ∧
    toU32 (mulI32 (mulI32 65536 65536) 1) = ([] : List Byte).length ∧
    ImagesCompose [[]] 65536 65536 1 8 = .error .out_of_bounds ∧
    Images (fun data _ _ _ => (1, data)) "img" [[]] 65536 65536 1 8 = .error .out_of_bounds := by
  have h : ImagesCompose [[]] 65536 65536 1 8 = .error .out_of_bounds := by
    have hval : ¬ ((0 : Int) ≥ 1 ∨ (6 : Int) < 1 ∨ (65536 : Int) ≤ 0 ∨ (65536 : Int) ≤ 0) := by
      norm_num
    have hs0 : ¬ (([] : List Byte).length ≠ toU32 (mulI32 (mulI32 65536 65536) 1)) :=
      not_not.2 (by rfl)
    unfold ImagesCompose
    rw [if_neg hval]
    simp only [List.isEmpty_cons, Bool.false_eq_true, if_false, List.headD_cons, List.tail_cons,
      List.any_nil, hs0, List.length_singleton]
    rw [if_neg (by decide)]
    rw [gridLoop_row_overflow]
    · rfl
    · decide
    · decide
    · decide
    · decide
    · decide
  refine ⟨by decide, by rfl, h, ?_⟩
  unfold Images
  rw [h]

/-- C13 fails on the code: with `max_cols = 0` the column count `ncols` is `0` and the row
count `(cnt + ncols - 1) / ncols` divides by zero. -/
theorem images_zero_columns_divides_by_zero :
    ImagesCompose [[1]] 1 1 1 0 = .error .div_by_zero ∧
    Images (fun data _ _ _ => (1, data)) "img" [[1]] 1 1 1 0 = .error .div_by_zero := by
  refine ⟨by rfl, by rfl⟩

/-- C14: `Image` returns null exactly when `colorspace < 1`, `colorspace > 6`, `height <= 0`,
`width <= 0` or the encoded buffer is empty, and otherwise a Summary of one value whose image
has the given height, width, colorspace and encoded bytes. -/
theorem image_null_iff_invalid (name : String) (encoded_image : List Byte)
    (height width colorspace : Int) :
    (Image name encoded_image height width colorspace = none ↔
      (colorspace < 1 ∨ colorspace > 6 ∨ height ≤ 0 ∨ width ≤ 0 ∨ encoded_image = [])) ∧
    Image name encoded_image height width colorspace
      = if colorspace < 1 ∨ colorspace > 6 ∨ height ≤ 0 ∨ width ≤ 0 ∨ encoded_image = [] then none
        else some { value := [{ tag := name, kind := SummaryKind.image (SummaryImage.mk
          height width colorspace encoded_image) }] } := by
  have key : Image name encoded_image height width colorspace
      = if colorspace < 1 ∨ colorspace > 6 ∨ height ≤ 0 ∨ width ≤ 0 ∨ encoded_image = [] then none
        else some { value := [{ tag := name, kind := SummaryKind.image (SummaryImage.mk
          height width colorspace encoded_image) }] } := by
    unfold Image
    by_cases h1 : 0 ≥ colorspace ∨ 6 < colorspace ∨ height ≤ 0 ∨ width ≤ 0
    · have h2 : colorspace < 1 ∨ colorspace > 6 ∨ height ≤ 0 ∨ width ≤ 0 ∨ encoded_image = [] := by
        rcases h1 with h | h | h | h
        · exact Or.inl (by omega)
        · exact Or.inr (Or.inl h)
        · exact Or.inr (Or.inr (Or.inl h))
        · exact Or.inr (Or.inr (Or.inr (Or.inl h)))
      rw [if_pos h1, if_pos h2]
    · rw [if_neg h1]
      have h1' : ¬ (colorspace < 1 ∨ colorspace > 6 ∨ height ≤ 0 ∨ width ≤ 0) := by
        intro h
        apply h1
        rcases h with h | h | h | h
        · exact Or.inl (by omega)
        · exact Or.inr (Or.inl h)
        · exact Or.inr (Or.inr (Or.inl h))
        · exact Or.inr (Or.inr (Or.inr h))
      cases encoded_image with
      | nil => simp
      | cons b bs =>
        have h2 : ¬ (colorspace < 1 ∨ colorspace > 6 ∨ height ≤ 0 ∨ width ≤ 0 ∨ b :: bs = []) := by
          intro h
          apply h1'
          rcases h with h | h | h | h | h
          · exact Or.inl h
          · exact Or.inr (Or.inl h)
          · exact Or.inr (Or.inr (Or.inl h))
          · exact Or.inr (Or.inr (Or.inr h))
          · exact absurd h (List.cons_ne_nil _ _)
        rw [if_neg h2]
        simp [CleanTag]
  refine ⟨?_, key⟩
  rw [key]
  split <;> simp_all

/-! ## The two writers: lemmas -/

theorem toInt32_of_lt (n : Nat) (h : n < 2 ^ 31) : toInt32 n = (n : Int) := by
  unfold toInt32
  have h1 : n % 2 ^ 32 = n := Nat.mod_eq_of_lt (by omega)
  rw [h1, if_pos h]

theorem WriteEvent_ready (serialize : Serializer) (w : FileWriter) (event : Event)
    (hr : w.Ready = true) : w.WriteEvent serialize event = w.Write (serialize event) := by
  unfold FileWriter.WriteEvent
  simp only [FileWriter.Ready, Bool.and_eq_true] at hr
  simp [hr.1]

theorem AsyncWrite_open (serialize : Serializer) (w : AsyncFileWriter) (event : Event)
    (hs : w.stop_ = false) (ho : w.fout_.is_open = true) (hg : w.fout_.good = true) :
    w.Write serialize event = (toInt32 (serialize event).length,
      { stop_ := false
        fout_ := { is_open := true, good := true, file := w.fout_.file,
                   pending := w.fout_.pending ++ frame (serialize event) } }) := by
  obtain ⟨s, ⟨o, g, f, pd⟩⟩ := w
  simp only at hs ho hg
  subst hs ho hg
  simp [AsyncFileWriter.Write, OfStream.write, frame, List.append_assoc]

theorem AsyncWriteAll_open (serialize : Serializer) (es : List Event) (w : AsyncFileWriter)
    (hs : w.stop_ = false) (ho : w.fout_.is_open = true) (hg : w.fout_.good = true) :
    w.writeAll serialize es =
      { stop_ := false
        fout_ := { is_open := true, good := true, file := w.fout_.file,
                   pending := w.fout_.pending ++ framesOf (es.map serialize) } } := by
  induction es generalizing w with
  | nil =>
    obtain ⟨s, ⟨o, g, f, pd⟩⟩ := w
    simp only at hs ho hg
    subst hs ho hg
    simp [AsyncFileWriter.writeAll, framesOf]
  | cons e es ih =>
    rw [AsyncFileWriter.writeAll, AsyncWrite_open serialize w e hs ho hg, ih _ rfl rfl rfl]
    simp [framesOf, List.append_assoc]

/-! ## The two writers: the claims -/

/-- The two writers frame alike where the payload is not empty: a write of an event whose
serialization is not empty to an open, healthy asynchronous writer hands its stream exactly the
bytes a write to a ready synchronous writer hands its own, the four fields of the record, and
returns the same result. The synchronous writer flushes them to the file at once; the
asynchronous writer leaves them in the stream buffer, the file as it was. -/
theorem async_write_same_framing (serialize : Serializer) (event : Event) (sw : FileWriter)
    (aw : AsyncFileWriter) (hne : serialize event ≠ []) (hsync : sw.Ready = true)
    (hstop : aw.stop_ = false) (hopen : aw.fout_.is_open = true)
    (hgood : aw.fout_.good = true) :
    (aw.Write serialize event).1 = (sw.WriteEvent serialize event).1 ∧
    (aw.Write serialize event).2.fout_.content
      = aw.fout_.content ++ frame (serialize event) ∧
    (sw.WriteEvent serialize event).2.fout_.content
      = sw.fout_.content ++ frame (serialize event) ∧
    (aw.Write serialize event).2.Ready = true ∧
    (sw.WriteEvent serialize event).2.Ready = true ∧
    (sw.WriteEvent serialize event).2.fout_.pending = [] ∧
    (aw.Write serialize event).2.fout_.file = aw.fout_.file ∧
    (aw.Write serialize event).2.fout_.pending
      = aw.fout_.pending ++ frame (serialize event) := by
  rw [WriteEvent_ready serialize sw event hsync, Write_ready sw _ hne hsync,
    AsyncWrite_open serialize aw event hstop hopen hgood]
  simp [OfStream.content, AsyncFileWriter.Ready, FileWriter.Ready, List.append_assoc]

/-- The two writers on an event serialized as `"ev"`, both freshly opened. -/
theorem async_write_same_framing_witness :
    ((AsyncFileWriter.new [] false true).Write (fun _ => ascii "ev") ⟨0, none, ⟨[]⟩⟩).1
      = ((FileWriter.new [] false true).WriteEvent (fun _ => ascii "ev") ⟨0, none, ⟨[]⟩⟩).1 ∧
    ((AsyncFileWriter.new [] false true).Write (fun _ => ascii "ev") ⟨0, none, ⟨[]⟩⟩).2.fout_.content
      = ((FileWriter.new [] false true).WriteEvent (fun _ => ascii "ev")
          ⟨0, none, ⟨[]⟩⟩).2.fout_.content := by
  obtain ⟨h1, h2, h3, -, -⟩ := async_write_same_framing (fun _ => ascii "ev") ⟨0, none, ⟨[]⟩⟩
    (FileWriter.new [] false true) (AsyncFileWriter.new [] false true) (by decide) (by decide)
    (by decide) (by decide) (by decide)
  refine ⟨h1, ?_⟩
  rw [h2, h3]
  rfl

/-- C15 fails on the code: for an event whose serialization is empty (a default `Event`) the
synchronous writer returns `-1` and writes nothing, while the asynchronous writer, whose
`Write` lacks the test `data.empty()`, returns `0` and puts a record of 16 bytes on its
stream. -/
theorem async_write_differs_on_empty_payload :
    (FileWriter.new [] false true).WriteEvent (fun _ => []) ⟨0, none, ⟨[]⟩⟩
      = (-1, FileWriter.new [] false true) ∧
    ((AsyncFileWriter.new [] false true).Write (fun _ => []) ⟨0, none, ⟨[]⟩⟩).1 = 0 ∧
    ((AsyncFileWriter.new [] false true).Write (fun _ => [])
      ⟨0, none, ⟨[]⟩⟩).2.fout_.content.length = 16 := by
  refine ⟨by decide, by decide, by decide⟩

/-- C16 fails on the code: on a stream that is open but no longer healthy both writers return
the payload length `2`, a success, although no byte reaches the stream. -/
theorem write_reports_success_on_failed_stream :
    (FileWriter.mk ⟨true, false, ascii "old", []⟩).Write (ascii "ab")
      = (2, FileWriter.mk ⟨true, false, ascii "old", []⟩) ∧
    (AsyncFileWriter.mk false ⟨true, false, ascii "old", []⟩).Write (fun _ => ascii "ab")
        ⟨0, none, ⟨[]⟩⟩
      = (2, AsyncFileWriter.mk false ⟨true, false, ascii "old", []⟩) := by
  refine ⟨by decide, by decide⟩

/-- C17 fails on the code: a synchronous writer whose stream is open but no longer healthy is
not ready, yet writing an event returns the payload length `2` instead of a negative value
(the file is left unchanged); `Write` tests `is_open()` only, `Ready` also tests `good()`. -/
theorem write_event_on_unready_writer_returns_length :
    (FileWriter.mk ⟨true, false, ascii "old", []⟩).Ready = false ∧
    ((FileWriter.mk ⟨true, false, ascii "old", []⟩).WriteEvent (fun _ => ascii "ab")
      ⟨0, none, ⟨[]⟩⟩).1 = 2 ∧
    ((FileWriter.mk ⟨true, false, ascii "old", []⟩).WriteEvent (fun _ => ascii "ab")
      ⟨0, none, ⟨[]⟩⟩).2.fout_.content = ascii "old" := by
  refine ⟨by decide, by decide, by decide⟩

/-- C18, amended: for every non-empty payload of fewer than `2^31` bytes written to a ready
synchronous writer or to an open, healthy asynchronous writer, the value returned is the length
of the payload, while the call puts 16 bytes more than that on the stream. -/
theorem write_returns_payload_length (serialize : Serializer) (event : Event) (sw : FileWriter)
    (aw : AsyncFileWriter) (hne : serialize event ≠ [])
    (hsize : (serialize event).length < 2 ^ 31) (hsync : sw.Ready = true)
    (hstop : aw.stop_ = false) (hopen : aw.fout_.is_open = true)
    (hgood : aw.fout_.good = true) :
    (sw.Write (serialize event)).1 = ((serialize event).length : Int) ∧
    (sw.Write (serialize event)).2.fout_.content.length
      = sw.fout_.content.length + ((serialize event).length + 16) ∧
    (sw.WriteEvent serialize event).1 = ((serialize event).length : Int) ∧
    (aw.Write serialize event).1 = ((serialize event).length : Int) ∧
    (aw.Write serialize event).2.fout_.content.length
      = aw.fout_.content.length + ((serialize event).length + 16) := by
  rw [WriteEvent_ready serialize sw event hsync, Write_ready sw _ hne hsync,
    AsyncWrite_open serialize aw event hstop hopen hgood]
  refine ⟨toInt32_of_lt _ hsize, ?_, toInt32_of_lt _ hsize, toInt32_of_lt _ hsize, ?_⟩
  · simp only [OfStream.content, List.length_append, frame_length, List.append_nil,
      List.length_nil]
  · simp only [OfStream.content, List.length_append, frame_length]
    omega

/-- Witness of C18: an event serialized as `"ev"` written to two fresh writers. -/
theorem write_returns_payload_length_witness :
    ((FileWriter.new [] false true).Write (ascii "ev")).1 = 2 ∧
    ((FileWriter.new [] false true).Write (ascii "ev")).2.fout_.content.length = 0 + (2 + 16) ∧
    ((AsyncFileWriter.new [] false true).Write (fun _ => ascii "ev") ⟨0, none, ⟨[]⟩⟩).1 = 2 := by
  obtain ⟨h1, h2, -, h4, -⟩ := write_returns_payload_length (fun _ => ascii "ev")
    ⟨0, none, ⟨[]⟩⟩ (FileWriter.new [] false true) (AsyncFileWriter.new [] false true)
    (by decide) (by decide) (by decide) (by decide) (by decide) (by decide)
  exact ⟨h1, h2, h4⟩

/-- C18 fails as stated: writing the payload `"ab"` to a fresh writer returns `2` while the
file grows by `18` bytes. -/
theorem write_result_is_not_appended_size :
    ((FileWriter.new [] false true).Write (ascii "ab")).1 = 2 ∧
    ((FileWriter.new [] false true).Write (ascii "ab")).2.fout_.file.length
      = (FileWriter.new [] false true).fout_.file.length + 18 := by
  refine ⟨by decide, by decide⟩

/-- C19: after any sequence of writes to an open, healthy asynchronous writer, `Close` and the
destructor both leave in the file what the stream held before followed by the complete records
of all the writes, in order, with nothing left in the buffer; read back from an empty file the
records give the payloads of the writes. -/
theorem async_shutdown_keeps_records (serialize : Serializer) (es : List Event)
    (aw : AsyncFileWriter) (hstop : aw.stop_ = false) (hopen : aw.fout_.is_open = true)
    (hgood : aw.fout_.good = true) :
    ((aw.writeAll serialize es).Close).2.fout_.file
      = aw.fout_.content ++ framesOf (es.map serialize) ∧
    ((aw.writeAll serialize es).Close).2.fout_.pending = [] ∧
    ((aw.writeAll serialize es).Close).2.fout_.is_open = false ∧
    (aw.writeAll serialize es).destroy.fout_.file
      = aw.fout_.content ++ framesOf (es.map serialize) ∧
    (aw.writeAll serialize es).destroy.fout_.pending = [] ∧
    (aw.writeAll serialize es).destroy.fout_.is_open = false ∧
    (aw.fout_.content = [] → (∀ e ∈ es, (serialize e).length < 2 ^ 64) →
      readRecords ((aw.writeAll serialize es).Close).2.fout_.file = some (es.map serialize) ∧
      readRecords (aw.writeAll serialize es).destroy.fout_.file = some (es.map serialize)) := by
  have hc : ((aw.writeAll serialize es).Close).2.fout_.file
      = aw.fout_.content ++ framesOf (es.map serialize) := by
    rw [AsyncWriteAll_open serialize es aw hstop hopen hgood]
    simp [AsyncFileWriter.Close, OfStream.flush, OfStream.close, OfStream.content,
      List.append_assoc]
  have hd : (aw.writeAll serialize es).destroy.fout_.file
      = aw.fout_.content ++ framesOf (es.map serialize) := by
    rw [AsyncWriteAll_open serialize es aw hstop hopen hgood]
    simp [AsyncFileWriter.destroy, OfStream.close, OfStream.content, List.append_assoc]
  refine ⟨hc, ?_, ?_, hd, ?_, ?_, ?_⟩
  · rw [AsyncWriteAll_open serialize es aw hstop hopen hgood]
    simp [AsyncFileWriter.Close, OfStream.flush, OfStream.close]
  · rw [AsyncWriteAll_open serialize es aw hstop hopen hgood]
    simp [AsyncFileWriter.Close, OfStream.flush, OfStream.close]
  · rw [AsyncWriteAll_open serialize es aw hstop hopen hgood]
    simp [AsyncFileWriter.destroy, OfStream.close]
  · rw [AsyncWriteAll_open serialize es aw hstop hopen hgood]
    simp [AsyncFileWriter.destroy, OfStream.close]
  · intro h0 hsz
    rw [hc, hd, h0, List.nil_append]
    have := parseRecords_framesOf (es.map serialize) _ (framesOf_length_ge (es.map serialize))
      (by
        intro p hp
        obtain ⟨e, he, rfl⟩ := List.mem_map.1 hp
        exact hsz e he)
    exact ⟨this, this⟩

/-- Witness of C19: two events written to a fresh asynchronous writer, then the shutdown. -/
theorem async_shutdown_keeps_records_witness :
    readRecords (((AsyncFileWriter.new [] false true).writeAll
        (fun e => if e.step = none then ascii "ev" else ascii "step")
        [⟨0, none, ⟨[]⟩⟩, ⟨1, some 1, ⟨[]⟩⟩]).Close).2.fout_.file
      = some [ascii "ev", ascii "step"] ∧
    readRecords ((AsyncFileWriter.new [] false true).writeAll
        (fun e => if e.step = none then ascii "ev" else ascii "step")
        [⟨0, none, ⟨[]⟩⟩, ⟨1, some 1, ⟨[]⟩⟩]).destroy.fout_.file
      = some [ascii "ev", ascii "step"] := by
  have h := (async_shutdown_keeps_records
    (fun e => if e.step = none then ascii "ev" else ascii "step")
    [⟨0, none, ⟨[]⟩⟩, ⟨1, some 1, ⟨[]⟩⟩] (AsyncFileWriter.new [] false true)
    (by decide) (by decide) (by decide)).2.2.2.2.2.2 (by decide) (by
      intro e he
      simp only [List.mem_cons, List.mem_singleton, List.not_mem_nil, or_false] at he
      rcases he with rfl | rfl <;> decide)
  exact h

/-! ## Grouped scalars: lemmas -/

theorem scalarsLoop_eq_run {σ : Type} (P : Host σ) (main_tag : String) (global_step : Int)
    (items : List (String × ℚ)) (ret : Int) (r : Recorder) (fs : σ) :
    Recorder.scalarsLoop P main_tag global_step items ret r fs
      = ((scalarsRun P main_tag global_step items r fs).1.foldl scalarsAccumulate ret,
         (scalarsRun P main_tag global_step items r fs).2) := by
  induction items generalizing ret r fs with
  | nil => rfl
  | cons item rest ih =>
    rw [Recorder.scalarsLoop, ih]
    rfl

theorem scalarsRun_length {σ : Type} (P : Host σ) (main_tag : String) (global_step : Int)
    (items : List (String × ℚ)) (r : Recorder) (fs : σ) :
    (scalarsRun P main_tag global_step items r fs).1.length = items.length := by
  induction items generalizing r fs with
  | nil => rfl
  | cons item rest ih =>
    rw [scalarsRun]
    simp only [List.length_cons, ih]

theorem accumulate_failed (tr : List (Option Int)) : tr.foldl scalarsAccumulate (-1) = -1 := by
  induction tr with
  | nil => rfl
  | cons o tr ih =>
    rw [List.foldl_cons]
    have : scalarsAccumulate (-1) o = -1 := by
      cases o with
      | none => rfl
      | some c => simp [scalarsAccumulate]
    rw [this, ih]

theorem accumulate_of_failure (tr : List (Option Int)) (ret : Int)
    (h : ∃ cnt ∈ tr, scalarFailed cnt) : tr.foldl scalarsAccumulate ret = -1 := by
  induction tr generalizing ret with
  | nil => simp at h
  | cons o tr ih =>
    rw [List.foldl_cons]
    obtain ⟨cnt, hmem, hf⟩ := h
    rcases List.mem_cons.1 hmem with rfl | hmem
    · have : scalarsAccumulate ret cnt = -1 := by
        cases cnt with
        | none => rfl
        | some c =>
          have hc : c < 0 := hf
          simp [scalarsAccumulate, hc]
      rw [this, accumulate_failed]
    · exact ih _ ⟨cnt, hmem, hf⟩

theorem wrapI32_of_range (x : Int) (h0 : 0 ≤ x) (h1 : x < 2 ^ 31) : wrapI32 x = x := by
  unfold wrapI32
  omega

theorem accumulate_of_success (tr : List (Option Int)) (ret : Int)
    (h : ¬ ∃ cnt ∈ tr, scalarFailed cnt) (h0 : 0 ≤ ret) (hsum : ret + countsTotal tr < 2 ^ 31) :
    tr.foldl scalarsAccumulate ret = ret + countsTotal tr := by
  induction tr generalizing ret with
  | nil => simp [countsTotal]
  | cons o tr ih =>
    have ho : ¬ scalarFailed o := fun hf => h ⟨o, List.mem_cons_self _ _, hf⟩
    have htr : ¬ ∃ cnt ∈ tr, scalarFailed cnt :=
      fun ⟨c, hc, hf⟩ => h ⟨c, List.mem_cons_of_mem _ hc, hf⟩
    cases o with
    | none => exact absurd trivial ho
    | some c =>
      have hc : 0 ≤ c := by
        have : ¬ c < 0 := ho
        omega
      have hct : countsTotal (some c :: tr) = c + countsTotal tr := by
        simp [countsTotal, max_eq_left hc]
      have hnn : 0 ≤ countsTotal tr := by
        unfold countsTotal
        apply List.sum_nonneg
        intro x hx
        obtain ⟨o, -, rfl⟩ := List.mem_map.1 hx
        cases o with
        | none => exact le_refl _
        | some d => exact le_max_right _ _
      rw [hct] at hsum
      have hstep : scalarsAccumulate ret (some c) = ret + c := by
        have h1 : ¬ (c < 0 ∨ ret < 0) := by omega
        simp only [scalarsAccumulate, h1, if_false]
        exact wrapI32_of_range _ (by omega) (by omega)
      rw [List.foldl_cons, hstep, ih _ htr (by omega) (by omega), hct]
      ring

theorem countsTotal_nonneg (tr : List (Option Int)) : 0 ≤ countsTotal tr := by
  unfold countsTotal
  apply List.sum_nonneg
  intro x hx
  obtain ⟨o, -, rfl⟩ := List.mem_map.1 hx
  cases o with
  | none => exact le_refl _
  | some d => exact le_max_right _ _

/-! ## Grouped scalars: the claim -/

/-- C20, amended: `AddScalars` processes every sub-tag whatever the results of the earlier
ones (its final state is that of processing them all, and each has a result); it returns `-1`
whenever one sub-tag has no writer or a negative write result; and when the byte counts add up
to less than `2^31`, the range of the `int` they are added in, it returns `-1` only then and
otherwise their sum. -/
theorem add_scalars_aggregates {σ : Type} (P : Host σ) (r : Recorder) (fs : σ)
    (main_tag : String) (tag_values : List (String × ℚ)) (global_step : Int) :
    (scalarsRun P main_tag global_step tag_values r fs).1.length = tag_values.length ∧
    (r.AddScalars P fs main_tag tag_values global_step).2
      = (scalarsRun P main_tag global_step tag_values r fs).2 ∧
    ((∃ cnt ∈ (scalarsRun P main_tag global_step tag_values r fs).1, scalarFailed cnt) →
      (r.AddScalars P fs main_tag tag_values global_step).1 = -1) ∧
    (countsTotal (scalarsRun P main_tag global_step tag_values r fs).1 < 2 ^ 31 →
      ((r.AddScalars P fs main_tag tag_values global_step).1 = -1 ↔
        ∃ cnt ∈ (scalarsRun P main_tag global_step tag_values r fs).1, scalarFailed cnt) ∧
      ((¬ ∃ cnt ∈ (scalarsRun P main_tag global_step tag_values r fs).1, scalarFailed cnt) →
        (r.AddScalars P fs main_tag tag_values global_step).1
          = countsTotal (scalarsRun P main_tag global_step tag_values r fs).1)) := by
  unfold Recorder.AddScalars
  rw [scalarsLoop_eq_run]
  refine ⟨scalarsRun_length _ _ _ _ _ _, rfl, fun h => accumulate_of_failure _ 0 h,
    fun hsum => ⟨?_, ?_⟩⟩
  · constructor
    · intro h
      by_contra hno
      have := accumulate_of_success _ 0 hno (le_refl _) (by simpa using hsum)
      simp only at h
      rw [this] at h
      have := countsTotal_nonneg (scalarsRun P main_tag global_step tag_values r fs).1
      omega
    · intro h
      exact accumulate_of_failure _ 0 h
  · intro hno
    have := accumulate_of_success _ 0 hno (le_refl _) (by simpa using hsum)
    simp only
    rw [this]
    ring

theorem plain_run_value :
    (scalarsRun (plainHost (ascii "ev")) "loss" 7 [("x", 1), ("y", 2)]
        ⟨"runs", none, []⟩ ()).1 = [some 2, some 2] := by decide

theorem gap_run_value :
    (scalarsRun (gapHost "runs/loss_x" (ascii "ev")) "loss" 7 [("x", 1), ("y", 2)]
        ⟨"runs", none, []⟩ ()).1 = [none, some 2] := by decide

/-- Witness of C20: two sub-tags, each written through a new writer with a 2-byte event, give
two results of 2 and the call returns their sum 4; when the directory of the first cannot be
made, the second is still written and the call returns `-1`. -/
theorem add_scalars_aggregates_witness :
    (countsTotal (scalarsRun (plainHost (ascii "ev")) "loss" 7 [("x", 1), ("y", 2)]
        ⟨"runs", none, []⟩ ()).1 < 2 ^ 31 ∧
      (¬ ∃ cnt ∈ (scalarsRun (plainHost (ascii "ev")) "loss" 7 [("x", 1), ("y", 2)]
          ⟨"runs", none, []⟩ ()).1, scalarFailed cnt) ∧
      (Recorder.AddScalars (plainHost (ascii "ev")) ⟨"runs", none, []⟩ () "loss"
          [("x", 1), ("y", 2)] 7).1
        = countsTotal (scalarsRun (plainHost (ascii "ev")) "loss" 7 [("x", 1), ("y", 2)]
            ⟨"runs", none, []⟩ ()).1 ∧
      countsTotal (scalarsRun (plainHost (ascii "ev")) "loss" 7 [("x", 1), ("y", 2)]
        ⟨"runs", none, []⟩ ()).1 = 4) ∧
    ((∃ cnt ∈ (scalarsRun (gapHost "runs/loss_x" (ascii "ev")) "loss" 7 [("x", 1), ("y", 2)]
          ⟨"runs", none, []⟩ ()).1, scalarFailed cnt) ∧
      (scalarsRun (gapHost "runs/loss_x" (ascii "ev")) "loss" 7 [("x", 1), ("y", 2)]
          ⟨"runs", none, []⟩ ()).1 = [none, some 2] ∧
      (Recorder.AddScalars (gapHost "runs/loss_x" (ascii "ev")) ⟨"runs", none, []⟩ () "loss"
          [("x", 1), ("y", 2)] 7).1 = -1) := by
  have hno : ¬ ∃ cnt ∈ (scalarsRun (plainHost (ascii "ev")) "loss" 7 [("x", 1), ("y", 2)]
      ⟨"runs", none, []⟩ ()).1, scalarFailed cnt := by
    rw [plain_run_value]
    simp [scalarFailed]
  have hfail : ∃ cnt ∈ (scalarsRun (gapHost "runs/loss_x" (ascii "ev")) "loss" 7
      [("x", 1), ("y", 2)] ⟨"runs", none, []⟩ ()).1, scalarFailed cnt := by
    rw [gap_run_value]
    exact ⟨none, List.mem_cons_self _ _, trivial⟩
  exact ⟨⟨by decide, hno,
      ((add_scalars_aggregates (plainHost (ascii "ev")) ⟨"runs", none, []⟩ () "loss"
        [("x", 1), ("y", 2)] 7).2.2.2 (by decide)).2 hno, by decide⟩,
    ⟨hfail, gap_run_value,
      (add_scalars_aggregates (gapHost "runs/loss_x" (ascii "ev")) ⟨"runs", none, []⟩ () "loss"
        [("x", 1), ("y", 2)] 7).2.2.1 hfail⟩⟩

theorem plain_result_value :
    (Recorder.AddScalars (plainHost (ascii "ev")) ⟨"runs", none, []⟩ () "loss"
        [("x", 1), ("y", 2)] 7).1 = 4 := by decide
theorem lookup_append_new (ws : List (String × Writer)) (key : String) (w : Writer)
    (h : ws.lookup key = none) : (ws ++ [(key, w)]).lookup key = some w := by
  induction ws with
  | nil => simp [List.lookup]
  | cons kv ws ih =>
    obtain ⟨k, v⟩ := kv
    rw [List.cons_append]
    by_cases hk : key = k
    · subst hk
      simp [List.lookup] at h
    · have hb : (key == k) = false := by simpa using hk
      rw [List.lookup_cons, hb] at h ⊢
      exact ih h

theorem lookup_other (key other : String) (w w2 : Writer) (h : other ≠ key) :
    List.lookup other (setWriter ([] ++ [(key, w)]) key w2) = none := by
  have hb : (other == key) = false := by simpa using h
  have hs : setWriter ([] ++ [(key, w)]) key w2 = [(key, w2)] := by
    simp only [setWriter, List.nil_append, List.map_cons, List.map_nil, if_true]
  rw [hs, List.lookup_cons, hb]
  rfl

theorem plainHost_write (big : List Byte) (hne : big ≠ []) (ev : Event) :
    (FileWriter.new [] false true).WriteEvent (fun _ => big) ev
      = (toInt32 big.length, FileWriter.mk (OfStream.mk true true (frame big) [])) := by
  have hr : (FileWriter.mk ⟨true, true, [], []⟩).Ready = true := by decide
  rw [FileWriter_new_fresh]
  rw [WriteEvent_ready (fun _ => big) ⟨⟨true, true, [], []⟩⟩ ev hr]
  rw [Write_ready ⟨⟨true, true, [], []⟩⟩ big hne hr]
  exact congrArg (fun f => (toInt32 big.length, FileWriter.mk (OfStream.mk true true f [])))
    (List.nil_append (frame big))

theorem plainHost_item (big : List Byte) (hne : big ≠ []) (main_tag : String)
    (global_step : Int) (r : Recorder) (item : String × ℚ)
    (hfresh : r.writers_.lookup (r.log_dir_ ++ "/" ++ Replace main_tag '/' '_' ++ "_" ++ item.1)
      = none) :
    (Recorder.scalarsItem (plainHost big) main_tag global_step r () item).1
      = some (toInt32 big.length) ∧
    (Recorder.scalarsItem (plainHost big) main_tag global_step r () item).2.1.log_dir_
      = r.log_dir_ ∧
    (Recorder.scalarsItem (plainHost big) main_tag global_step r () item).2.1.writers_
      = setWriter (r.writers_ ++
          [(r.log_dir_ ++ "/" ++ Replace main_tag '/' '_' ++ "_" ++ item.1,
            Writer.sync (FileWriter.new [] false true))])
          (r.log_dir_ ++ "/" ++ Replace main_tag '/' '_' ++ "_" ++ item.1)
          (Writer.sync (FileWriter.mk (OfStream.mk true true (frame big) []))) := by
  have hl := lookup_append_new r.writers_ _ (Writer.sync (FileWriter.new [] false true)) hfresh
  simp only [Recorder.scalarsItem, Recorder.find, hfresh, plainHost, Option.isSome_none,
    Bool.false_eq_true, if_false, if_true, Bool.not_true, and_self, hl, AddEvent, Writer.Write,
    plainHost_write big hne]

theorem add_scalars_continues_after_failure :
    (scalarsRun (gapHost "runs/loss_x" (ascii "ev")) "loss" 7 [("x", 1), ("y", 2)]
        ⟨"runs", none, []⟩ ()).1 = [none, some 2] ∧
    (Recorder.AddScalars (gapHost "runs/loss_x" (ascii "ev")) ⟨"runs", none, []⟩ () "loss"
        [("x", 1), ("y", 2)] 7).1 = -1 ∧
    (Recorder.AddScalars (gapHost "runs/loss_x" (ascii "ev")) ⟨"runs", none, []⟩ () "loss"
        [("x", 1), ("y", 2)] 7).2.1.writers_
      = [("runs/loss_y", Writer.sync (FileWriter.mk
          (OfStream.mk true true (frame (ascii "ev")) [])))] := by
  decide

/-! ## Derived directories and tags: lemmas -/

theorem Replace_of_leading (txt : String) (old_value new_value : Char)
    (h : txt.data.head? = some old_value) : Replace txt old_value new_value = txt := by
  unfold Replace
  rw [if_neg (not_not.2 h)]

theorem Replace_of_not_leading (txt : String) (old_value new_value : Char)
    (h : txt.data.head? ≠ some old_value) (hne : new_value ≠ old_value) :
    (Replace txt old_value new_value).data
        = txt.data.map (fun c => if c = old_value then new_value else c) ∧
    old_value ∉ (Replace txt old_value new_value).data := by
  unfold Replace
  rw [if_pos h]
  refine ⟨rfl, ?_⟩
  intro hmem
  obtain ⟨c, -, hc⟩ := List.mem_map.1 hmem
  by_cases hco : c = old_value
  · rw [if_pos hco] at hc
    exact hne hc
  · rw [if_neg hco] at hc
    exact hco hc

/-! ## Derived directories and tags: the claims -/

/-- C21 fails on the code: for a main tag that starts with a slash `Replace` returns the tag
unchanged (`txt.find('/')` is `0`, which the test takes for false), so the derived directory of
main tag `/loss` and sub-tag `x` under `runs` is `runs//loss_x` and that of `/a/b` keeps both
slashes; a slash further on is replaced, as in `a/b`. -/
theorem replace_keeps_leading_slash :
    Replace "/loss" '/' '_' = "/loss" ∧
    Replace "/a/b" '/' '_' = "/a/b" ∧
    Replace "a/b" '/' '_' = "a_b" ∧
    '/' ∈ (Replace "/loss" '/' '_').data ∧
    Recorder.scalarsDir ⟨"runs", none, []⟩ "/loss" "x" = "runs//loss_x" ∧
    (∀ (r : Recorder) (sub_tag : String),
      r.scalarsDir "/loss" sub_tag = r.log_dir_ ++ "/" ++ "/loss" ++ "_" ++ sub_tag) ∧
    ((Recorder.AddScalars (plainHost (ascii "ev")) ⟨"runs", none, []⟩ () "/loss"
        [("x", 1)] 7).2.1.writers_.map (fun kv => kv.1)) = ["runs//loss_x"] := by
  refine ⟨by decide, by decide, by decide, by decide, by decide, fun r sub_tag => ?_, by decide⟩
  unfold Recorder.scalarsDir
  rw [Replace_of_leading "/loss" '/' '_' (by decide)]

/-! ## The root writer: lemmas -/

theorem AddEvent_event (serialize : Serializer) (wall_time : ℚ) (writer : Writer)
    (summary : Summary) (step : Int) :
    AddEvent serialize wall_time writer summary step
      = writer.Write serialize ⟨wall_time, if step ≥ 0 then some step else none, summary⟩ := rfl

theorem setWriter_single (key : String) (w w2 : Writer) :
    setWriter [(key, w)] key w2 = [(key, w2)] := by
  simp [setWriter]

theorem AddScalar_single {σ : Type} (P : Host σ) (fs : σ) (dir : String) (w : Writer)
    (tag : String) (value : ℚ) (step : Int) :
    Recorder.AddScalar P ⟨dir, some dir, [(dir, w)]⟩ fs tag value step
      = ((w.Write P.serialize ⟨P.Timestamp fs,
            if wrapI32 step ≥ 0 then some (wrapI32 step) else none, Scalar tag value⟩).1,
         ⟨dir, some dir, [(dir, (w.Write P.serialize ⟨P.Timestamp fs,
            if wrapI32 step ≥ 0 then some (wrapI32 step) else none, Scalar tag value⟩).2)]⟩) := by
  have hroot : Recorder.root ⟨dir, some dir, [(dir, w)]⟩ = some w := by
    simp [Recorder.root, List.lookup]
  unfold Recorder.AddScalar
  rw [hroot]
  simp only [Recorder.rootWrite, AddEvent_event, setWriter_single]

/-! ## The root writer: the claims -/

/-- C23 fails on the code: `AddEvent` takes the step as a 32-bit `int`, so a 64-bit step is
truncated before the test `step >= 0`. A recorder whose root writer is `w` hands the writer an
event with step `0` for the step `2^32`, an event without step for the step `2^31`, and an
event with step `0` for the negative step `-2^32`. -/
theorem add_scalar_step_is_truncated {σ : Type} (P : Host σ) (fs : σ) (w : Writer)
    (tag : String) (value : ℚ) :
    Recorder.AddScalar P ⟨"runs", some "runs", [("runs", w)]⟩ fs tag value 4294967296
      = ((w.Write P.serialize ⟨P.Timestamp fs, some 0, Scalar tag value⟩).1,
         ⟨"runs", some "runs",
          [("runs", (w.Write P.serialize ⟨P.Timestamp fs, some 0, Scalar tag value⟩).2)]⟩) ∧
    Recorder.AddScalar P ⟨"runs", some "runs", [("runs", w)]⟩ fs tag value 2147483648
      = ((w.Write P.serialize ⟨P.Timestamp fs, none, Scalar tag value⟩).1,
         ⟨"runs", some "runs",
          [("runs", (w.Write P.serialize ⟨P.Timestamp fs, none, Scalar tag value⟩).2)]⟩) ∧
    Recorder.AddScalar P ⟨"runs", some "runs", [("runs", w)]⟩ fs tag value (-4294967296)
      = ((w.Write P.serialize ⟨P.Timestamp fs, some 0, Scalar tag value⟩).1,
         ⟨"runs", some "runs",
          [("runs", (w.Write P.serialize ⟨P.Timestamp fs, some 0, Scalar tag value⟩).2)]⟩) := by
  have h1 : wrapI32 4294967296 = 0 := by decide
  have h2 : wrapI32 2147483648 = -2147483648 := by decide
  have h3 : wrapI32 (-4294967296) = 0 := by decide
  refine ⟨?_, ?_, ?_⟩
  · rw [AddScalar_single, h1]
    rfl
  · rw [AddScalar_single, h2]
    rfl
  · rw [AddScalar_single, h3]
    rfl

theorem step_kept_in_int_range (s : Int) (h0 : 0 ≤ s) (h1 : s < 2 ^ 31) :
    (if wrapI32 s ≥ 0 then some (wrapI32 s) else none) = some s := by
  rw [wrapI32_of_range s h0 h1, if_pos h0]

theorem step_dropped_in_int_range (s : Int) (h0 : s < 0) (h1 : -2 ^ 31 ≤ s) :
    (if wrapI32 s ≥ 0 then some (wrapI32 s) else none) = none := by
  have h : wrapI32 s = s := by
    unfold wrapI32
    omega
  rw [h, if_neg (by omega)]

/-- C24: each of `AddHistogram`, `AddHistogramRaw`, `AddImage`, `AddImages`, `AddAudio` and
`AddText` returns `-1` and leaves the recorder with all its writers as it was when the root
writer is absent, and so do `AddImage`, `AddImages` and `AddAudio` when the encoder returns
null (the encoders of the other three never return null). -/
theorem add_methods_fail_without_writing {σ : Type} (P : Host σ) (encode : Encoder)
    (r : Recorder) (fs : σ) (tag : String) (values : List F64)
    (min max num sum sum_squares : F64) (bucket_limits bucket_counts : List F64)
    (img : List Byte) (imgs : List (List Byte))
    (md : ImageMetadata) (audio : List Byte) (amd : AudioMetadata) (text : String)
    (global_step : Int) :
    (r.root = none →
      r.AddHistogram P fs tag values global_step = .ok (-1, r) ∧
      r.AddHistogramRaw P fs tag min max num sum sum_squares bucket_limits bucket_counts
        global_step = (-1, r) ∧
      r.AddImage P fs tag img md global_step = (-1, r) ∧
      r.AddImages P encode fs tag imgs md global_step = .ok (-1, r) ∧
      r.AddAudio P fs tag audio amd global_step = (-1, r) ∧
      r.AddText P fs tag text global_step = (-1, r)) ∧
    (Image tag img md.height md.width md.colorspace = none →
      r.AddImage P fs tag img md global_step = (-1, r)) ∧
    (Images encode tag imgs md.height md.width md.colorspace = .ok none →
      r.AddImages P encode fs tag imgs md global_step = .ok (-1, r)) ∧
    (Audio tag audio amd.sample_rate amd.num_channels amd.length_frames amd.content_type = none →
      r.AddAudio P fs tag audio amd global_step = (-1, r)) := by
  refine ⟨fun h => ?_, fun h => ?_, fun h => ?_, fun h => ?_⟩
  · simp only [Recorder.AddHistogram, Recorder.AddHistogramRaw, Recorder.AddImage,
      Recorder.AddImages, Recorder.AddAudio, Recorder.AddText, h, and_self]
  · unfold Recorder.AddImage
    rw [h]
    cases r.root <;> rfl
  · unfold Recorder.AddImages
    rw [h]
    cases r.root <;> rfl
  · unfold Recorder.AddAudio
    rw [h]
    cases r.root <;> rfl

/-- Witness of C24: a recorder without root writer, and a recorder with a root writer given an
empty image, an empty list of images and an empty audio buffer. -/
theorem add_methods_fail_without_writing_witness :
    Recorder.AddText (plainHost (ascii "ev")) ⟨"runs", none, []⟩ () "t" "hello" 1
      = (-1, ⟨"runs", none, []⟩) ∧
    Recorder.AddHistogramRaw (plainHost (ascii "ev")) ⟨"runs", none, []⟩ () "t" 0 0 0 0 0 [] [] 1
      = (-1, ⟨"runs", none, []⟩) ∧
    Recorder.AddImage (plainHost (ascii "ev"))
        ⟨"runs", some "runs", [("runs", Writer.sync (FileWriter.new [] false true))]⟩ () "t" []
        ⟨1, 1, 1⟩ 1
      = (-1, ⟨"runs", some "runs", [("runs", Writer.sync (FileWriter.new [] false true))]⟩) ∧
    Recorder.AddImages (plainHost (ascii "ev")) (fun data _ _ _ => (1, data))
        ⟨"runs", some "runs", [("runs", Writer.sync (FileWriter.new [] false true))]⟩ () "t" []
        ⟨1, 1, 1⟩ 1
      = .ok (-1, ⟨"runs", some "runs",
          [("runs", Writer.sync (FileWriter.new [] false true))]⟩) ∧
    Recorder.AddAudio (plainHost (ascii "ev"))
        ⟨"runs", some "runs", [("runs", Writer.sync (FileWriter.new [] false true))]⟩ () "t" []
        ⟨1, 1, 44100, "audio/wav"⟩ 1
      = (-1, ⟨"runs", some "runs", [("runs", Writer.sync (FileWriter.new [] false true))]⟩) :=
  ⟨((add_methods_fail_without_writing (plainHost (ascii "ev")) (fun data _ _ _ => (1, data))
      ⟨"runs", none, []⟩ () "t" [] 0 0 0 0 0 [] [] [] [] ⟨1, 1, 1⟩ []
      ⟨1, 1, 44100, "audio/wav"⟩ "hello" 1).1 (by rfl)).2.2.2.2.2,
   ((add_methods_fail_without_writing (plainHost (ascii "ev")) (fun data _ _ _ => (1, data))
      ⟨"runs", none, []⟩ () "t" [] 0 0 0 0 0 [] [] [] [] ⟨1, 1, 1⟩ []
      ⟨1, 1, 44100, "audio/wav"⟩ "hello" 1).1 (by rfl)).2.1,
   (add_methods_fail_without_writing (plainHost (ascii "ev")) (fun data _ _ _ => (1, data))
      ⟨"runs", some "runs", [("runs", Writer.sync (FileWriter.new [] false true))]⟩ () "t" []
      0 0 0 0 0 [] [] [] [] ⟨1, 1, 1⟩ [] ⟨1, 1, 44100, "audio/wav"⟩ "hello" 1).2.1 (by rfl),
   (add_methods_fail_without_writing (plainHost (ascii "ev")) (fun data _ _ _ => (1, data))
      ⟨"runs", some "runs", [("runs", Writer.sync (FileWriter.new [] false true))]⟩ () "t" []
      0 0 0 0 0 [] [] [] [] ⟨1, 1, 1⟩ [] ⟨1, 1, 44100, "audio/wav"⟩ "hello" 1).2.2.1 (by rfl),
   (add_methods_fail_without_writing (plainHost (ascii "ev")) (fun data _ _ _ => (1, data))
      ⟨"runs", some "runs", [("runs", Writer.sync (FileWriter.new [] false true))]⟩ () "t" []
      0 0 0 0 0 [] [] [] [] ⟨1, 1, 1⟩ [] ⟨1, 1, 44100, "audio/wav"⟩ "hello" 1).2.2.2 (by rfl)⟩

/-! ## Paths: lemmas -/

theorem GetDirectoryPath_canonical (realpath : String → Option String) (path : String)
    (pos : Nat) (hreal : realpath path = some path)
    (hpos : find_last_of path.data '/' = some pos) :
    GetDirectoryPath realpath path true = String.mk (path.data.take pos) := by
  simp only [GetDirectoryPath, AbsolutePath, hreal, if_true, hpos]

theorem find_last_of_spec (s : List Char) (c : Char) (pos : Nat)
    (h : find_last_of s c = some pos) :
    s.get? pos = some c ∧ c ∉ s.drop (pos + 1) := by
  induction s generalizing pos with
  | nil => simp [find_last_of] at h
  | cons x xs ih =>
    rw [find_last_of] at h
    cases hrec : find_last_of xs c with
    | some p =>
      rw [hrec] at h
      have hp : p + 1 = pos := by simpa using h
      subst hp
      obtain ⟨h1, h2⟩ := ih p hrec
      exact ⟨by simpa using h1, by simpa using h2⟩
    | none =>
      rw [hrec] at h
      by_cases hx : x = c
      · rw [if_pos hx] at h
        have hp : 0 = pos := by simpa using h
        subst hp
        refine ⟨by simp [hx], ?_⟩
        have hnone : ∀ (l : List Char), find_last_of l c = none → c ∉ l := by
          intro l
          induction l with
          | nil => intro _; simp
          | cons y ys ihy =>
            intro hl
            rw [find_last_of] at hl
            cases hys : find_last_of ys c with
            | some q => rw [hys] at hl; simp at hl
            | none =>
              rw [hys] at hl
              by_cases hy : y = c
              · rw [if_pos hy] at hl; simp at hl
              · intro hmem
                rcases List.mem_cons.1 hmem with e | e
                · exact hy e.symm
                · exact ihy hys e
        simpa using hnone xs hrec
      · rw [if_neg hx] at h
        simp at h

/-! ## Paths: the claim -/

/-- C27 fails on the code: `GetDirectoryPath` looks for the last slash in the absolute path
but cuts the path it was given at that position. For the relative path `logs/run` resolved to
`/home/u/logs/run` it returns `logs/run` itself, resolved to `/logs/run` it returns `logs/`,
and for `/tmp/link/run` resolved through a link to `/data/x/run` it returns `/tmp/li`; only a
path that is its own absolute form, as `/tmp/logs/run`, loses its final component. A recorder
given the existing file `logs/run` keeps `logs/run` as its directory. -/
theorem get_directory_path_cuts_given_path :
    GetDirectoryPath (fun _ => some "/home/u/logs/run") "logs/run" true = "logs/run" ∧
    GetDirectoryPath (fun _ => some "/logs/run") "logs/run" true = "logs/" ∧
    GetDirectoryPath (fun _ => some "/data/x/run") "/tmp/link/run" true = "/tmp/li" ∧
    GetDirectoryPath (fun path => some path) "/tmp/logs/run" true = "/tmp/logs" ∧
    (Recorder.new (fileHost (fun _ => some "/home/u/logs/run") ["logs/run"] (ascii "ev")) ()
      "logs/run" "Jan01_00-00-00" "host").1.log_dir_ = "logs/run" := by
  refine ⟨by decide, by decide, by decide, by decide, by decide⟩

/-! ## Tags: the claim -/

/-- C28, amended: `CleanTag` returns its argument for every string, and the single value of
the Summary that `Scalar`, `Histogram`, `HistogramRaw`, `Image`, `Images` or `Audio` produces
carries the name the caller passed as its tag, while the value that `Text` produces carries
the name followed by `/text_summary`. -/
theorem encoders_keep_tag (encode : Encoder) (name : String) (value : ℚ) (values : List F64)
    (min max num sum sum_squares : F64) (bucket_limits bucket_counts : List F64)
    (img : List Byte) (imgs : List (List Byte)) (height width colorspace : Int)
    (audio : List Byte) (sample_rate : ℚ) (num_channels length_frames : Int)
    (content_type text : String) :
    CleanTag name = name ∧
    (Scalar name value).value.map (fun v => v.tag) = [name] ∧
    (∀ s, Histogram name values = .ok s → s.value.map (fun v => v.tag) = [name]) ∧
    (HistogramRaw name min max num sum sum_squares bucket_limits bucket_counts).value.map
      (fun v => v.tag) = [name] ∧
    (∀ s, Image name img height width colorspace = some s →
      s.value.map (fun v => v.tag) = [name]) ∧
    (∀ s, Images encode name imgs height width colorspace = .ok (some s) →
      s.value.map (fun v => v.tag) = [name]) ∧
    (∀ s, Audio name audio sample_rate num_channels length_frames content_type = some s →
      s.value.map (fun v => v.tag) = [name]) ∧
    (Text name text).value.map (fun v => v.tag) = [name ++ "/text_summary"] := by
  refine ⟨rfl, rfl, ?_, rfl, ?_, ?_, ?_, rfl⟩
  · intro s h
    unfold Histogram histogramOver at h
    simp only at h
    split at h
    · cases h
    · cases h
      rfl
  · intro s h
    unfold Image at h
    split at h
    · cases h
    · split at h
      · cases h
      · cases h
        rfl
  · intro s h
    unfold Images at h
    split at h
    · cases h
    · cases h
    · simp only at h
      split at h
      · cases h
      · cases h
        rfl
  · intro s h
    unfold Audio at h
    split at h
    · cases h
    · cases h
      rfl

/-- Witness of C28: the tag `t` through the encoders that can fail, on inputs they accept. -/
theorem encoders_keep_tag_witness :
    (∃ s, Histogram "t" [0] = .ok s ∧ s.value.map (fun v => v.tag) = ["t"]) ∧
    (∃ s, Image "t" [1] 1 1 1 = some s ∧ s.value.map (fun v => v.tag) = ["t"]) ∧
    (∃ s, Images (fun data _ _ _ => (1, data)) "t" [[1]] 1 1 1 = .ok (some s) ∧
      s.value.map (fun v => v.tag) = ["t"]) ∧
    (∃ s, Audio "t" [1] 44100 1 1 "audio/wav" = some s ∧
      s.value.map (fun v => v.tag) = ["t"]) := by
  have hh : (histLoop DefaultBins [0]).fault = false :=
    (histLoop_counts DefaultBins [0] (in_range_index [0] (not_lt_of_le_largest [0]
      (fun v hv => by
        rw [List.mem_singleton.1 hv]
        exact zero_le_largestBoundary)))).2.1
  have hH := histogramOver_ok DefaultBins "t" [0] hh
  refine ⟨⟨_, hH, ?_⟩, ⟨_, rfl, ?_⟩, ⟨_, rfl, ?_⟩, ⟨_, rfl, ?_⟩⟩
  · exact (encoders_keep_tag (fun data _ _ _ => (1, data)) "t" 0 [0] 0 0 0 0 0 [] [] [1] [[1]]
      1 1 1 [1] 44100 1 1 "audio/wav" "x").2.2.1 _ hH
  · exact (encoders_keep_tag (fun data _ _ _ => (1, data)) "t" 0 [0] 0 0 0 0 0 [] [] [1] [[1]]
      1 1 1 [1] 44100 1 1 "audio/wav" "x").2.2.2.2.1 _ rfl
  · exact (encoders_keep_tag (fun data _ _ _ => (1, data)) "t" 0 [0] 0 0 0 0 0 [] [] [1] [[1]]
      1 1 1 [1] 44100 1 1 "audio/wav" "x").2.2.2.2.2.1 _ rfl
  · exact (encoders_keep_tag (fun data _ _ _ => (1, data)) "t" 0 [0] 0 0 0 0 0 [] [] [1] [[1]]
      1 1 1 [1] 44100 1 1 "audio/wav" "x").2.2.2.2.2.2.1 _ rfl

/-- C28 fails as stated for `Text`: the tag of the value produced for the name `t` is
`t/text_summary`, not `t`. -/
theorem text_tag_has_suffix :
    (Text "t" "hello").value.map (fun v => v.tag) = ["t/text_summary"] ∧
    (Text "t" "hello").value.map (fun v => v.tag) ≠ ["t"] := by
  refine ⟨by decide, by decide⟩

/-! ## `MakeHistogram`: lemmas -/

/-- Counting by `+= 1` in a `double` is exact up to `2^53` and stays there: `2^53 + 1` lies
halfway between two `double`s and rounds to the even one, `2^53`. -/
theorem countUp_eq (n : Nat) : countUp n = F64.fin ((min n (2 ^ 53) : Nat) : ℚ) := by
  induction n with
  | zero => rfl
  | succ n ih =>
    show countUp n + F64.fin 1 = _
    rw [ih, f64_fin_add]
    by_cases h : n < 2 ^ 53
    · rw [min_eq_left (le_of_lt h), min_eq_left (by omega)]
      have e : ((n : Nat) : ℚ) + 1 = (((n + 1 : Nat) : Int) : ℚ) := by push_cast; rfl
      rw [e, f64_round_int _ (by
        rw [abs_of_nonneg (by omega)]
        exact_mod_cast h)]
      norm_cast
    · rw [min_eq_right (by omega), min_eq_right (by omega)]
      have hk : roundHalfEven ((((2 ^ 53 : Nat) : ℚ) + 1) / 2 ^ ((53 : Int) - 52))
          = 4503599627370496 := by
        have e : (((2 ^ 53 : Nat) : ℚ) + 1) / 2 ^ ((53 : Int) - 52)
            = ((4503599627370496 : Int) : ℚ) + 1 / 2 := by norm_num
        rw [e]
        exact roundHalfEven_tie_even _ (by norm_num)
      have hr := f64_round_eval (((2 ^ 53 : Nat) : ℚ) + 1) 53 4503599627370496 (by norm_num)
        (by norm_num) (by norm_num) (by norm_num) hk (by norm_num)
      rw [hr]
      congr 1
      norm_num

theorem countUp_pos_iff (n : Nat) : countUp n > 0 ↔ 0 < n := by
  rw [countUp_eq]
  show F64.fin 0 < F64.fin _ ↔ _
  rw [f64_fin_lt_fin]
  constructor
  · intro h
    have h2 : 0 < min n (2 ^ 53) := by exact_mod_cast h
    exact lt_of_lt_of_le h2 (min_le_left _ _)
  · intro h
    have h2 : 0 < min n (2 ^ 53) := lt_min h (by norm_num)
    exact_mod_cast h2

theorem countUp_exact (n : Nat) (h : n ≤ 2 ^ 53) : countUp n = F64.ofNat n := by
  rw [countUp_eq, f64_ofNat_exact n h, min_eq_left h]

theorem addOneAt_map_cast (c : List Nat) (i : Nat) :
    addOneAt (c.map countUp) i = (incrAt c i).map countUp := by
  induction c generalizing i with
  | nil => rfl
  | cons x xs ih =>
    cases i with
    | zero => rfl
    | succ k =>
      show countUp x :: addOneAt (xs.map countUp) k = countUp x :: (incrAt xs k).map countUp
      rw [ih]

theorem makeFold_eq_histFold (bins : List F64) (data : List F64) (s : HistogramOut × Bool)
    (t : HistLoop) (hc : s.1.bucket_counts = t.counts.map countUp)
    (hmin : s.1.min = t.min) (hmax : s.1.max = t.max) (hsum : s.1.sum = t.sum)
    (hsq : s.1.sum_squares = t.sum_square) (hf : s.2 = t.fault) :
    (data.foldl (makeStep bins) s).1.bucket_counts
        = (data.foldl (histStep bins) t).counts.map countUp ∧
    (data.foldl (makeStep bins) s).1.min = (data.foldl (histStep bins) t).min ∧
    (data.foldl (makeStep bins) s).1.max = (data.foldl (histStep bins) t).max ∧
    (data.foldl (makeStep bins) s).1.sum = (data.foldl (histStep bins) t).sum ∧
    (data.foldl (makeStep bins) s).1.sum_squares = (data.foldl (histStep bins) t).sum_square ∧
    (data.foldl (makeStep bins) s).2 = (data.foldl (histStep bins) t).fault ∧
    (data.foldl (makeStep bins) s).1.num = s.1.num ∧
    (data.foldl (makeStep bins) s).1.bucket_limits = s.1.bucket_limits := by
  induction data generalizing s t with
  | nil => exact ⟨hc, hmin, hmax, hsum, hsq, hf, rfl, rfl⟩
  | cons v vs ih =>
    rw [List.foldl_cons, List.foldl_cons]
    have hlen : s.1.bucket_counts.length = t.counts.length := by rw [hc, List.length_map]
    have key := ih (makeStep bins s v) (histStep bins t v)
      (by
        simp only [makeStep, histStep, hlen]
        split
        · rw [hc, addOneAt_map_cast]
        · exact hc)
      (by simp only [makeStep, histStep, hmin, hmax])
      (by simp only [makeStep, histStep, hmax])
      (by simp only [makeStep, histStep, hsum])
      (by simp only [makeStep, histStep, hsq])
      (by simp only [makeStep, histStep, hf, hlen])
    obtain ⟨k1, k2, k3, k4, k5, k6, k7, k8⟩ := key
    exact ⟨k1, k2, k3, k4, k5, k6, k7, k8⟩

theorem zip_take_succ (bins c : List F64) (i : Nat) (hb : i < bins.length) (hc : i < c.length) :
    (bins.zip c).take (i + 1) = (bins.zip c).take i ++ [(bins.getD i 0, c.getD i 0)] := by
  have hz : i < (bins.zip c).length := by
    rw [List.length_zip]
    omega
  rw [List.take_succ, List.getElem?_eq_getElem hz, List.getElem_zip,
    List.getD_eq_getElem _ _ hb, List.getD_eq_getElem _ _ hc]
  rfl

theorem take_succ_getD (l : List F64) (i : Nat) (h : i < l.length) :
    l.take (i + 1) = l.take i ++ [l.getD i 0] := by
  rw [List.take_succ, List.getElem?_eq_getElem h, List.getD_eq_getElem _ _ h]
  rfl

theorem take_succ_set (l : List F64) (i : Nat) (x : F64) (h : i < l.length) :
    (l.set i x).take (i + 1) = l.take i ++ [x] := by
  rw [List.set_eq_take_append_cons_drop, if_pos h]
  have hl : (List.take i l).length = i := by
    rw [List.length_take]
    omega
  rw [List.take_append_eq_append_take, hl, List.take_of_length_le (by omega)]
  have : i + 1 - i = 1 := by omega
  rw [this]
  rfl

theorem getD_set_ne (l : List F64) (i j : Nat) (x : F64) (h : i ≠ j) :
    (l.set i x).getD j 0 = l.getD j 0 := by
  rw [List.getD_eq_getElem?_getD, List.getD_eq_getElem?_getD, List.getElem?_set, if_neg h]

theorem compact_invariant (bins c : List F64) (o : HistogramOut) (hlen : bins.length = c.length)
    (hc : o.bucket_counts = c) (hl : o.bucket_limits = []) (i : Nat) (hi : i ≤ c.length) :
    ∀ s, s = (List.range i).foldl (compactStep bins) (o, 0) →
      s.2 ≤ i ∧ s.1.bucket_counts.length = c.length ∧
      (∀ j, i ≤ j → s.1.bucket_counts.getD j 0 = c.getD j 0) ∧
      s.1.bucket_limits
        = (((bins.zip c).take i).filter (fun p => decide (p.2 > 0))).map Prod.fst ∧
      s.1.bucket_counts.take s.2
        = (((bins.zip c).take i).filter (fun p => decide (p.2 > 0))).map Prod.snd ∧
      s.2 = (((bins.zip c).take i).filter (fun p => decide (p.2 > 0))).length ∧
      s.1.min = o.min ∧ s.1.max = o.max ∧ s.1.num = o.num ∧ s.1.sum = o.sum ∧
      s.1.sum_squares = o.sum_squares := by
  induction i with
  | zero =>
    intro s hs
    subst hs
    simp [hc, hl]
  | succ i ih =>
    intro s hs
    obtain ⟨h1, h2, h3, h4, h5, h6, h7, h8, h9, h10, h11⟩ := ih (by omega) _ rfl
    rw [List.range_succ, List.foldl_append] at hs
    simp only [List.foldl_cons, List.foldl_nil] at hs
    generalize (List.range i).foldl (compactStep bins) (o, 0) = t at hs h1 h2 h3 h4 h5 h6 h7 h8 h9 h10 h11
    have hib : i < bins.length := by omega
    have hic : i < c.length := by omega
    have hti : t.1.bucket_counts.getD i 0 = c.getD i 0 := h3 i (le_refl _)
    rw [zip_take_succ bins c i hib hic, List.filter_append]
    by_cases hpos : c.getD i 0 > 0
    · have hs2 : s = ({ t.1 with
          bucket_limits := t.1.bucket_limits ++ [bins.getD i 0]
          bucket_counts := if i ≠ t.2 then t.1.bucket_counts.set t.2 (t.1.bucket_counts.getD i 0)
            else t.1.bucket_counts }, t.2 + 1) := by
        rw [hs]
        unfold compactStep
        rw [if_pos (by rw [hti]; exact hpos)]
      have hf : List.filter (fun p : F64 × F64 => decide (p.2 > 0)) [(bins.getD i 0, c.getD i 0)]
          = [(bins.getD i 0, c.getD i 0)] := by
        have hd : decide (c.getD i 0 > 0) = true := decide_eq_true hpos
        simp only [List.filter, hd]
      rw [hf, hs2]
      simp only [List.map_append, List.map_cons, List.map_nil, List.length_append,
        List.length_singleton]
      refine ⟨by omega, ?_, ?_, ?_, ?_, by omega, h7, h8, h9, h10, h11⟩
      · split
        · rw [List.length_set, h2]
        · exact h2
      · intro j hj
        split
        · rw [getD_set_ne _ _ _ _ (by omega)]
          exact h3 j (by omega)
        · exact h3 j (by omega)
      · rw [h4]
      · split
        · rw [take_succ_set _ _ _ (by omega), h5, hti]
        · rename_i hne
          have hit : i = t.2 := not_not.1 hne
          rw [take_succ_getD _ _ (by omega), h5, ← hit, hti]
    · have hs2 : s = t := by
        rw [hs]
        unfold compactStep
        rw [if_neg (by rw [hti]; exact hpos)]
      have hf : List.filter (fun p : F64 × F64 => decide (p.2 > 0)) [(bins.getD i 0, c.getD i 0)]
          = [] := by
        have hd : decide (c.getD i 0 > 0) = false := decide_eq_false hpos
        simp only [List.filter, hd]
      rw [hf, hs2, List.append_nil]
      exact ⟨by omega, h2, fun j hj => h3 j (by omega), h4, h5, h6, h7, h8, h9, h10, h11⟩

theorem filter_zip_cast (bins : List F64) (cs : List Nat) :
    (bins.zip (cs.map countUp)).filter (fun p => decide (p.2 > 0))
      = (emitBuckets bins cs).map (fun lc => (lc.1, countUp lc.2)) := by
  unfold emitBuckets
  rw [List.zip_map_right, List.filter_map]
  have hp : ((fun p : F64 × F64 => decide (p.2 > 0)) ∘ Prod.map id countUp)
      = (fun lc : F64 × Nat => decide (0 < lc.2)) := by
    funext lc
    simp only [Function.comp, Prod.map, id]
    exact decide_eq_decide.2 (countUp_pos_iff lc.2)
  rw [hp]
  rfl

theorem MakeHistogram_spec (data : List F64) (out : HistogramOut) (bins : List F64)
    (hne : data ≠ []) (hbne : bins ≠ []) (hsmall : bins.length < 2 ^ 31)
    (hin : ∀ v ∈ data, lower_bound bins v < bins.length) :
    MakeHistogram data out bins
      = .ok (((emitBuckets bins (histLoop bins data).counts).length : Int),
          HistogramOut.mk (histLoop bins data).min (histLoop bins data).max 0
            (histLoop bins data).sum (histLoop bins data).sum_square
            ((emitBuckets bins (histLoop bins data).counts).map (fun lc => lc.1))
            ((emitBuckets bins (histLoop bins data).counts).map (fun lc => countUp lc.2))) := by
  obtain ⟨c1, c2, -, -⟩ := histLoop_counts bins data hin
  have hrel := makeFold_eq_histFold bins data
    ({ out with min := data.headD 0, max := data.headD 0, num := 0, sum := 0, sum_squares := 0,
                bucket_counts := List.replicate bins.length 0 }, false)
    { counts := List.replicate bins.length 0, min := data.headD 0, max := data.headD 0,
      sum := 0, sum_square := 0, fault := false }
    (by rw [List.map_replicate]; rfl) rfl rfl rfl rfl rfl
  have hloop : data.foldl (histStep bins)
      { counts := List.replicate bins.length 0, min := data.headD 0, max := data.headD 0,
        sum := 0, sum_square := 0, fault := false } = histLoop bins data := rfl
  rw [hloop] at hrel
  obtain ⟨r1, r2, r3, r4, r5, r6, r7, -⟩ := hrel
  have hcond : ¬ ((data.isEmpty = true) ∨ (bins.isEmpty = true)) := by
    cases data with
    | nil => exact absurd rfl hne
    | cons a as =>
      cases bins with
      | nil => exact absurd rfl hbne
      | cons b bs => simp
  unfold MakeHistogram
  rw [if_neg hcond]
  simp only
  generalize data.foldl (makeStep bins)
    ({ out with min := data.headD 0, max := data.headD 0, num := 0, sum := 0, sum_squares := 0,
                bucket_counts := List.replicate bins.length 0 }, false) = o2 at r1 r2 r3 r4 r5 r6 r7
  rw [r6, c2]
  simp only [Bool.false_eq_true, if_false]
  have hclen : ((histLoop bins data).counts.map countUp).length = bins.length := by
    rw [List.length_map, c1]
  have hcount : (o2.1.bucket_counts).length = bins.length := by rw [r1, hclen]
  rw [hcount]
  obtain ⟨-, -, -, k4, k5, k6, k7, k8, k9, k10, k11⟩ := compact_invariant bins
    ((histLoop bins data).counts.map countUp)
    { o2.1 with bucket_limits := [] } hclen.symm r1 rfl
    bins.length (by omega) _ rfl
  have hz : List.take bins.length
      (bins.zip ((histLoop bins data).counts.map countUp))
      = bins.zip ((histLoop bins data).counts.map countUp) := by
    apply List.take_of_length_le
    rw [List.length_zip]
    omega
  generalize (List.range bins.length).foldl
    (compactStep bins) ({ o2.1 with bucket_limits := [] }, 0) = done at k4 k5 k6 k7 k8 k9 k10 k11
  rw [hz, filter_zip_cast] at k4 k5 k6
  rw [List.map_map] at k4 k5
  rw [List.length_map] at k6
  have hlenle : (emitBuckets bins (histLoop bins data).counts).length < 2 ^ 31 := by
    have : (emitBuckets bins (histLoop bins data).counts).length ≤ (bins.zip
        (histLoop bins data).counts).length := by
      unfold emitBuckets
      exact List.length_filter_le _ _
    rw [List.length_zip] at this
    omega
  have hnum : done.1.num = 0 := by rw [k9]; exact r7
  rw [← k6] at hlenle ⊢
  rw [toInt32_of_lt _ hlenle]
  congr 2
  cases hd : done.1
  rw [hd] at k4 k5 k7 k8 k10 k11 hnum
  simp only at k4 k5 k7 k8 k10 k11 hnum
  simp only [HistogramOut.mk.injEq]
  refine ⟨?_, ?_, hnum, ?_, ?_, ?_, ?_⟩
  · rw [k7]; exact r2
  · rw [k8]; exact r3
  · rw [k10]; exact r4
  · rw [k11]; exact r5
  · rw [k4]; rfl
  · rw [k5]; rfl

/-! ## `MakeHistogram`: the claim -/

/-- C29 fails on the code: for every non-empty data sequence whose values do not exceed the
largest boundary, `MakeHistogram` with the default table returns the number of emitted buckets
and outputs the min, max, sum, sum of squares, bucket limits and (for up to `2^53` values, where
counting in a `double` is exact) bucket counts that `Histogram` stores, but its output `num` is
`0`: `*num` is set to `0.0` and never counted up, while `Histogram` stores the number of
values. `HistogramRaw` on the outputs therefore differs from the result of `Histogram`, and
agrees with it once `num` is replaced by the number of values. -/
theorem make_histogram_leaves_num_zero (name : String) (data : List F64) (out : HistogramOut)
    (hne : data ≠ []) (hrange : ∀ v ∈ data, v ≤ largestBoundary DefaultBins) :
    ∃ o : HistogramOut,
      MakeHistogram data out DefaultBins = .ok ((o.bucket_counts.length : Int), o) ∧
      o.bucket_limits.length = o.bucket_counts.length ∧
      o.num = 0 ∧ F64.ofNat data.length ≠ 0 ∧
      (data.length ≤ 2 ^ 53 →
        Histogram name data = .ok (HistogramRaw name o.min o.max (F64.ofNat data.length) o.sum
          o.sum_squares o.bucket_limits o.bucket_counts)) ∧
      Histogram name data ≠ .ok (HistogramRaw name o.min o.max o.num o.sum
        o.sum_squares o.bucket_limits o.bucket_counts) := by
  have hin := in_range_index data (not_lt_of_le_largest data hrange)
  have hsmall : DefaultBins.length < 2 ^ 31 := by
    rw [DefaultBins_length]
    norm_num
  have hM := MakeHistogram_spec data out DefaultBins hne DefaultBins_ne_nil hsmall hin
  obtain ⟨c1, c2, -, c4⟩ := histLoop_counts DefaultBins data hin
  have hH := histogramOver_ok DefaultBins name data c2
  have hlen : F64.ofNat data.length ≠ 0 := by
    have h0 : 0 < data.length := List.length_pos.2 hne
    intro h
    have := f64_ofNat_pos _ h0
    rw [h] at this
    exact f64_lt_irrefl _ this
  refine ⟨HistogramOut.mk (histLoop DefaultBins data).min (histLoop DefaultBins data).max 0
    (histLoop DefaultBins data).sum (histLoop DefaultBins data).sum_square
    ((emitBuckets DefaultBins (histLoop DefaultBins data).counts).map (fun lc => lc.1))
    ((emitBuckets DefaultBins (histLoop DefaultBins data).counts).map (fun lc => countUp lc.2)),
    ?_, ?_, rfl, hlen, ?_, ?_⟩
  · rw [hM, List.length_map]
  · rw [List.length_map, List.length_map]
  · intro hl
    unfold Histogram
    rw [hH]
    have hsum := emitBuckets_sum DefaultBins (histLoop DefaultBins data).counts (le_of_eq c1)
    rw [c4] at hsum
    have hmap : (emitBuckets DefaultBins (histLoop DefaultBins data).counts).map
          (fun lc => F64.ofNat lc.2)
        = (emitBuckets DefaultBins (histLoop DefaultBins data).counts).map
          (fun lc => countUp lc.2) := by
      apply List.map_congr_left
      intro lc hlc
      have hc : lc.2 ∈ (emitBuckets DefaultBins (histLoop DefaultBins data).counts).map
          (fun lc => lc.2) := List.mem_map_of_mem _ hlc
      have : lc.2 ≤ data.length := by
        rw [← hsum]
        exact List.single_le_sum (by simp) _ hc
      exact (countUp_exact _ (by omega)).symm
    rw [hmap]
    rfl
  · unfold Histogram
    rw [hH]
    intro h
    have h2 := Except.ok.inj h
    simp only [HistogramRaw, CleanTag, Summary.mk.injEq, List.cons.injEq, SummaryValue.mk.injEq,
      SummaryKind.histo.injEq, HistogramProto.mk.injEq, true_and, and_true] at h2
    exact hlen h2.1

/-- Witness of C29: the data sequence of the single value `0`. -/
theorem make_histogram_leaves_num_zero_witness :
    ∃ o : HistogramOut,
      MakeHistogram [0] ⟨0, 0, F64.fin 7, 0, 0, [], []⟩ DefaultBins
        = .ok ((o.bucket_counts.length : Int), o) ∧
      o.num = 0 ∧ F64.ofNat ([0] : List F64).length ≠ 0 ∧
      Histogram "h" [0] = .ok (HistogramRaw "h" o.min o.max (F64.ofNat ([0] : List F64).length)
        o.sum o.sum_squares o.bucket_limits o.bucket_counts) ∧
      Histogram "h" [0] ≠ .ok (HistogramRaw "h" o.min o.max o.num o.sum
        o.sum_squares o.bucket_limits o.bucket_counts) := by
  obtain ⟨o, h1, -, h3, h4, h5, h6⟩ := make_histogram_leaves_num_zero "h" [0]
    ⟨0, 0, F64.fin 7, 0, 0, [], []⟩ (List.cons_ne_nil _ _)
    (fun v hv => by
      rw [List.mem_singleton.1 hv]
      exact zero_le_largestBoundary)
  exact ⟨o, h1, h3, h4, h5 (by norm_num), h6⟩

/-! ## Embeddings: lemmas -/

theorem tensorsRows_empty (showFloat : ℚ → String) (D n cur : Nat) (text : String) :
    tensorsRows showFloat [] D (n + 1) cur text = .error .out_of_bounds := rfl

theorem AddEmbedding_size_mismatch {σ : Type} (K : Disk σ) (r : Recorder) (fs : σ)
    (mat : List ℚ) (N D : Nat) (metadata : List String) (global_step : Int) (tag : String)
    (h : mat.length ≠ (N * D) % 2 ^ 64) :
    r.AddEmbedding K fs mat N D metadata global_step tag = .ok (-1, fs) := by
  unfold Recorder.AddEmbedding
  by_cases hw : r.writer_ = none
  · rw [if_pos hw]
  · rw [if_neg hw, if_pos h]

theorem AddEmbedding_label_mismatch {σ : Type} (K : Disk σ) (r : Recorder) (fs : σ)
    (mat : List ℚ) (N D : Nat) (metadata : List String) (global_step : Int) (tag : String)
    (hroot : r.writer_ ≠ none) (hsize : mat.length = (N * D) % 2 ^ 64)
    (hmade : 0 ≤ (K.MakeDirs fs (JoinPath r.log_dir_
      (K.showStep (if global_step < 0 then 0 else global_step) ++ "/" ++ tag))).1)
    (hne : metadata ≠ []) (hlen : metadata.length ≠ N) :
    r.AddEmbedding K fs mat N D metadata global_step tag
      = .ok (-1, (K.MakeDirs fs (JoinPath r.log_dir_
          (K.showStep (if global_step < 0 then 0 else global_step) ++ "/" ++ tag))).2) := by
  have hmeta : ∀ (fs1 : σ) (save_path : String),
      embeddingMetadata K fs1 save_path N metadata = none := by
    intro fs1 save_path
    unfold embeddingMetadata
    have : metadata.isEmpty = false := by cases metadata <;> simp_all
    simp [this, hlen]
  unfold Recorder.AddEmbedding
  rw [if_neg hroot, if_neg (not_not.2 hsize)]
  simp only
  rw [if_neg (not_lt.2 hmade), hmeta]

/-! ## Embeddings: the claims -/

/-- The size check as the code makes it: for every matrix, `n_points` and `dim` such that the
length of the matrix differs from the product `n_points * dim` as `size_t` computes it, that is
modulo `2^64`, `AddEmbedding` returns `-1` and leaves the file system as it was: no directory
is made and no file is opened. -/
theorem add_embedding_rejects_size_mismatch {σ : Type} (K : Disk σ) (r : Recorder) (fs : σ)
    (mat : List ℚ) (N D : Nat) (metadata : List String) (global_step : Int) (tag : String)
    (h : mat.length ≠ (N * D) % 2 ^ 64) :
    r.AddEmbedding K fs mat N D metadata global_step tag = .ok (-1, fs) ∧
    (N * D < 2 ^ 64 → mat.length ≠ N * D) := by
  refine ⟨AddEmbedding_size_mismatch K r fs mat N D metadata global_step tag h, fun hlt => ?_⟩
  rwa [Nat.mod_eq_of_lt hlt] at h

/-- The size check on a matrix of one element given as two points of dimension one. -/
theorem add_embedding_rejects_size_mismatch_witness :
    Recorder.AddEmbedding memDisk
        ⟨"runs", some "runs", [("runs", Writer.sync (FileWriter.new [] false true))]⟩
        ⟨["runs"], []⟩ [1] 2 1 [] 0 "default"
      = .ok (-1, ⟨["runs"], []⟩) :=
  (add_embedding_rejects_size_mismatch memDisk
    ⟨"runs", some "runs", [("runs", Writer.sync (FileWriter.new [] false true))]⟩
    ⟨["runs"], []⟩ [1] 2 1 [] 0 "default" (by decide)).1

/-- C25 fails on the code: with `n_points = dim = 2^32` the product `N * D` is `2^64`, which
`size_t` reduces to `0`, so the empty matrix passes the size check although its length differs
from `n_points * dim`; the call does not return `-1` but goes on to read the matrix outside
its bounds. -/
theorem add_embedding_size_product_wraps :
    ([] : List ℚ).length ≠ 4294967296 * 4294967296 ∧
    ([] : List ℚ).length = (4294967296 * 4294967296) % 2 ^ 64 ∧
    Recorder.AddEmbedding memDisk
        ⟨"runs", some "runs", [("runs", Writer.sync (FileWriter.new [] false true))]⟩
        ⟨["runs"], []⟩ [] 4294967296 4294967296 [] 0 "default"
      = .error .out_of_bounds := by
  refine ⟨by decide, by decide, ?_⟩
  unfold Recorder.AddEmbedding
  rw [if_neg (by decide), if_neg (by decide)]
  simp only
  rw [if_neg (by decide)]
  have h1 : (4294967296 : Nat) = 4294967295 + 1 := by decide
  rw [h1, tensorsRows_empty]
  rfl

/-- C26 fails on the code: the number of labels is checked after `MakeDirs(save_path)`. With
one point and two labels, a present root writer and a matrix of the right size, `AddEmbedding`
returns `-1` but the directory `runs/00000/default` has been made. -/
theorem add_embedding_makes_dirs_before_label_check :
    Recorder.AddEmbedding memDisk
        ⟨"runs", some "runs", [("runs", Writer.sync (FileWriter.new [] false true))]⟩
        ⟨["runs"], []⟩ [1] 1 1 ["a", "b"] 0 "default"
      = .ok (-1, ⟨["runs", "runs/00000/default"], []⟩) ∧
    (⟨["runs", "runs/00000/default"], []⟩ : DiskState) ≠ ⟨["runs"], []⟩ ∧
    (∀ (σ : Type) (K : Disk σ) (fs : σ) (w : Writer) (v : ℚ) (tag : String),
      Recorder.AddEmbedding K ⟨"runs", some "runs", [("runs", w)]⟩ fs [v] 1 1 ["a", "b"] 0 tag
        = .ok (-1, (K.MakeDirs fs (JoinPath "runs" (K.showStep 0 ++ "/" ++ tag))).2)) := by
  refine ⟨by rfl, by decide, ?_⟩
  intro σ K fs w v tag
  unfold Recorder.AddEmbedding
  rw [if_neg (by simp), if_neg (by simp)]
  simp [embeddingMetadata]

/-- C30 fails on the code: every row starts with `fout << *cur++`, whatever `dim` is. With
`dim = 0` the size check accepts the empty matrix for every number of points, and the first
row reads the element at index `0` of the empty matrix. -/
theorem embedding_reads_empty_matrix :
    (∀ (showFloat : ℚ → String) (n cur : Nat) (text : String),
      tensorsRows showFloat [] 0 (n + 1) cur text = .error .out_of_bounds) ∧
    (∀ N : Nat, ([] : List ℚ).length = (N * 0) % 2 ^ 64) ∧
    Recorder.AddEmbedding memDisk
        ⟨"runs", some "runs", [("runs", Writer.sync (FileWriter.new [] false true))]⟩
        ⟨["runs"], []⟩ [] 1 0 [] 0 "default"
      = .error .out_of_bounds := by
  refine ⟨fun showFloat n cur text => rfl, fun N => by simp, by rfl⟩

theorem tensorsCols_ok (showFloat : ℚ → String) (mat : List ℚ) (k cur : Nat) (text : String)
    (h : cur + k ≤ mat.length) :
    tensorsCols showFloat mat k cur text
      = .ok (text ++ tensorsTail showFloat ((mat.drop cur).take k), cur + k) := by
  induction k generalizing cur text with
  | zero => simp [tensorsCols, tensorsTail]
  | succ k ih =>
    have hc : cur < mat.length := by omega
    have hd : mat.drop cur = mat[cur] :: mat.drop (cur + 1) := List.drop_eq_getElem_cons hc
    rw [tensorsCols, List.get?_eq_getElem?, List.getElem?_eq_getElem hc]
    simp only
    rw [ih (cur + 1) _ (by omega), hd, List.take_succ_cons, tensorsTail]
    simp only [String.append_assoc]
    have e : cur + 1 + k = cur + (k + 1) := by omega
    rw [e]

theorem tensorsRows_ok (showFloat : ℚ → String) (mat : List ℚ) (D n cur : Nat) (text : String)
    (hD : 1 ≤ D) (h : cur + n * D ≤ mat.length) :
    tensorsRows showFloat mat D n cur text
      = .ok (text ++ tensorsText showFloat D n (mat.drop cur)) := by
  induction n generalizing cur text with
  | zero => simp [tensorsRows, tensorsText]
  | succ n ih =>
    have hmul : (n + 1) * D = n * D + D := Nat.succ_mul n D
    have hc : cur < mat.length := by omega
    have hd : mat.drop cur = mat[cur] :: mat.drop (cur + 1) := List.drop_eq_getElem_cons hc
    obtain ⟨d, rfl⟩ : ∃ d, D = d + 1 := ⟨D - 1, by omega⟩
    rw [tensorsRows, List.get?_eq_getElem?, List.getElem?_eq_getElem hc]
    simp only [Nat.add_sub_cancel]
    rw [tensorsCols_ok showFloat mat d (cur + 1) _ (by omega)]
    simp only
    rw [ih (cur + 1 + d) _ (by omega), tensorsText, tensorsLine, List.drop_drop, hd,
      List.take_succ_cons, List.headD_cons, List.tail_cons]
    have e1 : cur + (d + 1) = cur + 1 + d := by omega
    rw [e1]
    simp only [String.append_assoc]

theorem tensorsRows_whole (showFloat : ℚ → String) (mat : List ℚ) (N D : Nat) (hD : 1 ≤ D)
    (h : mat.length = N * D) :
    tensorsRows showFloat mat D N 0 "" = .ok (tensorsText showFloat D N mat) := by
  rw [tensorsRows_ok showFloat mat D N 0 "" hD (by omega)]
  simp

/-! ## One writer per path: lemmas -/

theorem setWriter_keys (ws : List (String × Writer)) (key : String) (w : Writer) :
    (setWriter ws key w).map (fun kv => kv.1) = ws.map (fun kv => kv.1) := by
  unfold setWriter
  rw [List.map_map]
  apply List.map_congr_left
  intro kv _
  simp only [Function.comp]
  split <;> rfl

theorem lookup_setWriter (ws : List (String × Writer)) (key k : String) (w : Writer) :
    (setWriter ws k w).lookup key
      = if key = k then (ws.lookup key).map (fun _ => w) else ws.lookup key := by
  induction ws with
  | nil => simp [setWriter, List.lookup]
  | cons kv ws ih =>
    obtain ⟨a, b⟩ := kv
    have hcons : setWriter ((a, b) :: ws) k w
        = (if a = k then (a, w) else (a, b)) :: setWriter ws k w := rfl
    rw [hcons]
    by_cases hka : key = a
    · subst hka
      by_cases hk : key = k
      · subst hk
        rw [if_pos rfl, if_pos rfl, List.lookup_cons, List.lookup_cons]
        simp only [beq_self_eq_true, Option.map_some']
      · rw [if_neg hk, if_neg hk, List.lookup_cons, List.lookup_cons]
        simp only [beq_self_eq_true]
    · have hb : (key == a) = false := by simpa using hka
      by_cases hak : a = k
      · rw [if_pos hak, List.lookup_cons, List.lookup_cons]
        simp only [hb]
        exact ih
      · rw [if_neg hak, List.lookup_cons, List.lookup_cons]
        simp only [hb]
        exact ih

theorem lookup_none_iff (ws : List (String × Writer)) (key : String) :
    ws.lookup key = none ↔ key ∉ ws.map (fun kv => kv.1) := by
  induction ws with
  | nil => simp [List.lookup]
  | cons kv ws ih =>
    obtain ⟨a, b⟩ := kv
    by_cases hka : key = a
    · subst hka
      simp [List.lookup]
    · have hb : (key == a) = false := by simpa using hka
      rw [List.lookup_cons, hb]
      simp only [List.map_cons, List.mem_cons, not_or]
      rw [ih]
      exact ⟨fun h => ⟨hka, h⟩, fun h => h.2⟩

theorem lookup_append_old (ws : List (String × Writer)) (key k : String) (w w0 : Writer)
    (h : ws.lookup key = some w) : (ws ++ [(k, w0)]).lookup key = some w := by
  induction ws with
  | nil => simp [List.lookup] at h
  | cons kv ws ih =>
    obtain ⟨a, b⟩ := kv
    rw [List.cons_append]
    by_cases hka : key = a
    · subst hka
      simpa [List.lookup] using h
    · have hb : (key == a) = false := by simpa using hka
      rw [List.lookup_cons, hb] at h ⊢
      exact ih h

theorem writeAll_append (serialize : Serializer) (w : Writer) (es fs : List Event) :
    w.writeAll serialize (es ++ fs) = (w.writeAll serialize es).writeAll serialize fs := by
  induction es generalizing w with
  | nil => rfl
  | cons e es ih => exact ih _

theorem scalarsItem_found {σ : Type} (P : Host σ) (main_tag : String) (global_step : Int)
    (r : Recorder) (fs : σ) (item : String × ℚ) (w : Writer)
    (h : r.writers_.lookup (r.scalarsDir main_tag item.1) = some w) :
    Recorder.scalarsItem P main_tag global_step r fs item
      = (some (AddEvent P.serialize (P.Timestamp fs) w (Scalar main_tag item.2)
            (wrapI32 global_step)).1,
         Recorder.mk r.log_dir_ r.writer_ (setWriter r.writers_ (r.scalarsDir main_tag item.1)
            (AddEvent P.serialize (P.Timestamp fs) w (Scalar main_tag item.2)
              (wrapI32 global_step)).2),
         fs) := by
  unfold Recorder.scalarsDir at h
  simp only [Recorder.scalarsItem, Recorder.find, h, Option.isSome_some, if_true,
    Recorder.scalarsDir]
  simp
  rw [h]

theorem scalarsItem_absent {σ : Type} (P : Host σ) (main_tag : String) (global_step : Int)
    (r : Recorder) (fs : σ) (item : String × ℚ)
    (h : r.writers_.lookup (r.scalarsDir main_tag item.1) = none) (dir : String) (fs1 : σ)
    (hdir : dir = if P.IsExisted fs (r.scalarsDir main_tag item.1) = true
      ∧ P.IsDirectory fs (r.scalarsDir main_tag item.1) = false
      then P.GetDirectoryPath fs (r.scalarsDir main_tag item.1)
      else r.scalarsDir main_tag item.1)
    (hfs : fs1 = if P.IsExisted fs (r.scalarsDir main_tag item.1) = true then fs
      else (P.MakeDirs fs (r.scalarsDir main_tag item.1)).2) :
    Recorder.scalarsItem P main_tag global_step r fs item
      = match r.writers_.lookup dir with
        | some w =>
          (some (AddEvent P.serialize (P.Timestamp fs1) w (Scalar main_tag item.2)
              (wrapI32 global_step)).1,
           Recorder.mk r.log_dir_ r.writer_ (setWriter r.writers_ dir
              (AddEvent P.serialize (P.Timestamp fs1) w (Scalar main_tag item.2)
                (wrapI32 global_step)).2),
           fs1)
        | none =>
          if P.IsExisted fs1 dir = true then
            (some (AddEvent P.serialize (P.Timestamp (P.make_writer fs1 (JoinPath dir "events")).2)
                (P.make_writer fs1 (JoinPath dir "events")).1 (Scalar main_tag item.2)
                (wrapI32 global_step)).1,
             Recorder.mk r.log_dir_ r.writer_ (setWriter
                (r.writers_ ++ [(dir, (P.make_writer fs1 (JoinPath dir "events")).1)]) dir
                (AddEvent P.serialize (P.Timestamp (P.make_writer fs1 (JoinPath dir "events")).2)
                  (P.make_writer fs1 (JoinPath dir "events")).1 (Scalar main_tag item.2)
                  (wrapI32 global_step)).2),
             (P.make_writer fs1 (JoinPath dir "events")).2)
          else (none, r, fs1) := by
  unfold Recorder.scalarsDir at h hdir hfs
  by_cases he : P.IsExisted fs (r.log_dir_ ++ "/" ++ Replace main_tag '/' '_' ++ "_" ++ item.1)
      = true
  · by_cases hd : P.IsDirectory fs (r.log_dir_ ++ "/" ++ Replace main_tag '/' '_' ++ "_" ++ item.1)
        = true
    · rw [if_neg (by simp [hd])] at hdir
      rw [if_pos he] at hfs
      rw [hdir, hfs]
      rw [h]
      simp only [Recorder.scalarsItem, Recorder.find, h, he, hd, Option.isSome_none,
        Bool.false_eq_true, if_false, if_true, Bool.not_true, and_self,
        lookup_append_new _ _ _ h]
    · have hd2 : P.IsDirectory fs (r.log_dir_ ++ "/" ++ Replace main_tag '/' '_' ++ "_" ++ item.1)
          = false := by simpa using hd
      rw [if_pos ⟨he, hd2⟩] at hdir
      rw [if_pos he] at hfs
      rw [hdir, hfs]
      cases hl : r.writers_.lookup (P.GetDirectoryPath fs
          (r.log_dir_ ++ "/" ++ Replace main_tag '/' '_' ++ "_" ++ item.1)) with
      | some w =>
        simp only [Recorder.scalarsItem, Recorder.find, h, he, hd2, hl, Option.isSome_none,
          Option.isSome_some, Bool.false_eq_true, if_false, if_true, Bool.not_false, false_and,
          reduceCtorEq]
      | none =>
        by_cases he2 : P.IsExisted fs (P.GetDirectoryPath fs
            (r.log_dir_ ++ "/" ++ Replace main_tag '/' '_' ++ "_" ++ item.1)) = true
        · simp only [Recorder.scalarsItem, Recorder.find, h, he, hd2, hl, he2, Option.isSome_none,
            Bool.false_eq_true, if_false, if_true, Bool.not_false, and_self,
            lookup_append_new _ _ _ hl]
        · simp only [Recorder.scalarsItem, Recorder.find, h, he, hd2, hl, he2, Option.isSome_none,
            Bool.false_eq_true, if_false, if_true, Bool.not_false, and_false]
  · rw [if_neg (by simp [he])] at hdir
    rw [if_neg he] at hfs
    rw [hdir, hfs]
    rw [h]
    by_cases he2 : P.IsExisted (P.MakeDirs fs
        (r.log_dir_ ++ "/" ++ Replace main_tag '/' '_' ++ "_" ++ item.1)).2
        (r.log_dir_ ++ "/" ++ Replace main_tag '/' '_' ++ "_" ++ item.1) = true
    · simp only [Recorder.scalarsItem, Recorder.find, h, he, he2, Option.isSome_none,
        Bool.false_eq_true, if_false, if_true, and_self, lookup_append_new _ _ _ h]
    · simp only [Recorder.scalarsItem, Recorder.find, h, he, he2, Option.isSome_none,
        Bool.false_eq_true, if_false, if_true, and_false]

theorem Extends_refl (serialize : Serializer) (r : Recorder) : r.Extends serialize r :=
  ⟨rfl, rfl, List.prefix_refl _, id, fun _ _ h => ⟨[], h⟩⟩

theorem Extends_trans (serialize : Serializer) (r1 r2 r3 : Recorder)
    (h12 : r1.Extends serialize r2) (h23 : r2.Extends serialize r3) :
    r1.Extends serialize r3 := by
  obtain ⟨a1, a2, a3, a4, a5⟩ := h12
  obtain ⟨b1, b2, b3, b4, b5⟩ := h23
  refine ⟨b1.trans a1, b2.trans a2, a3.trans b3, fun h => b4 (a4 h), fun key w h => ?_⟩
  obtain ⟨es, h2⟩ := a5 key w h
  obtain ⟨fs, h3⟩ := b5 _ _ h2
  exact ⟨es ++ fs, by rw [h3, writeAll_append]⟩

theorem Extends_write (serialize : Serializer) (r : Recorder) (key : String) (w : Writer)
    (event : Event) (h : r.writers_.lookup key = some w) :
    r.Extends serialize
      (Recorder.mk r.log_dir_ r.writer_ (setWriter r.writers_ key (w.Write serialize event).2)) := by
  refine ⟨rfl, rfl, ?_, ?_, ?_⟩
  · simp only [Recorder.keys, setWriter_keys]
    exact List.prefix_refl _
  · simp only [Recorder.keys, setWriter_keys]
    exact id
  · intro k w1 h1
    simp only
    rw [lookup_setWriter]
    by_cases hk : k = key
    · subst hk
      rw [h] at h1
      cases h1
      rw [if_pos rfl, h]
      exact ⟨[event], rfl⟩
    · rw [if_neg hk]
      exact ⟨[], h1⟩

theorem Extends_create (serialize : Serializer) (r : Recorder) (key : String) (w0 : Writer)
    (event : Event) (h : r.writers_.lookup key = none) :
    r.Extends serialize
      (Recorder.mk r.log_dir_ r.writer_
        (setWriter (r.writers_ ++ [(key, w0)]) key (w0.Write serialize event).2)) := by
  have hnot := (lookup_none_iff _ _).1 h
  refine ⟨rfl, rfl, ?_, ?_, ?_⟩
  · simp only [Recorder.keys, setWriter_keys, List.map_append]
    exact List.prefix_append _ _
  · simp only [Recorder.keys, setWriter_keys, List.map_append, List.map_cons, List.map_nil]
    intro hn
    rw [List.nodup_append]
    refine ⟨hn, List.nodup_singleton _, ?_⟩
    intro a ha hb
    rw [List.mem_singleton] at hb
    subst hb
    exact hnot ha
  · intro k w1 h1
    simp only
    rw [lookup_setWriter]
    have hk : k ≠ key := by
      intro e
      subst e
      rw [h] at h1
      cases h1
    rw [if_neg hk]
    exact ⟨[], lookup_append_old _ _ _ _ _ h1⟩

theorem scalarsItem_extends {σ : Type} (P : Host σ) (main_tag : String) (global_step : Int)
    (r : Recorder) (fs : σ) (item : String × ℚ) :
    r.Extends P.serialize (Recorder.scalarsItem P main_tag global_step r fs item).2.1 := by
  cases h : r.writers_.lookup (r.scalarsDir main_tag item.1) with
  | some w =>
    rw [scalarsItem_found P main_tag global_step r fs item w h, AddEvent_event]
    exact Extends_write _ _ _ _ _ h
  | none =>
    obtain ⟨dir, hdir⟩ : ∃ dir, dir = if P.IsExisted fs (r.scalarsDir main_tag item.1) = true
        ∧ P.IsDirectory fs (r.scalarsDir main_tag item.1) = false
        then P.GetDirectoryPath fs (r.scalarsDir main_tag item.1)
        else r.scalarsDir main_tag item.1 := ⟨_, rfl⟩
    obtain ⟨fs1, hfs⟩ : ∃ fs1, fs1 = if P.IsExisted fs (r.scalarsDir main_tag item.1) = true
        then fs else (P.MakeDirs fs (r.scalarsDir main_tag item.1)).2 := ⟨_, rfl⟩
    rw [scalarsItem_absent P main_tag global_step r fs item h dir fs1 hdir hfs]
    cases hw : r.writers_.lookup dir with
    | some w =>
      simp only
      rw [AddEvent_event]
      exact Extends_write _ _ _ _ _ hw
    | none =>
      simp only
      by_cases he : P.IsExisted fs1 dir = true
      · rw [if_pos he, AddEvent_event]
        exact Extends_create _ _ _ _ _ hw
      · rw [if_neg he]
        exact Extends_refl _ _

theorem scalarsLoop_extends {σ : Type} (P : Host σ) (main_tag : String) (global_step : Int)
    (items : List (String × ℚ)) (ret : Int) (r : Recorder) (fs : σ) :
    r.Extends P.serialize (Recorder.scalarsLoop P main_tag global_step items ret r fs).2.1 := by
  induction items generalizing ret r fs with
  | nil => exact Extends_refl _ _
  | cons item rest ih =>
    rw [Recorder.scalarsLoop]
    exact Extends_trans _ _ _ _ (scalarsItem_extends P main_tag global_step r fs item) (ih _ _ _)

theorem addScalarsAll_extends {σ : Type} (P : Host σ)
    (calls : List (String × List (String × ℚ) × Int)) (r : Recorder) (fs : σ) :
    r.Extends P.serialize (Recorder.addScalarsAll P calls r fs).1 := by
  induction calls generalizing r fs with
  | nil => exact Extends_refl _ _
  | cons call rest ih =>
    rw [Recorder.addScalarsAll]
    exact Extends_trans _ _ _ _ (scalarsLoop_extends P call.1 call.2.2 call.2.1 0 r fs) (ih _ _)

theorem scalarsDir_injective (r : Recorder) (main_tag s1 s2 : String)
    (h : r.scalarsDir main_tag s1 = r.scalarsDir main_tag s2) : s1 = s2 := by
  unfold Recorder.scalarsDir at h
  have h2 := congrArg String.data h
  simp only [String.data_append] at h2
  exact String.ext (List.append_cancel_left h2)

theorem scalarsItem_keys {σ : Type} (P : Host σ) (main_tag : String) (global_step : Int)
    (r : Recorder) (fs : σ) (item : String × ℚ) :
    ((Recorder.scalarsItem P main_tag global_step r fs item).2.1.keys = r.keys ∨
      ∃ key, r.writers_.lookup key = none ∧
        (Recorder.scalarsItem P main_tag global_step r fs item).2.1.keys = r.keys ++ [key]) ∧
    (¬ (P.IsExisted fs (r.scalarsDir main_tag item.1) = true
        ∧ P.IsDirectory fs (r.scalarsDir main_tag item.1) = false) →
      ((Recorder.scalarsItem P main_tag global_step r fs item).2.1.keys = r.keys ∨
        (r.writers_.lookup (r.scalarsDir main_tag item.1) = none ∧
          (Recorder.scalarsItem P main_tag global_step r fs item).2.1.keys
            = r.keys ++ [r.scalarsDir main_tag item.1])) ∧
      (Recorder.scalarsItem P main_tag global_step r fs item).1.isSome
        = ((Recorder.scalarsItem P main_tag global_step r fs item).2.1.writers_.lookup
            (r.scalarsDir main_tag item.1)).isSome) := by
  cases h : r.writers_.lookup (r.scalarsDir main_tag item.1) with
  | some w =>
    rw [scalarsItem_found P main_tag global_step r fs item w h]
    have hk : (Recorder.mk r.log_dir_ r.writer_ (setWriter r.writers_
        (r.scalarsDir main_tag item.1) (AddEvent P.serialize (P.Timestamp fs) w
          (Scalar main_tag item.2) (wrapI32 global_step)).2)).keys = r.keys := by
      simp only [Recorder.keys, setWriter_keys]
    refine ⟨Or.inl hk, fun _ => ⟨Or.inl hk, ?_⟩⟩
    simp only [lookup_setWriter, if_true, h, Option.map_some', Option.isSome_some]
  | none =>
    obtain ⟨dir, hdir⟩ : ∃ dir, dir = if P.IsExisted fs (r.scalarsDir main_tag item.1) = true
        ∧ P.IsDirectory fs (r.scalarsDir main_tag item.1) = false
        then P.GetDirectoryPath fs (r.scalarsDir main_tag item.1)
        else r.scalarsDir main_tag item.1 := ⟨_, rfl⟩
    obtain ⟨fs1, hfs⟩ : ∃ fs1, fs1 = if P.IsExisted fs (r.scalarsDir main_tag item.1) = true
        then fs else (P.MakeDirs fs (r.scalarsDir main_tag item.1)).2 := ⟨_, rfl⟩
    rw [scalarsItem_absent P main_tag global_step r fs item h dir fs1 hdir hfs]
    cases hw : r.writers_.lookup dir with
    | some w =>
      simp only
      have hk : (Recorder.mk r.log_dir_ r.writer_ (setWriter r.writers_ dir
          (AddEvent P.serialize (P.Timestamp fs1) w (Scalar main_tag item.2)
            (wrapI32 global_step)).2)).keys = r.keys := by
        simp only [Recorder.keys, setWriter_keys]
      refine ⟨Or.inl hk, fun hno => ?_⟩
      rw [if_neg hno] at hdir
      subst hdir
      rw [h] at hw
      cases hw
    | none =>
      simp only
      by_cases he : P.IsExisted fs1 dir = true
      · rw [if_pos he]
        have hk : (Recorder.mk r.log_dir_ r.writer_ (setWriter
            (r.writers_ ++ [(dir, (P.make_writer fs1 (JoinPath dir "events")).1)]) dir
            (AddEvent P.serialize (P.Timestamp (P.make_writer fs1 (JoinPath dir "events")).2)
              (P.make_writer fs1 (JoinPath dir "events")).1 (Scalar main_tag item.2)
              (wrapI32 global_step)).2)).keys = r.keys ++ [dir] := by
          simp only [Recorder.keys, setWriter_keys, List.map_append, List.map_cons, List.map_nil]
        refine ⟨Or.inr ⟨dir, hw, hk⟩, fun hno => ?_⟩
        rw [if_neg hno] at hdir
        subst hdir
        refine ⟨Or.inr ⟨trivial, hk⟩, ?_⟩
        simp only [lookup_setWriter, if_true, lookup_append_new _ _ _ h, Option.map_some',
          Option.isSome_some]
      · rw [if_neg he]
        refine ⟨Or.inl rfl, fun hno => ⟨Or.inl rfl, ?_⟩⟩
        simp only [h, Option.isSome_none]

/-! ## One writer per path: the claim -/

/-- C22, amended: across every sequence of `AddScalars` calls on a recorder whose map holds no
path twice, the map still holds no path twice, the entries it had stay first and in order,
and each of their writers has only received further events. One sub-tag adds at most one
entry, under a path that had none; a sub-tag whose derived directory has an entry writes to
that writer without touching the file system; distinct sub-tags of one main tag have distinct
derived directories; and unless the derived directory exists as a non-directory (the case in
which the sub-tag falls back to the entry of the parent), the only entry a sub-tag can add is
that of its own derived directory, which exists afterwards exactly when the write was
attempted. -/
theorem add_scalars_one_writer_per_path {σ : Type} (P : Host σ)
    (calls : List (String × List (String × ℚ) × Int)) (r : Recorder) (fs : σ)
    (hnodup : r.keys.Nodup) :
    (Recorder.addScalarsAll P calls r fs).1.keys.Nodup ∧
    r.keys <+: (Recorder.addScalarsAll P calls r fs).1.keys ∧
    (Recorder.addScalarsAll P calls r fs).1.log_dir_ = r.log_dir_ ∧
    (∀ key w, r.writers_.lookup key = some w →
      ∃ events, (Recorder.addScalarsAll P calls r fs).1.writers_.lookup key
        = some (w.writeAll P.serialize events)) ∧
    (∀ (main_tag : String) (step : Int) (item : String × ℚ),
      (Recorder.scalarsItem P main_tag step r fs item).2.1.keys = r.keys ∨
      ∃ key, r.writers_.lookup key = none ∧
        (Recorder.scalarsItem P main_tag step r fs item).2.1.keys = r.keys ++ [key]) ∧
    (∀ (main_tag : String) (step : Int) (item : String × ℚ) (w : Writer),
      r.writers_.lookup (r.scalarsDir main_tag item.1) = some w →
      Recorder.scalarsItem P main_tag step r fs item
        = (some (AddEvent P.serialize (P.Timestamp fs) w (Scalar main_tag item.2)
              (wrapI32 step)).1,
           Recorder.mk r.log_dir_ r.writer_ (setWriter r.writers_ (r.scalarsDir main_tag item.1)
              (AddEvent P.serialize (P.Timestamp fs) w (Scalar main_tag item.2)
                (wrapI32 step)).2),
           fs)) ∧
    (∀ main_tag s1 s2 : String, s1 ≠ s2 →
      r.scalarsDir main_tag s1 ≠ r.scalarsDir main_tag s2) ∧
    (∀ (main_tag : String) (step : Int) (item : String × ℚ),
      ¬ (P.IsExisted fs (r.scalarsDir main_tag item.1) = true
          ∧ P.IsDirectory fs (r.scalarsDir main_tag item.1) = false) →
      ((Recorder.scalarsItem P main_tag step r fs item).2.1.keys = r.keys ∨
        (r.writers_.lookup (r.scalarsDir main_tag item.1) = none ∧
          (Recorder.scalarsItem P main_tag step r fs item).2.1.keys
            = r.keys ++ [r.scalarsDir main_tag item.1])) ∧
      (Recorder.scalarsItem P main_tag step r fs item).1.isSome
        = ((Recorder.scalarsItem P main_tag step r fs item).2.1.writers_.lookup
            (r.scalarsDir main_tag item.1)).isSome) := by
  obtain ⟨e1, -, e3, e4, e5⟩ := addScalarsAll_extends P calls r fs
  refine ⟨e4 hnodup, e3, e1, e5, ?_, ?_, ?_, ?_⟩
  · intro main_tag step item
    exact (scalarsItem_keys P main_tag step r fs item).1
  · intro main_tag step item w h
    exact scalarsItem_found P main_tag step r fs item w h
  · intro main_tag s1 s2 hne h
    exact hne (scalarsDir_injective r main_tag s1 s2 h)
  · intro main_tag step item hno
    exact (scalarsItem_keys P main_tag step r fs item).2 hno

/-- Witness of C22: two sub-tags, then one of them again, through new writers. -/
theorem add_scalars_one_writer_per_path_witness :
    (Recorder.mk "runs" none []).keys.Nodup ∧
    (Recorder.addScalarsAll (plainHost (ascii "ev"))
      [("loss", [("x", 1), ("y", 2)], 1), ("loss", [("x", 3)], 2)]
      ⟨"runs", none, []⟩ ()).1.keys.Nodup ∧
    (Recorder.addScalarsAll (plainHost (ascii "ev"))
      [("loss", [("x", 1), ("y", 2)], 1), ("loss", [("x", 3)], 2)]
      ⟨"runs", none, []⟩ ()).1.keys = ["runs/loss_x", "runs/loss_y"] :=
  ⟨by decide, (add_scalars_one_writer_per_path (plainHost (ascii "ev"))
      [("loss", [("x", 1), ("y", 2)], 1), ("loss", [("x", 3)], 2)]
      ⟨"runs", none, []⟩ () (by decide)).1, by decide⟩

/-- C22 fails as stated: when the derived directories `/runs/loss_x` and `/runs/loss_y` exist
as regular files, both sub-tags fall back to the parent `/runs`, whose entry is that of the
root writer: the two distinct sub-tags are written, with success, to one and the same writer
and get no entry of their own. -/
theorem add_scalars_subtags_share_entry :
    Recorder.scalarsDir ⟨"/runs", some "/runs", []⟩ "loss" "x" = "/runs/loss_x" ∧
    Recorder.scalarsDir ⟨"/runs", some "/runs", []⟩ "loss" "y" = "/runs/loss_y" ∧
    (Recorder.AddScalars
      (fileHost (fun path => some path) ["/runs/loss_x", "/runs/loss_y"] (ascii "ev"))
      ⟨"/runs", some "/runs", [("/runs", Writer.sync (FileWriter.new [] false true))]⟩ ()
      "loss" [("x", 1), ("y", 2)] 7).1 = 4 ∧
    (Recorder.AddScalars
      (fileHost (fun path => some path) ["/runs/loss_x", "/runs/loss_y"] (ascii "ev"))
      ⟨"/runs", some "/runs", [("/runs", Writer.sync (FileWriter.new [] false true))]⟩ ()
      "loss" [("x", 1), ("y", 2)] 7).2.1.keys = ["/runs"] ∧
    (Recorder.AddScalars
      (fileHost (fun path => some path) ["/runs/loss_x", "/runs/loss_y"] (ascii "ev"))
      ⟨"/runs", some "/runs", [("/runs", Writer.sync (FileWriter.new [] false true))]⟩ ()
      "loss" [("x", 1), ("y", 2)] 7).2.1.writers_
      = [("/runs", Writer.sync (FileWriter.mk (OfStream.mk true true
          (framesOf [ascii "ev", ascii "ev"]) [])))] := by
  refine ⟨by decide, by decide, by decide, by decide, by decide⟩

theorem Recorder_new_root {σ : Type} (P : Host σ) (fs : σ) (log_dir stamp host_name : String) :
    ((Recorder.new P fs log_dir stamp host_name).1.writer_ = none ∧
      (Recorder.new P fs log_dir stamp host_name).1.writers_ = []) ∨
    ∃ w, (Recorder.new P fs log_dir stamp host_name).1.root = some w ∧
      (Recorder.new P fs log_dir stamp host_name).1.writers_
        = [((Recorder.new P fs log_dir stamp host_name).1.log_dir_, w)] := by
  unfold Recorder.new
  simp only
  split_ifs <;> simp [Recorder.root, List.lookup]

theorem add_text_writes_to_root :
    (Recorder.AddText (plainHost (ascii "ev"))
        ⟨"runs", some "runs", [("runs", Writer.sync (FileWriter.new [] false true))]⟩ ()
        "t" "hello" 1).1 = 2 ∧
    (Recorder.AddText (plainHost (ascii "ev"))
        ⟨"runs", some "runs", [("runs", Writer.sync (FileWriter.new [] false true))]⟩ ()
        "t" "hello" 1).2.writers_
      = [("runs", Writer.sync (FileWriter.mk (OfStream.mk true true (frame (ascii "ev")) [])))] := by
  refine ⟨by decide, by decide⟩

theorem add_scalars_reuses_writer :
    (Recorder.addScalarsAll (plainHost (ascii "ev"))
      [("loss", [("x", 1), ("y", 2)], 1), ("loss", [("x", 3)], 2)]
      ⟨"runs", none, []⟩ ()).1.writers_
      = [("runs/loss_x", Writer.sync (FileWriter.mk (OfStream.mk true true
            (framesOf [ascii "ev", ascii "ev"]) []))),
         ("runs/loss_y", Writer.sync (FileWriter.mk (OfStream.mk true true
            (framesOf [ascii "ev"]) [])))] := by
  decide

set_option maxRecDepth 20000 in
theorem add_embedding_writes_rows :
    Recorder.AddEmbedding memDisk
        ⟨"runs", some "runs", [("runs", Writer.sync (FileWriter.new [] false true))]⟩
        ⟨["runs"], []⟩ [1, 2, 3, 4] 2 2 ["a", "b"] 0 "default"
      = .ok (135, ⟨["runs", "runs/00000/default"],
          [("runs/00000/default/metadata.tsv", "a\nb\n"),
           ("runs/00000/default/tensors.tsv", "v\tv\nv\tv\n"),
           ("runs/projector_config.pbtxt",
            "embeddings \x7b\n  tensor_name: \"default:00000\"\n  tensor_path: \"00000/default/tensors.tsv\"\n  metadata_path: \"00000/default/metadata.tsv\"\n\x7d\n")]⟩) := by
  rfl

/-! ## Grouped scalars: the sum of many sub-tags -/

theorem bitNames_length (k : Nat) : (bitNames k).length = 2 ^ k := by
  induction k with
  | zero => rfl
  | succ k ih =>
    simp only [bitNames, List.length_append, List.length_map, ih]
    rw [pow_succ]
    omega

theorem bitNames_each_length (k : Nat) : ∀ cs ∈ bitNames k, cs.length = k := by
  induction k with
  | zero =>
    intro cs h
    rw [List.mem_singleton.1 h]
    rfl
  | succ k ih =>
    intro cs h
    simp only [bitNames, List.mem_append, List.mem_map] at h
    rcases h with ⟨x, hx, rfl⟩ | ⟨x, hx, rfl⟩ <;> simp [ih x hx]

theorem bitNames_nodup (k : Nat) : (bitNames k).Nodup := by
  induction k with
  | zero => simp [bitNames]
  | succ k ih =>
    simp only [bitNames]
    rw [List.nodup_append]
    refine ⟨ih.map (fun x y h => List.tail_eq_of_cons_eq h),
      ih.map (fun x y h => List.tail_eq_of_cons_eq h), ?_⟩
    intro cs h1 h2
    rw [List.mem_map] at h1 h2
    obtain ⟨x, -, rfl⟩ := h1
    obtain ⟨y, -, hy⟩ := h2
    have := List.head_eq_of_cons_eq hy
    exact absurd this (by decide)

theorem subTags_nodup (n k : Nat) : ((subTags n k).map (fun item => item.1)).Nodup := by
  unfold subTags
  rw [List.map_map]
  exact ((bitNames_nodup k).sublist (List.take_sublist n _)).map (fun x y h => by
    simp only [Function.comp] at h
    exact congrArg String.data h)

theorem subTags_length (n k : Nat) (h : n ≤ 2 ^ k) : (subTags n k).length = n := by
  unfold subTags
  rw [List.length_map, List.length_take, bitNames_length]
  omega

theorem subTags_each_length (n k : Nat) : ∀ item ∈ subTags n k, item.1.length = k := by
  intro item h
  unfold subTags at h
  rw [List.mem_map] at h
  obtain ⟨cs, hcs, rfl⟩ := h
  exact bitNames_each_length k cs (List.mem_of_mem_take hcs)

/-- In the environment `plainHost`, sub-tags with distinct names and no writer yet are each
written through a new writer, with the payload length as result. -/
theorem plainHost_run (big : List Byte) (hne : big ≠ []) (main_tag : String)
    (global_step : Int) (items : List (String × ℚ)) :
    ∀ r : Recorder, (items.map (fun item => item.1)).Nodup →
      (∀ item ∈ items, r.scalarsDir main_tag item.1 ∉ r.keys) →
      (scalarsRun (plainHost big) main_tag global_step items r ()).1
        = List.replicate items.length (some (toInt32 big.length)) := by
  induction items with
  | nil =>
    intro r _ _
    rfl
  | cons item rest ih =>
    intro r hnd hfresh
    have hf : r.writers_.lookup (r.scalarsDir main_tag item.1) = none :=
      (lookup_none_iff _ _).2 (hfresh item (List.mem_cons_self _ _))
    obtain ⟨h1, h2, h3⟩ := plainHost_item big hne main_tag global_step r item hf
    rw [List.map_cons, List.nodup_cons] at hnd
    have hrest := ih (Recorder.scalarsItem (plainHost big) main_tag global_step r () item).2.1
      hnd.2 (by
        intro it hit
        have hdir : (Recorder.scalarsItem (plainHost big) main_tag global_step r ()
            item).2.1.scalarsDir main_tag it.1 = r.scalarsDir main_tag it.1 := by
          unfold Recorder.scalarsDir
          rw [h2]
        rw [hdir]
        unfold Recorder.keys
        rw [h3, setWriter_keys, List.map_append, List.mem_append]
        rintro (hm | hm)
        · exact hfresh it (List.mem_cons_of_mem _ hit) hm
        · simp only [List.map_cons, List.map_nil, List.mem_singleton] at hm
          have := scalarsDir_injective r main_tag _ _ hm
          exact hnd.1 (by rw [← this]; exact List.mem_map_of_mem _ hit))
    show (Recorder.scalarsItem (plainHost big) main_tag global_step r () item).1 ::
        (scalarsRun (plainHost big) main_tag global_step rest
          (Recorder.scalarsItem (plainHost big) main_tag global_step r () item).2.1 ()).1 = _
    rw [h1, hrest]
    rfl

theorem countsTotal_replicate (n : Nat) (c : Int) (hc : 0 ≤ c) :
    countsTotal (List.replicate n (some c)) = n * c := by
  induction n with
  | zero => simp [countsTotal]
  | succ n ih =>
    have e : countsTotal (List.replicate (n + 1) (some c))
        = max c 0 + countsTotal (List.replicate n (some c)) := by
      simp [countsTotal, List.replicate_succ]
    rw [e, ih, max_eq_left hc]
    push_cast
    ring

theorem not_failed_replicate (n : Nat) (c : Int) (hc : 0 ≤ c) :
    ¬ ∃ cnt ∈ List.replicate n (some c), scalarFailed cnt := by
  rintro ⟨cnt, hm, hf⟩
  rw [List.eq_of_mem_replicate hm] at hf
  have : c < 0 := hf
  omega

/-- The accumulation of `n + 1` equal results whose first `n` fit the `int`. -/
theorem accumulate_replicate_succ (n : Nat) (c : Int) (hc : 0 ≤ c) (h : n * c < 2 ^ 31) :
    (List.replicate (n + 1) (some c)).foldl scalarsAccumulate 0 = wrapI32 (n * c + c) := by
  have h1 := accumulate_of_success (List.replicate n (some c)) 0 (not_failed_replicate n c hc)
    (le_refl _) (by rw [countsTotal_replicate n c hc]; simpa using h)
  rw [countsTotal_replicate n c hc, zero_add] at h1
  rw [List.replicate_succ', List.foldl_append, h1]
  have hnn : (0 : Int) ≤ n * c := mul_nonneg (by omega) hc
  have h2 : ¬ (c < 0 ∨ (n : Int) * c < 0) := by omega
  simp only [List.foldl_cons, List.foldl_nil, scalarsAccumulate, h2, if_false]

theorem accumulate_replicate_pos (n : Nat) (c : Int) (hn : 0 < n) (hc : 0 ≤ c)
    (h : ((n - 1 : Nat) : Int) * c < 2 ^ 31) :
    (List.replicate n (some c)).foldl scalarsAccumulate 0
      = wrapI32 (((n - 1 : Nat) : Int) * c + c) := by
  obtain ⟨m, rfl⟩ : ∃ m, n = m + 1 := ⟨n - 1, by omega⟩
  exact accumulate_replicate_succ m c hc h

theorem addScalars_result_of_trace {σ : Type} (P : Host σ) (r : Recorder) (fs : σ)
    (main_tag : String) (tag_values : List (String × ℚ)) (global_step : Int)
    (tr : List (Option Int)) (h : (scalarsRun P main_tag global_step tag_values r fs).1 = tr) :
    (r.AddScalars P fs main_tag tag_values global_step).1 = tr.foldl scalarsAccumulate 0 := by
  unfold Recorder.AddScalars
  rw [scalarsLoop_eq_run, h]

theorem deepTag_keeps_slashes : Replace deepTag '/' '_' = deepTag := by
  unfold Replace
  rw [if_neg (by decide)]

theorem deepTag_length : deepTag.length = 3975 := by
  show ((List.replicate 15 ('/' :: List.replicate 253 'a')).flatten
    ++ '/' :: List.replicate 164 'a').length = 3975
  rw [List.length_append, List.length_flatten, List.map_replicate, List.sum_replicate,
    List.length_cons, List.length_replicate, List.length_cons, List.length_replicate]
  rfl

/-- C20 fails as stated once the byte counts reach `2^31`: 536871 sub-tags with names of 20
letters under a main tag of 3975 characters (it starts with `/` and so keeps its slashes: every
directory path has 3998 characters, in components of at most 253), each written with success
through its own writer as an event of 4000 bytes. No sub-tag lacks a writer and no result is
negative, yet `AddScalars` returns `-2147483296`, which is neither `-1` nor the sum
`2147484000` of the byte counts. -/
theorem add_scalars_sum_wraps :
    deepTag.length = 3975 ∧ Replace deepTag '/' '_' = deepTag ∧
    (subTags 536871 20).length = 536871 ∧ (∀ item ∈ subTags 536871 20, item.1.length = 20) ∧
    (scalarsRun (plainHost (List.replicate 4000 0)) deepTag 7 (subTags 536871 20)
        ⟨"r", none, []⟩ ()).1 = List.replicate 536871 (some 4000) ∧
    (¬ ∃ cnt ∈ List.replicate 536871 (some (4000 : Int)), scalarFailed cnt) ∧
    countsTotal (List.replicate 536871 (some 4000)) = 2147484000 ∧
    (Recorder.AddScalars (plainHost (List.replicate 4000 0)) ⟨"r", none, []⟩ () deepTag
        (subTags 536871 20) 7).1 = -2147483296 := by
  have hlen : (subTags 536871 20).length = 536871 := subTags_length _ _ (by norm_num)
  have hne : (List.replicate 4000 (0 : Byte)) ≠ [] := by
    intro h
    have := congrArg List.length h
    rw [List.length_replicate] at this
    exact absurd this (by decide)
  have hrun := plainHost_run (List.replicate 4000 0) hne deepTag 7 (subTags 536871 20)
    ⟨"r", none, []⟩ (subTags_nodup _ _) (fun item _ => by simp [Recorder.keys])
  have hc : toInt32 (List.replicate 4000 (0 : Byte)).length = 4000 := by
    rw [List.length_replicate]
    decide
  rw [hlen, hc] at hrun
  refine ⟨deepTag_length, deepTag_keeps_slashes, hlen, subTags_each_length _ _, hrun,
    not_failed_replicate _ _ (by norm_num), ?_, ?_⟩
  · rw [countsTotal_replicate _ _ (by norm_num)]
    norm_num
  · rw [addScalars_result_of_trace _ _ _ _ _ _ _ hrun,
      accumulate_replicate_pos 536871 4000 (by norm_num) (by norm_num) (by norm_num)]
    unfold wrapI32
    norm_num

end nlptk
